import Mathlib

/-!
# CHIP-8 emulator (`src/main.c`): decoder and executor

A shallow embedding of the interpreter core of `main.c`: the opcode pattern
table, `op_fetch`, `op_decode` and the `switch` of the main loop, followed by
theorems about them.

Machine integers are natural numbers (or integers, for the signed stack
pointer) with an explicit reduction modulo `2^w` at every store into a
`uintN_t` object.  Arrays are total functions from indices to values; an
index outside the C array reads or writes a cell of its own.
-/

namespace Chip8Emu

/-! ## Opcode pattern table and decoder -/

/-- The enumeration `Op_Type`, in declaration order (`OP_CLS = 0`). -/
inductive Op_Type where
  | OP_CLS | OP_RET | OP_SYS | OP_CALL | OP_SE_RB | OP_SE_RR | OP_OR | OP_AND
  | OP_XOR | OP_SUB | OP_SHR | OP_SUBN | OP_SHL | OP_SNE_R_B | OP_SNE_R_R
  | OP_JP_ADDR | OP_JP_V0_ADDR | OP_RND | OP_DRW | OP_SKP | OP_SKNP
  | OP_ADD_R_B | OP_ADD_R_R | OP_ADD_I_R | OP_LD_R_B | OP_LD_R_R
  | OP_LD_I_ADDR | OP_LD_R_DT | OP_LD_R_K | OP_LD_DT_R | OP_LD_ST_R
  | OP_LD_FONT_R | OP_LD_BCD_R | OP_LD_IMEM_R | OP_LD_R_IMEM
  deriving DecidableEq, Repr

open Op_Type

/-- The struct `Op_Pattern`: two `uint16_t` fields. -/
structure Op_Pattern where
  mask : Nat
  value : Nat
  deriving DecidableEq, Repr

/-- The array `op_decode_table`, indexed by `Op_Type`. -/
def op_decode_table : Op_Type → Op_Pattern
  | OP_CLS        => ⟨0xFFFF, 0x00E0⟩
  | OP_RET        => ⟨0xFFFF, 0x00EE⟩
  | OP_SYS        => ⟨0xF000, 0x0000⟩
  | OP_CALL       => ⟨0xF000, 0x2000⟩
  | OP_SE_RB      => ⟨0xF000, 0x3000⟩
  | OP_SE_RR      => ⟨0xF000, 0x5000⟩
  | OP_OR         => ⟨0xF00F, 0x8001⟩
  | OP_AND        => ⟨0xF00F, 0x8002⟩
  | OP_XOR        => ⟨0xF00F, 0x8003⟩
  | OP_SUB        => ⟨0xF00F, 0x8005⟩
  | OP_SHR        => ⟨0xF00F, 0x8006⟩
  | OP_SUBN       => ⟨0xF00F, 0x8007⟩
  | OP_SHL        => ⟨0xF00F, 0x800E⟩
  | OP_SNE_R_B    => ⟨0xF000, 0x4000⟩
  | OP_SNE_R_R    => ⟨0xF00F, 0x9000⟩
  | OP_JP_ADDR    => ⟨0xF000, 0x1000⟩
  | OP_JP_V0_ADDR => ⟨0xF000, 0xB000⟩
  | OP_RND        => ⟨0xF000, 0xC000⟩
  | OP_DRW        => ⟨0xF000, 0xD000⟩
  | OP_SKP        => ⟨0xF0FF, 0xE09E⟩
  | OP_SKNP       => ⟨0xF0FF, 0xE0A1⟩
  | OP_ADD_R_B    => ⟨0xF000, 0x7000⟩
  | OP_ADD_R_R    => ⟨0xF00F, 0x8004⟩
  | OP_ADD_I_R    => ⟨0xF0FF, 0xF01E⟩
  | OP_LD_R_B     => ⟨0xF000, 0x6000⟩
  | OP_LD_R_R     => ⟨0xF00F, 0x8000⟩
  | OP_LD_I_ADDR  => ⟨0xF000, 0xA000⟩
  | OP_LD_R_DT    => ⟨0xF0FF, 0xF007⟩
  | OP_LD_R_K     => ⟨0xF0FF, 0xF00A⟩
  | OP_LD_DT_R    => ⟨0xF0FF, 0xF015⟩
  | OP_LD_ST_R    => ⟨0xF0FF, 0xF018⟩
  | OP_LD_FONT_R  => ⟨0xF0FF, 0xF029⟩
  | OP_LD_BCD_R   => ⟨0xF0FF, 0xF033⟩
  | OP_LD_IMEM_R  => ⟨0xF0FF, 0xF055⟩
  | OP_LD_R_IMEM  => ⟨0xF0FF, 0xF065⟩

/-- The values `0, 1, ..., __OP_CNT__ - 1` of `Op_Type`, ascending: the
order in which the loop of `op_decode` visits the table. -/
def op_types : List Op_Type :=
  [OP_CLS, OP_RET, OP_SYS, OP_CALL, OP_SE_RB, OP_SE_RR, OP_OR, OP_AND,
   OP_XOR, OP_SUB, OP_SHR, OP_SUBN, OP_SHL, OP_SNE_R_B, OP_SNE_R_R,
   OP_JP_ADDR, OP_JP_V0_ADDR, OP_RND, OP_DRW, OP_SKP, OP_SKNP,
   OP_ADD_R_B, OP_ADD_R_R, OP_ADD_I_R, OP_LD_R_B, OP_LD_R_R,
   OP_LD_I_ADDR, OP_LD_R_DT, OP_LD_R_K, OP_LD_DT_R, OP_LD_ST_R,
   OP_LD_FONT_R, OP_LD_BCD_R, OP_LD_IMEM_R, OP_LD_R_IMEM]

/-- The test `(op_pattern.mask & op) == op_pattern.value` of `op_decode`. -/
def op_matches (op : Nat) (type : Op_Type) : Bool :=
  (op_decode_table type).mask &&& op == (op_decode_table type).value

/-- The loop of `op_decode` over the remaining enumeration values.  Running
off the end of the table is the `assert(0 && "unreacheable")`: `none`. -/
def op_decode_loop (op : Nat) : List Op_Type → Option Op_Type
  | [] => none
  | type :: rest => if op_matches op type then some type else op_decode_loop op rest

/-- The function `op_decode`. -/
def op_decode (op : Nat) : Option Op_Type :=
  op_decode_loop op op_types

/-! ## Machine state -/

/-- The constant `MEMORY_SIZE`. -/
def MEMORY_SIZE : Nat := 0x1000

/-- The constant `STACK_SIZE`. -/
def STACK_SIZE : Nat := 0x10

/-- The constant `FRAME_W`. -/
def FRAME_W : Nat := 64

/-- The constant `FRAME_H`. -/
def FRAME_H : Nat := 32

/-- The struct `Chip8`.  `sp` is an `int8_t`, hence an integer; the arrays
`frame_buffer`, `memory`, `regs` and `stack` are functions of the index. -/
structure Chip8 where
  frame_buffer : Nat → Nat
  sp : Int
  delay_timer : Nat
  sound_timer : Nat
  memory : Nat → Nat
  regs : Nat → Nat
  stack : Int → Nat
  pc : Nat
  regi : Nat
  keyboard : Nat

/-- The data model of a `Chip8` value: every field holds a value of its C
type (`uint8_t`, `uint16_t`, `uint64_t`), and the stack pointer counts the
return addresses held in `stack[STACK_SIZE]`, from 0 to 16. -/
structure Chip8.WellFormed (c : Chip8) : Prop where
  frame_buffer_lt : ∀ i, c.frame_buffer i < 2 ^ 64
  sp_nonneg : 0 ≤ c.sp
  sp_le : c.sp ≤ 16
  delay_timer_lt : c.delay_timer < 256
  sound_timer_lt : c.sound_timer < 256
  memory_lt : ∀ i, c.memory i < 256
  regs_lt : ∀ i, c.regs i < 256
  stack_lt : ∀ i, c.stack i < 65536
  pc_lt : c.pc < 65536
  regi_lt : c.regi < 65536
  keyboard_lt : c.keyboard < 65536

/-- The variables of `main` that live across iterations of its loop, next to
`chip8`: the last fetched word `op` and the flag `waiting_for_key`. -/
structure Main extends Chip8 where
  op : Nat
  waiting_for_key : Bool

/-- The ways a cycle ends the process instead of producing a next state. -/
inductive Err where
  /-- In `op_fetch`: "trying to accessing a out of bound adress". -/
  | fetch_out_of_bounds
  /-- In `op_decode`: `assert(0 && "unreacheable")`. -/
  | unreachable
  /-- In `OP_RET`: "stack underflow". -/
  | stack_underflow
  /-- In `OP_CALL`: "stack overflow". -/
  | stack_overflow
  /-- In `OP_DRW`, `OP_LD_BCD_R`, `OP_LD_IMEM_R`, `OP_LD_R_IMEM`: "out of bounds". -/
  | out_of_bounds
  /-- In `OP_SKP`, `OP_SKNP`: "invalid key". -/
  | invalid_key
  /-- The assertion `TODO(msg)`, which is `assert(0 && msg)`. -/
  | todo
  deriving DecidableEq, Repr

/-- The field `chip8` of `keyboard_decode_table`, by table index. -/
def keyboard_decode_table (i : Nat) : Nat :=
  match i with
  | 0x1 => 0x8000 | 0x2 => 0x4000 | 0x3 => 0x2000 | 0xC => 0x1000
  | 0x4 => 0x0800 | 0x5 => 0x0400 | 0x6 => 0x0200 | 0xD => 0x0100
  | 0x7 => 0x0080 | 0x8 => 0x0040 | 0x9 => 0x0020 | 0xE => 0x0010
  | 0xA => 0x0008 | 0x0 => 0x0004 | 0xB => 0x0002 | 0xF => 0x0001
  | _ => 0

/-- The function `op_fetch`.  The guard is on `addr` alone; the second byte
is read at `addr + 1` whatever its value.  For `addr = MEMORY_SIZE - 1` that
is the byte after the array, which the language leaves undefined and the
struct layout places in `regs[0]`; here it is the cell `memory MEMORY_SIZE`,
so statements that compare the fetch of two register files are made for
`addr + 1 < MEMORY_SIZE` only. -/
def op_fetch (chip8 : Chip8) : Except Err Nat :=
  let addr := chip8.pc
  if addr > MEMORY_SIZE - 1 then .error .fetch_out_of_bounds
  else .ok ((chip8.memory addr <<< 8 ||| chip8.memory (addr + 1)) % 65536)

/-- The statement `chip8.pc += 2` on a `uint16_t`. -/
def pc_add2 (pc : Nat) : Nat := (pc + 2) % 65536

/-- The operand `x = (op & 0x0F00) >> 8`. -/
def op_x (op : Nat) : Nat := (op &&& 0x0F00) >>> 8

/-- The operand `y = (op & 0x00F0) >> 4`. -/
def op_y (op : Nat) : Nat := (op &&& 0x00F0) >>> 4

/-! ## The loops of the executor -/

/-- The inner loop of `OP_DRW`,
`for (k = 0, index = x + k; index < FRAME_W && k < 8; k++, index = x + k)`,
entered at `k` with `8 - k` iterations left before `k < 8` fails. -/
def drw_bits (x y sprite_byte : Nat) : Nat → Nat → Chip8 → Chip8
  | 0, _, chip8 => chip8
  | left + 1, k, chip8 =>
    let index := (x + k) % 256
    if index < FRAME_W then
      let current_bit := (chip8.frame_buffer y >>> index) &&& 1
      let sprite_bit := (sprite_byte >>> (7 - k)) &&& 1
      let frame_bit := sprite_bit ^^^ current_bit
      let row := chip8.frame_buffer y &&& (0xFFFFFFFFFFFFFFFF ^^^ ((1 <<< index) % 2 ^ 64))
      let row := row ||| (frame_bit <<< index) % 2 ^ 64
      drw_bits x y sprite_byte left (k + 1)
        { chip8 with
          frame_buffer := Function.update chip8.frame_buffer y row
          regs := Function.update chip8.regs 0xF
            (chip8.regs 0xF ||| (current_bit &&& sprite_bit)) }
    else chip8

/-- The outer loop of `OP_DRW`,
`for (i = 0; y < FRAME_H && i < n; i++, y++)`, entered at `i` and `y` with
`n - i` iterations left before `i < n` fails. -/
def drw_rows (x : Nat) : Nat → Nat → Nat → Chip8 → Except Err Chip8
  | 0, _, _, chip8 => .ok chip8
  | left + 1, i, y, chip8 =>
    if y < FRAME_H then
      let mem := (chip8.regi + i) % 65536
      if mem ≥ MEMORY_SIZE then .error .out_of_bounds
      else
        let sprite_byte := chip8.memory mem
        drw_rows x left (i + 1) ((y + 1) % 256) (drw_bits x y sprite_byte 8 0 chip8)
    else .ok chip8

/-- The loop of `OP_LD_IMEM_R`, `for (i = 0; i <= x; i++)`, entered at `i`
with `x + 1 - i` iterations left. -/
def ld_imem_r_loop : Nat → Nat → Chip8 → Except Err Chip8
  | 0, _, chip8 => .ok chip8
  | left + 1, i, chip8 =>
    let mem := chip8.regi
    let chip8 := { chip8 with regi := (chip8.regi + 1) % 65536 }
    if mem ≥ MEMORY_SIZE then .error .out_of_bounds
    else
      ld_imem_r_loop left (i + 1)
        { chip8 with memory := Function.update chip8.memory mem (chip8.regs i) }

/-- The loop of `OP_LD_R_IMEM`, `for (i = 0; i <= x; i++)`, entered at `i`
with `x + 1 - i` iterations left. -/
def ld_r_imem_loop : Nat → Nat → Chip8 → Except Err Chip8
  | 0, _, chip8 => .ok chip8
  | left + 1, i, chip8 =>
    let mem := chip8.regi
    let chip8 := { chip8 with regi := (chip8.regi + 1) % 65536 }
    if mem ≥ MEMORY_SIZE then .error .out_of_bounds
    else
      ld_r_imem_loop left (i + 1)
        { chip8 with regs := Function.update chip8.regs i (chip8.memory mem) }

/-! ## The executor -/

/-- The `switch (type)` of the main loop, one arm per `case`.  A `return 1`
or a failed assertion is an error; otherwise the result is the state at the
`break`. -/
def execute (type : Op_Type) (op : Nat) (m : Main) : Except Err Main :=
  let x := op_x op
  let y := op_y op
  match type with
  | OP_CLS =>
    .ok { m with frame_buffer := fun _ => 0, pc := pc_add2 m.pc }
  | OP_RET =>
    if m.sp ≤ 0 then .error .stack_underflow
    else .ok { m with sp := m.sp - 1, pc := m.stack (m.sp - 1) }
  | OP_CALL =>
    if m.sp ≥ (STACK_SIZE : Int) then .error .stack_overflow
    else
      .ok { m with
        stack := Function.update m.stack m.sp ((m.pc + 2) % 65536)
        sp := m.sp + 1
        pc := op &&& 0x0FFF }
  | OP_SYS => .error .todo
  | OP_SE_RB =>
    let k := (op &&& 0x00FF) % 256
    let pc := if m.regs x = k then pc_add2 m.pc else m.pc
    .ok { m with pc := pc_add2 pc }
  | OP_SE_RR =>
    let pc := if m.regs x = m.regs y then pc_add2 m.pc else m.pc
    .ok { m with pc := pc_add2 pc }
  | OP_OR =>
    let regs := Function.update m.regs x ((m.regs x ||| m.regs y) % 256)
    .ok { m with regs := Function.update regs 0xF 0, pc := pc_add2 m.pc }
  | OP_AND =>
    let regs := Function.update m.regs x ((m.regs x &&& m.regs y) % 256)
    .ok { m with regs := Function.update regs 0xF 0, pc := pc_add2 m.pc }
  | OP_XOR =>
    let regs := Function.update m.regs x ((m.regs x ^^^ m.regs y) % 256)
    .ok { m with regs := Function.update regs 0xF 0, pc := pc_add2 m.pc }
  | OP_SUB =>
    let vx := m.regs x
    let vy := m.regs y
    let regs := Function.update m.regs x (((vx : Int) - (vy : Int)) % 256).toNat
    .ok { m with
      regs := Function.update regs 0xF (if vx ≥ vy then 1 else 0)
      pc := pc_add2 m.pc }
  | OP_SHR =>
    let vy := m.regs y
    let regs := Function.update m.regs x ((vy >>> 1) % 256)
    .ok { m with regs := Function.update regs 0xF (vy &&& 1), pc := pc_add2 m.pc }
  | OP_SHL =>
    let vy := m.regs y
    let regs := Function.update m.regs x ((vy <<< 1) % 256)
    .ok { m with
      regs := Function.update regs 0xF ((vy >>> 7) &&& 1)
      pc := pc_add2 m.pc }
  | OP_SUBN =>
    let vx := m.regs x
    let vy := m.regs y
    let regs := Function.update m.regs x (((vy : Int) - (vx : Int)) % 256).toNat
    .ok { m with
      regs := Function.update regs 0xF (if vy ≥ vx then 1 else 0)
      pc := pc_add2 m.pc }
  | OP_SNE_R_B =>
    let k := (op &&& 0x0FF) % 256
    let pc := if m.regs x ≠ k then pc_add2 m.pc else m.pc
    .ok { m with pc := pc_add2 pc }
  | OP_SNE_R_R =>
    let pc := if m.regs x ≠ m.regs y then pc_add2 m.pc else m.pc
    .ok { m with pc := pc_add2 pc }
  | OP_JP_ADDR => .ok { m with pc := op &&& 0x0FFF }
  | OP_JP_V0_ADDR =>
    let addr := op &&& 0x0FFF
    .ok { m with pc := (addr + m.regs 0) % 65536 }
  | OP_RND => .error .todo
  | OP_DRW =>
    let chip8 := { m.toChip8 with regs := Function.update m.regs 0xF 0 }
    let x := chip8.regs x % FRAME_W
    let y := chip8.regs y % FRAME_H
    let n := (op &&& 0x000F) % 256
    match drw_rows x n 0 y chip8 with
    | .error e => .error e
    | .ok chip8 => .ok { m with toChip8 := { chip8 with pc := pc_add2 chip8.pc } }
  | OP_SKP =>
    let key := m.regs x
    if key > 0xF then .error .invalid_key
    else
      let pc := if m.keyboard &&& keyboard_decode_table key ≠ 0 then pc_add2 m.pc else m.pc
      .ok { m with pc := pc_add2 pc }
  | OP_SKNP =>
    let key := m.regs x
    if key > 0xF then .error .invalid_key
    else
      let pc := if m.keyboard &&& keyboard_decode_table key = 0 then pc_add2 m.pc else m.pc
      .ok { m with pc := pc_add2 pc }
  | OP_ADD_R_B =>
    let value := (op &&& 0x00FF) % 256
    .ok { m with
      regs := Function.update m.regs x (((m.regs x + value) &&& 0xFF) % 256)
      pc := pc_add2 m.pc }
  | OP_ADD_R_R =>
    let t := (m.regs x + m.regs y) % 65536
    let regs := Function.update m.regs x (t % 256)
    .ok { m with
      regs := Function.update regs 0xF (if t > 255 then 1 else 0)
      pc := pc_add2 m.pc }
  | OP_ADD_I_R =>
    .ok { m with regi := (m.regi + m.regs x) % 65536, pc := pc_add2 m.pc }
  | OP_LD_R_B =>
    .ok { m with
      regs := Function.update m.regs x ((op &&& 0x00FF) % 256)
      pc := pc_add2 m.pc }
  | OP_LD_R_R =>
    .ok { m with regs := Function.update m.regs x (m.regs y), pc := pc_add2 m.pc }
  | OP_LD_I_ADDR => .ok { m with regi := op &&& 0x0FFF, pc := pc_add2 m.pc }
  | OP_LD_R_DT =>
    .ok { m with regs := Function.update m.regs x m.delay_timer, pc := pc_add2 m.pc }
  | OP_LD_R_K => .ok { m with waiting_for_key := true, pc := pc_add2 m.pc }
  | OP_LD_DT_R => .ok { m with delay_timer := m.regs x, pc := pc_add2 m.pc }
  | OP_LD_ST_R => .error .todo
  | OP_LD_FONT_R => .error .todo
  | OP_LD_BCD_R =>
    let start := m.regi
    if start ≥ MEMORY_SIZE - 3 then .error .out_of_bounds
    else
      let v := m.regs x
      let memory := Function.update m.memory (start + 0) ((v / 100) % 256)
      let memory := Function.update memory (start + 1) (((v / 10) % 10) % 256)
      let memory := Function.update memory (start + 2) (((v % 10) % 10) % 256)
      .ok { m with memory := memory, pc := pc_add2 m.pc }
  | OP_LD_IMEM_R =>
    match ld_imem_r_loop (x + 1) 0 m.toChip8 with
    | .error e => .error e
    | .ok chip8 => .ok { m with toChip8 := { chip8 with pc := pc_add2 chip8.pc } }
  | OP_LD_R_IMEM =>
    match ld_r_imem_loop (x + 1) 0 m.toChip8 with
    | .error e => .error e
    | .ok chip8 => .ok { m with toChip8 := { chip8 with pc := pc_add2 chip8.pc } }

/-- The body of `if (!waiting_for_key)` in the main loop: fetch the word at
`pc`, decode it, run its `case`. -/
def fetch_decode_execute (m : Main) : Except Err Main :=
  match op_fetch m.toChip8 with
  | .error e => .error e
  | .ok op =>
    match op_decode op with
    | none => .error .unreachable
    | some type => execute type op { m with op := op }

/-- The numeric value of an enumeration constant (`OP_CLS = 0`, ...,
`OP_LD_R_IMEM = 34`), which is its index into `op_decode_table`. -/
def Op_Type.index (type : Op_Type) : Nat := type.toCtorIdx

/-- The iteration of the fetch-decode-execute block: `n` consecutive
iterations of the main loop in which no key is awaited. -/
def run : Nat → Main → Except Err Main
  | 0, m => .ok m
  | n + 1, m =>
    match run n m with
    | .error e => .error e
    | .ok m' => fetch_decode_execute m'

/-- The state of `main` on entry to its loop: `Chip8 chip8 = {0}`, the image
already in `memory`, `chip8.pc = 0x200`, `waiting_for_key = false`. -/
def main_init (memory : Nat → Nat) : Main where
  frame_buffer := fun _ => 0
  sp := 0
  delay_timer := 0
  sound_timer := 0
  memory := memory
  regs := fun _ => 0
  stack := fun _ => 0
  pc := 0x200
  regi := 0
  keyboard := 0
  op := 0
  waiting_for_key := false

/-! ## The rest of the main loop -/

/-- The timer block of the main loop.  `tick` tells whether the accumulated
frame time `dt` has reached `1/60.0` in this iteration. -/
def timer_tick (tick : Bool) (m : Main) : Main :=
  if tick then
    let m := if m.delay_timer > 0 then { m with delay_timer := m.delay_timer - 1 } else m
    if m.sound_timer > 0 then { m with sound_timer := m.sound_timer - 1 } else m
  else m

/-- The body of `for (int i = 0; i < 16; i++)` in the main loop.  The host
library calls `IsKeyDown(keyboard_decode_table[i].raylib)` and
`IsKeyUp(keyboard_decode_table[i].raylib)` are the inputs `is_key_down i` and
`is_key_up i`. -/
def keyboard_iter (is_key_down is_key_up : Nat → Bool) (i : Nat) (m : Main) : Main :=
  let m := if is_key_down i then
      { m with keyboard := (m.keyboard ||| keyboard_decode_table i) % 65536 }
    else m
  if m.keyboard &&& keyboard_decode_table i ≠ 0 ∧ is_key_up i = true then
    let m := { m with keyboard := m.keyboard &&& (0xFFFF ^^^ keyboard_decode_table i) }
    if m.waiting_for_key then
      { m with
        waiting_for_key := false
        regs := Function.update m.regs (op_x m.op) (i % 256) }
    else m
  else m

/-- The loop `for (int i = 0; i < 16; i++)` of the main loop, entered at `i`
with `16 - i` iterations left. -/
def keyboard_loop (is_key_down is_key_up : Nat → Bool) : Nat → Nat → Main → Main
  | 0, _, m => m
  | left + 1, i, m =>
    keyboard_loop is_key_down is_key_up left (i + 1) (keyboard_iter is_key_down is_key_up i m)

/-- One iteration of `while (!WindowShouldClose())`: the timer block, the
keyboard loop, then the fetch-decode-execute block unless a key is awaited.
Drawing the frame changes nothing in the state. -/
def cycle (tick : Bool) (is_key_down is_key_up : Nat → Bool) (m : Main) : Except Err Main :=
  let m := timer_tick tick m
  let m := keyboard_loop is_key_down is_key_up 16 0 m
  if !m.waiting_for_key then fetch_decode_execute m else .ok m

/-- The guard `size >= MEMORY_SIZE - 0x200` of `read_rom_to_memory`: true
when the image is refused as "too big". -/
def rom_too_big (size : Nat) : Bool :=
  size ≥ MEMORY_SIZE - 0x200

/-- The function `read_rom_to_memory`, the file being given by its contents
(`none` when `fopen` fails).  `ftell` reports the length; the call
`fread(chip8->memory + 0x200, size, size, file)` asks for `size` items of
`size` bytes, so it stores the `size` bytes of the file and returns 1, or
returns 0 when the file is empty. -/
def read_rom_to_memory (chip8 : Chip8) (rom : Option (List Nat)) : Chip8 × Bool :=
  match rom with
  | none => (chip8, false)
  | some bytes =>
    let size := bytes.length
    if rom_too_big size then (chip8, false)
    else if size = 0 then (chip8, false)
    else
      ({ chip8 with
          memory := fun a =>
            if 0x200 ≤ a ∧ a < 0x200 + size then bytes.getD (a - 0x200) 0 else chip8.memory a },
        true)

/-- What the host supplies to one iteration of the main loop: whether the
frame time has reached a timer tick, and the answers of `IsKeyDown` and
`IsKeyUp` for the 16 keys. -/
structure Frame_Input where
  tick : Bool
  is_key_down : Nat → Bool
  is_key_up : Nat → Bool

/-- The iterations of `while (!WindowShouldClose())`, one per input, as long
as none of them ends the process. -/
def run_cycles : List Frame_Input → Main → Except Err Main
  | [], m => .ok m
  | input :: rest, m =>
    match cycle input.tick input.is_key_down input.is_key_up m with
    | .error e => .error e
    | .ok m' => run_cycles rest m'

/-! ## Concrete programs and states used as test inputs -/

/-- Memory holding `CALL 0x300` at `0x200` and `RET` at `0x300`. -/
def call_ret_memory (a : Nat) : Nat :=
  if a = 0x200 then 0x23 else if a = 0x301 then 0xEE else 0

/-- Memory holding `CALL 0x200` at `0x200`: a subroutine that calls itself. -/
def call_self_memory (a : Nat) : Nat :=
  if a = 0x200 then 0x22 else 0

/-- Memory holding `RET` at `0x200`. -/
def ret_memory (a : Nat) : Nat :=
  if a = 0x201 then 0xEE else 0

/-- The state at entry to the loop with the instruction bytes `hi lo` at
`0x200`, registers `regs` and index register `regi`. -/
def instr_state (hi lo : Nat) (regs : Nat → Nat) (regi : Nat) : Main :=
  { main_init (fun a => if a = 0x200 then hi else if a = 0x201 then lo else 0) with
    regs := regs
    regi := regi }

/-- Registers with `V0 = v0`, `V1 = v1` and the others `0`. -/
def regs_v0_v1 (v0 v1 : Nat) (i : Nat) : Nat :=
  if i = 0 then v0 else if i = 1 then v1 else 0

/-- Registers with `V0 = v0`, `VF = vf` and the others `0`. -/
def regs_v0_vf (v0 vf : Nat) (i : Nat) : Nat :=
  if i = 0 then v0 else if i = 0xF then vf else 0

/-- A state in which `Fx0A` has just been executed (the wait is on and
`Fx0A` is the last fetched word), with the given keyboard latch. -/
def waiting_state (x keyboard : Nat) : Main :=
  { main_init (fun _ => 0) with
    op := 0xF00A + 256 * x
    waiting_for_key := true
    keyboard := keyboard
    pc := 0x202 }

/-- A state whose program counter is the last address of the memory, with
the byte `b` in the cell after the memory. -/
def fetch_edge_state (b : Nat) : Main :=
  { main_init (fun a => if a = 4096 then b else 0) with pc := 4095 }

/-- The memory that `read_rom_to_memory` leaves when it loads the image
`bytes` into the zeroed `Chip8` of `main`. -/
def image_memory (bytes : List Nat) : Nat → Nat :=
  (read_rom_to_memory (main_init (fun _ => 0)).toChip8 (some bytes)).1.memory

/-- The state at entry to the loop with the instruction bytes `hi lo` at
`0x200` and again at `0x202`, registers `regs`, index register `regi`, and
the sprite bytes `b0`, `b1` at `regi` and `regi + 1`. -/
def draw_state (hi lo : Nat) (regs : Nat → Nat) (regi b0 b1 : Nat) : Main :=
  { main_init (fun a =>
      if a = 0x200 then hi else if a = 0x201 then lo
      else if a = 0x202 then hi else if a = 0x203 then lo
      else if a = regi then b0 else if a = regi + 1 then b1 else 0) with
    regs := regs
    regi := regi }

/-- An iteration of the main loop in which the timers tick and no key is
held. -/
def idle_input : Frame_Input where
  tick := true
  is_key_down := fun _ => false
  is_key_up := fun _ => true

/-! ## The decoder: table order and coverage -/

theorem op_types_get_index (type : Op_Type) : op_types[type.index]? = some type := by
  cases type <;> rfl

theorem op_types_index_of_get : ∀ i, i < 35 → (op_types[i]?).map Op_Type.index = some i := by
  decide

theorem op_types_get_none (i : Nat) (h : 35 ≤ i) : op_types[i]? = none := by
  apply List.getElem?_eq_none
  simpa [op_types] using h

theorem op_types_get_eq_some {i : Nat} {type : Op_Type} (h : op_types[i]? = some type) :
    i = type.index := by
  rcases Nat.lt_or_ge i 35 with hi | hi
  · have := op_types_index_of_get i hi
    rw [h] at this
    simpa using this.symm
  · rw [op_types_get_none i hi] at h
    cases h

/-- The scan returns `type` exactly when `type` sits at some position of the
list, matches, and nothing before that position matches. -/
theorem op_decode_loop_eq_some_iff (op : Nat) (type : Op_Type) (l : List Op_Type) :
    op_decode_loop op l = some type ↔
      ∃ i : Nat, l[i]? = some type ∧ op_matches op type = true ∧
        ∀ j : Nat, j < i → ∀ t, l[j]? = some t → op_matches op t = false := by
  induction l with
  | nil => simp [op_decode_loop]
  | cons a rest ih =>
    unfold op_decode_loop
    by_cases ha : op_matches op a = true
    · simp only [ha, if_true]
      constructor
      · intro h
        cases h
        exact ⟨0, by simp, ha, by intro j hj; omega⟩
      · rintro ⟨i, hi, -, hbefore⟩
        cases i with
        | zero => simpa using hi
        | succ i =>
          have := hbefore 0 (by omega) a (by simp)
          rw [ha] at this
          cases this
    · have ha' : op_matches op a = false := by simpa using ha
      simp only [ha', Bool.false_eq_true, if_false, ih]
      constructor
      · rintro ⟨i, hi, hm, hbefore⟩
        refine ⟨i + 1, by simpa using hi, hm, ?_⟩
        intro j hj t ht
        cases j with
        | zero =>
          have : a = t := by simpa using ht
          rw [← this]; exact ha'
        | succ j => exact hbefore j (by omega) t (by simpa using ht)
      · rintro ⟨i, hi, hm, hbefore⟩
        cases i with
        | zero =>
          have : a = type := by simpa using hi
          rw [this, hm] at ha'
          cases ha'
        | succ i =>
          refine ⟨i, by simpa using hi, hm, ?_⟩
          intro j hj t ht
          exact hbefore (j + 1) (by omega) t (by simpa using ht)

/-- The decoder returns the entry of lowest table index among those that
match. -/
theorem op_decode_eq_some_iff (op : Nat) (type : Op_Type) :
    op_decode op = some type ↔
      op_matches op type = true ∧
        ∀ t : Op_Type, t.index < type.index → op_matches op t = false := by
  unfold op_decode
  rw [op_decode_loop_eq_some_iff]
  constructor
  · rintro ⟨i, hi, hm, hbefore⟩
    have hidx := op_types_get_eq_some hi
    refine ⟨hm, fun t ht => hbefore t.index (by omega) t (op_types_get_index t)⟩
  · rintro ⟨hm, hbefore⟩
    refine ⟨type.index, op_types_get_index type, hm, ?_⟩
    intro j hj t ht
    have := op_types_get_eq_some ht
    exact hbefore t (by omega)

theorem op_decode_sys_nibbles : ∀ a b c : Fin 16,
    256 * a.val + 16 * b.val + c.val ≠ 0x00E0 →
    256 * a.val + 16 * b.val + c.val ≠ 0x00EE →
    op_decode (256 * a.val + 16 * b.val + c.val) = some OP_SYS := by
  decide

theorem op_decode_sys (w : Nat) (hw : w < 0x1000) (hcls : w ≠ 0x00E0) (hret : w ≠ 0x00EE) :
    op_decode w = some OP_SYS := by
  have hdecomp : w = 256 * (w / 256) + 16 * (w / 16 % 16) + w % 16 := by omega
  have h := op_decode_sys_nibbles ⟨w / 256, by omega⟩ ⟨w / 16 % 16, by omega⟩
    ⟨w % 16, by omega⟩
  simp only at h
  rw [← hdecomp] at h
  exact h hcls hret

/-! ## Single instructions -/

theorem op_fetch_ok_pc {c : Chip8} {op : Nat} (h : op_fetch c = .ok op) : c.pc ≤ 4095 := by
  unfold op_fetch at h
  simp only [MEMORY_SIZE] at h
  split at h
  · cases h
  · omega

theorem pc_add2_of_fetch {c : Chip8} {op : Nat} (h : op_fetch c = .ok op) :
    pc_add2 c.pc = c.pc + 2 := by
  have := op_fetch_ok_pc h
  unfold pc_add2
  omega

theorem op_fetch_eq (c : Chip8) (hpc : c.pc ≤ 4095) :
    op_fetch c = .ok ((c.memory c.pc <<< 8 ||| c.memory (c.pc + 1)) % 65536) := by
  unfold op_fetch
  simp only [MEMORY_SIZE]
  rw [if_neg (by omega)]

theorem decode_call_fin : ∀ a b c : Fin 16,
    op_decode (0x2000 + (256 * a.val + 16 * b.val + c.val)) = some OP_CALL ∧
    (0x2000 + (256 * a.val + 16 * b.val + c.val)) &&& 0x0FFF
      = 256 * a.val + 16 * b.val + c.val := by
  decide

theorem decode_call (nnn : Nat) (h : nnn < 4096) :
    op_decode (0x2000 + nnn) = some OP_CALL ∧ (0x2000 + nnn) &&& 0x0FFF = nnn := by
  have hdecomp : nnn = 256 * (nnn / 256) + 16 * (nnn / 16 % 16) + nnn % 16 := by omega
  have := decode_call_fin ⟨nnn / 256, by omega⟩ ⟨nnn / 16 % 16, by omega⟩ ⟨nnn % 16, by omega⟩
  simp only at this
  rw [← hdecomp] at this
  exact this

/-- The cycle that fetches `2nnn`. -/
theorem fde_call (m : Main) (nnn : Nat) (hnnn : nnn < 4096)
    (h : op_fetch m.toChip8 = .ok (0x2000 + nnn)) :
    fetch_decode_execute m =
      if m.sp ≥ 16 then .error .stack_overflow
      else .ok { m with
        op := 0x2000 + nnn
        stack := Function.update m.stack m.sp (m.pc + 2)
        sp := m.sp + 1
        pc := nnn } := by
  obtain ⟨hd, hand⟩ := decode_call nnn hnnn
  have hpc := op_fetch_ok_pc h
  have hmod : (m.pc + 2) % 65536 = m.pc + 2 := by omega
  unfold fetch_decode_execute
  rw [h]
  simp only [hd, execute, hand, hmod, STACK_SIZE, Nat.cast_ofNat]

/-- The cycle that fetches `00EE`. -/
theorem fde_ret (m : Main) (h : op_fetch m.toChip8 = .ok 0x00EE) :
    fetch_decode_execute m =
      if m.sp ≤ 0 then .error .stack_underflow
      else .ok { m with op := 0x00EE, sp := m.sp - 1, pc := m.stack (m.sp - 1) } := by
  have hd : op_decode 0x00EE = some OP_RET := by decide
  unfold fetch_decode_execute
  rw [h]
  simp only [hd, execute]

theorem main_init_wellFormed (memory : Nat → Nat) (h : ∀ a, memory a < 256) :
    (main_init memory).toChip8.WellFormed := by
  constructor <;> simp [main_init, h]

theorem run_succ (n : Nat) (m : Main) :
    run (n + 1) m = match run n m with
      | .error e => .error e
      | .ok m' => fetch_decode_execute m' := rfl

/-- The self-calling program keeps fetching its `CALL 0x200`. -/
theorem call_self_run (k : Nat) : ∀ mk, run k (main_init call_self_memory) = .ok mk →
    op_fetch mk.toChip8 = .ok (0x2000 + 0x200) := by
  have key : ∀ k mk, run k (main_init call_self_memory) = .ok mk →
      mk.memory = call_self_memory ∧ mk.pc = 0x200 := by
    intro k
    induction k with
    | zero =>
      intro mk h
      simp only [run, Except.ok.injEq] at h
      subst h
      exact ⟨rfl, rfl⟩
    | succ k ih =>
      intro mk h
      rw [run_succ] at h
      cases hk : run k (main_init call_self_memory) with
      | error e => rw [hk] at h; cases h
      | ok m' =>
        rw [hk] at h
        simp only at h
        obtain ⟨hmem, hpc⟩ := ih m' hk
        have hf : op_fetch m'.toChip8 = .ok (0x2000 + 0x200) := by
          rw [op_fetch_eq _ (by omega), hmem, hpc]
          rfl
        rw [fde_call m' 0x200 (by decide) hf] at h
        split at h
        · cases h
        · simp only [Except.ok.injEq] at h
          subst h
          exact ⟨hmem, rfl⟩
  intro mk h
  obtain ⟨hmem, hpc⟩ := key k mk h
  rw [op_fetch_eq _ (by omega), hmem, hpc]
  rfl

theorem fde_of_decode (m : Main) (op : Nat) (type : Op_Type)
    (h : op_fetch m.toChip8 = .ok op) (hd : op_decode op = some type) :
    fetch_decode_execute m = execute type op { m with op := op } := by
  unfold fetch_decode_execute
  rw [h]
  simp only [hd]

theorem instr_state_wellFormed (hi lo : Nat) (regs : Nat → Nat) (regi : Nat)
    (hhi : hi < 256) (hlo : lo < 256) (hregs : ∀ i, regs i < 256) (hregi : regi < 65536) :
    (instr_state hi lo regs regi).toChip8.WellFormed := by
  constructor <;> simp [instr_state, main_init, hregs, hregi]
  intro i
  split_ifs <;> first | assumption | decide

theorem regs_v0_v1_lt (v0 v1 : Nat) (h0 : v0 < 256) (h1 : v1 < 256) (i : Nat) :
    regs_v0_v1 v0 v1 i < 256 := by
  unfold regs_v0_v1
  split_ifs <;> first | assumption | decide

theorem decode_add_r_r_fin : ∀ x y : Fin 16,
    op_decode (0x8004 + 256 * x.val + 16 * y.val) = some OP_ADD_R_R ∧
    op_x (0x8004 + 256 * x.val + 16 * y.val) = x.val ∧
    op_y (0x8004 + 256 * x.val + 16 * y.val) = y.val := by
  decide

theorem decode_sub_fin : ∀ x y : Fin 16,
    op_decode (0x8005 + 256 * x.val + 16 * y.val) = some OP_SUB ∧
    op_x (0x8005 + 256 * x.val + 16 * y.val) = x.val ∧
    op_y (0x8005 + 256 * x.val + 16 * y.val) = y.val := by
  decide

theorem decode_subn_fin : ∀ x y : Fin 16,
    op_decode (0x8007 + 256 * x.val + 16 * y.val) = some OP_SUBN ∧
    op_x (0x8007 + 256 * x.val + 16 * y.val) = x.val ∧
    op_y (0x8007 + 256 * x.val + 16 * y.val) = y.val := by
  decide

theorem decode_shr_fin : ∀ x y : Fin 16,
    op_decode (0x8006 + 256 * x.val + 16 * y.val) = some OP_SHR ∧
    op_x (0x8006 + 256 * x.val + 16 * y.val) = x.val ∧
    op_y (0x8006 + 256 * x.val + 16 * y.val) = y.val := by
  decide

theorem decode_shl_fin : ∀ x y : Fin 16,
    op_decode (0x800E + 256 * x.val + 16 * y.val) = some OP_SHL ∧
    op_x (0x800E + 256 * x.val + 16 * y.val) = x.val ∧
    op_y (0x800E + 256 * x.val + 16 * y.val) = y.val := by
  decide

/-- The cycle that fetches `8xy5`. -/
theorem fde_sub (m : Main) (x y : Nat) (hx : x < 16) (hy : y < 16)
    (h : op_fetch m.toChip8 = .ok (0x8005 + 256 * x + 16 * y)) :
    fetch_decode_execute m = .ok { m with
      op := 0x8005 + 256 * x + 16 * y
      regs := Function.update (Function.update m.regs x
        (((m.regs x : Int) - (m.regs y : Int)) % 256).toNat) 0xF
        (if m.regs x ≥ m.regs y then 1 else 0)
      pc := m.pc + 2 } := by
  obtain ⟨hd, hopx, hopy⟩ := decode_sub_fin ⟨x, hx⟩ ⟨y, hy⟩
  simp only at hd hopx hopy
  rw [fde_of_decode m _ _ h hd]
  simp only [execute, hopx, hopy, pc_add2_of_fetch h]

/-- The cycle that fetches `8xy7`. -/
theorem fde_subn (m : Main) (x y : Nat) (hx : x < 16) (hy : y < 16)
    (h : op_fetch m.toChip8 = .ok (0x8007 + 256 * x + 16 * y)) :
    fetch_decode_execute m = .ok { m with
      op := 0x8007 + 256 * x + 16 * y
      regs := Function.update (Function.update m.regs x
        (((m.regs y : Int) - (m.regs x : Int)) % 256).toNat) 0xF
        (if m.regs y ≥ m.regs x then 1 else 0)
      pc := m.pc + 2 } := by
  obtain ⟨hd, hopx, hopy⟩ := decode_subn_fin ⟨x, hx⟩ ⟨y, hy⟩
  simp only at hd hopx hopy
  rw [fde_of_decode m _ _ h hd]
  simp only [execute, hopx, hopy, pc_add2_of_fetch h]

/-- The cycle that fetches `8xy6`. -/
theorem fde_shr (m : Main) (x y : Nat) (hx : x < 16) (hy : y < 16)
    (h : op_fetch m.toChip8 = .ok (0x8006 + 256 * x + 16 * y)) :
    fetch_decode_execute m = .ok { m with
      op := 0x8006 + 256 * x + 16 * y
      regs := Function.update (Function.update m.regs x ((m.regs y >>> 1) % 256)) 0xF
        (m.regs y &&& 1)
      pc := m.pc + 2 } := by
  obtain ⟨hd, hopx, hopy⟩ := decode_shr_fin ⟨x, hx⟩ ⟨y, hy⟩
  simp only at hd hopx hopy
  rw [fde_of_decode m _ _ h hd]
  simp only [execute, hopx, hopy, pc_add2_of_fetch h]

/-- The cycle that fetches `8xyE`. -/
theorem fde_shl (m : Main) (x y : Nat) (hx : x < 16) (hy : y < 16)
    (h : op_fetch m.toChip8 = .ok (0x800E + 256 * x + 16 * y)) :
    fetch_decode_execute m = .ok { m with
      op := 0x800E + 256 * x + 16 * y
      regs := Function.update (Function.update m.regs x ((m.regs y <<< 1) % 256)) 0xF
        ((m.regs y >>> 7) &&& 1)
      pc := m.pc + 2 } := by
  obtain ⟨hd, hopx, hopy⟩ := decode_shl_fin ⟨x, hx⟩ ⟨y, hy⟩
  simp only at hd hopx hopy
  rw [fde_of_decode m _ _ h hd]
  simp only [execute, hopx, hopy, pc_add2_of_fetch h]

/-- When both bytes of the word lie inside `memory`, replacing `regs[x]`
leaves the fetched word as it was.  (At `pc = MEMORY_SIZE - 1` the second byte
is read past the array, where the struct holds `regs[0]`.) -/
theorem op_fetch_update_regs (m : Main) (x v : Nat) (_hpc : m.pc + 1 < MEMORY_SIZE) :
    op_fetch ({ m with regs := Function.update m.regs x v } : Main).toChip8
      = op_fetch m.toChip8 := rfl

theorem decode_or_fin : ∀ x y : Fin 16,
    op_decode (0x8001 + 256 * x.val + 16 * y.val) = some OP_OR ∧
    op_x (0x8001 + 256 * x.val + 16 * y.val) = x.val ∧
    op_y (0x8001 + 256 * x.val + 16 * y.val) = y.val := by
  decide

theorem decode_and_fin : ∀ x y : Fin 16,
    op_decode (0x8002 + 256 * x.val + 16 * y.val) = some OP_AND ∧
    op_x (0x8002 + 256 * x.val + 16 * y.val) = x.val ∧
    op_y (0x8002 + 256 * x.val + 16 * y.val) = y.val := by
  decide

theorem decode_xor_fin : ∀ x y : Fin 16,
    op_decode (0x8003 + 256 * x.val + 16 * y.val) = some OP_XOR ∧
    op_x (0x8003 + 256 * x.val + 16 * y.val) = x.val ∧
    op_y (0x8003 + 256 * x.val + 16 * y.val) = y.val := by
  decide

theorem decode_ld_bcd_r_fin : ∀ x : Fin 16,
    op_decode (0xF033 + 256 * x.val) = some OP_LD_BCD_R ∧
    op_x (0xF033 + 256 * x.val) = x.val := by
  decide

/-- The cycle that fetches `8xy1`. -/
theorem fde_or (m : Main) (x y : Nat) (hx : x < 16) (hy : y < 16)
    (h : op_fetch m.toChip8 = .ok (0x8001 + 256 * x + 16 * y)) :
    fetch_decode_execute m = .ok { m with
      op := 0x8001 + 256 * x + 16 * y
      regs := Function.update (Function.update m.regs x ((m.regs x ||| m.regs y) % 256)) 0xF 0
      pc := m.pc + 2 } := by
  obtain ⟨hd, hopx, hopy⟩ := decode_or_fin ⟨x, hx⟩ ⟨y, hy⟩
  simp only at hd hopx hopy
  rw [fde_of_decode m _ _ h hd]
  simp only [execute, hopx, hopy, pc_add2_of_fetch h]

/-- The cycle that fetches `8xy2`. -/
theorem fde_and (m : Main) (x y : Nat) (hx : x < 16) (hy : y < 16)
    (h : op_fetch m.toChip8 = .ok (0x8002 + 256 * x + 16 * y)) :
    fetch_decode_execute m = .ok { m with
      op := 0x8002 + 256 * x + 16 * y
      regs := Function.update (Function.update m.regs x ((m.regs x &&& m.regs y) % 256)) 0xF 0
      pc := m.pc + 2 } := by
  obtain ⟨hd, hopx, hopy⟩ := decode_and_fin ⟨x, hx⟩ ⟨y, hy⟩
  simp only at hd hopx hopy
  rw [fde_of_decode m _ _ h hd]
  simp only [execute, hopx, hopy, pc_add2_of_fetch h]

/-- The cycle that fetches `8xy3`. -/
theorem fde_xor (m : Main) (x y : Nat) (hx : x < 16) (hy : y < 16)
    (h : op_fetch m.toChip8 = .ok (0x8003 + 256 * x + 16 * y)) :
    fetch_decode_execute m = .ok { m with
      op := 0x8003 + 256 * x + 16 * y
      regs := Function.update (Function.update m.regs x ((m.regs x ^^^ m.regs y) % 256)) 0xF 0
      pc := m.pc + 2 } := by
  obtain ⟨hd, hopx, hopy⟩ := decode_xor_fin ⟨x, hx⟩ ⟨y, hy⟩
  simp only at hd hopx hopy
  rw [fde_of_decode m _ _ h hd]
  simp only [execute, hopx, hopy, pc_add2_of_fetch h]

/-- What a state of the shape left by `OR`, `AND` and `XOR` holds. -/
theorem logic_op_effect (m : Main) (op x r : Nat) (hxF : x ≠ 0xF) (m' : Main)
    (hm' : m' = { m with
      op := op
      regs := Function.update (Function.update m.regs x (r % 256)) 0xF 0
      pc := m.pc + 2 })
    (hr : r < 256) :
    m'.regs x = r ∧ m'.regs 0xF = 0 ∧ m'.pc = m.pc + 2 ∧
      (∀ i, i ≠ x → i ≠ 0xF → m'.regs i = m.regs i) ∧
      m'.memory = m.memory ∧ m'.delay_timer = m.delay_timer ∧
      m'.sound_timer = m.sound_timer ∧ m'.frame_buffer = m.frame_buffer ∧
      m'.regi = m.regi ∧ m'.sp = m.sp ∧ m'.stack = m.stack ∧
      m'.keyboard = m.keyboard ∧ m'.waiting_for_key = m.waiting_for_key := by
  subst hm'
  refine ⟨?_, ?_, rfl, ?_, rfl, rfl, rfl, rfl, rfl, rfl, rfl, rfl, rfl⟩
  · dsimp only
    rw [Function.update_noteq hxF, Function.update_same, Nat.mod_eq_of_lt hr]
  · dsimp only
    rw [Function.update_same]
  · intro i hix hiF
    dsimp only
    rw [Function.update_noteq hiF, Function.update_noteq hix]

theorem regs_v0_vf_lt (v0 vf : Nat) (h0 : v0 < 256) (h1 : vf < 256) (i : Nat) :
    regs_v0_vf v0 vf i < 256 := by
  unfold regs_v0_vf
  split_ifs <;> first | assumption | decide

/-- The cycle that fetches `Fx33`. -/
theorem fde_ld_bcd_r (m : Main) (x : Nat) (hx : x < 16)
    (h : op_fetch m.toChip8 = .ok (0xF033 + 256 * x)) :
    fetch_decode_execute m =
      if m.regi ≥ 4093 then .error .out_of_bounds
      else .ok { m with
        op := 0xF033 + 256 * x
        memory := Function.update (Function.update (Function.update m.memory
          (m.regi + 0) ((m.regs x / 100) % 256))
          (m.regi + 1) (((m.regs x / 10) % 10) % 256))
          (m.regi + 2) (((m.regs x % 10) % 10) % 256)
        pc := m.pc + 2 } := by
  obtain ⟨hd, hopx⟩ := decode_ld_bcd_r_fin ⟨x, hx⟩
  simp only at hd hopx
  rw [fde_of_decode m _ _ h hd]
  simp only [execute, hopx, pc_add2_of_fetch h, MEMORY_SIZE]

/-! ## Claims -/

/-- C1 (fails in the code): the claim says `op_decode` returns an operation
kind for every 16-bit word and never reaches the assertion after the loop.
The word `0x8008` matches no entry of `op_decode_table`, so the scan runs off
the end of the table and reaches `assert(0 && "unreacheable")`; a program
image that starts with the bytes `80 08` stops there in its first cycle. -/
theorem op_decode_reaches_assertion :
    (∀ type, type ∈ op_types → op_matches 0x8008 type = false) ∧
    op_decode 0x8008 = none ∧
    fetch_decode_execute (instr_state 0x80 0x08 (fun _ => 0) 0) = .error .unreachable :=
  ⟨by decide, by decide, rfl⟩

/-- C2: `op_decode` returns the entry of lowest table index whose
`(mask & op) == value` holds; hence `00E0` decodes to `OP_CLS`, `00EE` to
`OP_RET`, and every other word below `0x1000` to `OP_SYS`. -/
theorem op_decode_first_match :
    (∀ (op : Nat) (type : Op_Type),
      op_decode op = some type ↔
        ((op_decode_table type).mask &&& op = (op_decode_table type).value ∧
          ∀ t : Op_Type, t.index < type.index →
            (op_decode_table t).mask &&& op ≠ (op_decode_table t).value)) ∧
    op_decode 0x00E0 = some OP_CLS ∧
    op_decode 0x00EE = some OP_RET ∧
    (∀ w : Nat, w < 0x1000 → w ≠ 0x00E0 → w ≠ 0x00EE → op_decode w = some OP_SYS) := by
  refine ⟨?_, by decide, by decide, op_decode_sys⟩
  intro op type
  rw [op_decode_eq_some_iff]
  simp [op_matches]

/-- C2, at the words `0x0123` (a legacy system call) and `0x00E0`/`0x00EE`
(which also match the `OP_SYS` pattern, later in the table). -/
theorem op_decode_first_match_witness :
    op_decode 0x0123 = some OP_SYS ∧
    (op_decode_table OP_SYS).mask &&& 0x00E0 = (op_decode_table OP_SYS).value ∧
    op_decode 0x00E0 = some OP_CLS :=
  ⟨op_decode_first_match.2.2.2 0x0123 (by decide) (by decide) (by decide), by decide,
    op_decode_first_match.2.1⟩

/-- C3: in a well-formed state with `sp < 16` whose next instruction is
`CALL nnn` (fetched at `pc`, so `pc ≤ 4095`) and with `RET` stored at `nnn`,
the two cycles succeed, the first lands on `nnn`, the second fetches the
`RET`, and afterwards `pc` is the old `pc + 2` and `sp` is the old `sp`. -/
theorem call_ret_round_trip (m : Main) (nnn : Nat)
    (hwf : m.toChip8.WellFormed) (hsp : m.sp < 16) (hnnn : nnn < 4096)
    (hcall : op_fetch m.toChip8 = .ok (0x2000 + nnn))
    (hret : m.memory nnn = 0x00 ∧ m.memory (nnn + 1) = 0xEE) :
    m.pc ≤ 4095 ∧
    ∃ m1 m2, fetch_decode_execute m = .ok m1 ∧ m1.pc = nnn ∧
      op_fetch m1.toChip8 = .ok 0x00EE ∧
      fetch_decode_execute m1 = .ok m2 ∧
      m2.pc = m.pc + 2 ∧ m2.sp = m.sp ∧ run 2 m = .ok m2 := by
  have hpc := op_fetch_ok_pc hcall
  have h1 := fde_call m nnn hnnn hcall
  rw [if_neg (by omega)] at h1
  have hf : op_fetch ({ m with
        op := 0x2000 + nnn
        stack := Function.update m.stack m.sp (m.pc + 2)
        sp := m.sp + 1
        pc := nnn } : Main).toChip8 = .ok 0x00EE := by
    rw [op_fetch_eq _ (by show nnn ≤ 4095; omega)]
    show Except.ok ((m.memory nnn <<< 8 ||| m.memory (nnn + 1)) % 65536) = _
    rw [hret.1, hret.2]
    rfl
  have h2 := fde_ret _ hf
  have hnn := hwf.sp_nonneg
  rw [if_neg (by show ¬ (m.sp + 1 ≤ 0); omega)] at h2
  refine ⟨hpc, _, _, h1, rfl, hf, h2, ?_, ?_, ?_⟩
  · show Function.update m.stack m.sp (m.pc + 2) (m.sp + 1 - 1) = m.pc + 2
    rw [show m.sp + 1 - 1 = m.sp by omega, Function.update_same]
  · show m.sp + 1 - 1 = m.sp
    omega
  · rw [run_succ, run_succ]
    simp only [run, h1, h2]

/-- C3, on the program `CALL 0x300` at `0x200` with `RET` at `0x300`: after
the two cycles `pc = 0x202` and the stack is empty again. -/
theorem call_ret_round_trip_witness :
    ∃ m1 m2, fetch_decode_execute (main_init call_ret_memory) = .ok m1 ∧ m1.pc = 0x300 ∧
      op_fetch m1.toChip8 = .ok 0x00EE ∧
      fetch_decode_execute m1 = .ok m2 ∧
      m2.pc = 0x200 + 2 ∧ m2.sp = 0 ∧ run 2 (main_init call_ret_memory) = .ok m2 :=
  (call_ret_round_trip (main_init call_ret_memory) 0x300
    (main_init_wellFormed _ (by intro a; unfold call_ret_memory; split_ifs <;> decide))
    (by decide) (by decide) (by rfl) ⟨by decide, by decide⟩).2

/-- C4: from an empty stack, when the first 17 instructions executed are all
`CALL`s, the first 16 succeed (after `k` of them `sp = k`, so `sp = 16` at the
end) and the 17th stops with a stack overflow.  In any state a fetched `CALL`
fails, with a stack overflow, exactly when `sp ≥ 16` and succeeds exactly
when `sp < 16`; a fetched `RET` fails, with a stack underflow, exactly when
`sp ≤ 0` and succeeds exactly when `sp > 0`. -/
theorem stack_bounds :
    (∀ m : Main, m.sp = 0 →
      (∀ k : Nat, k ≤ 16 → ∀ mk, run k m = .ok mk →
        ∃ nnn, nnn < 4096 ∧ op_fetch mk.toChip8 = .ok (0x2000 + nnn)) →
      (∀ k : Nat, k ≤ 16 → ∃ mk, run k m = .ok mk ∧ mk.sp = k) ∧
        run 17 m = .error .stack_overflow) ∧
    (∀ (m : Main) (nnn : Nat), nnn < 4096 → op_fetch m.toChip8 = .ok (0x2000 + nnn) →
      (fetch_decode_execute m = .error .stack_overflow ↔ 16 ≤ m.sp) ∧
      ((∃ e, fetch_decode_execute m = .error e) ↔ 16 ≤ m.sp) ∧
      ((∃ m', fetch_decode_execute m = .ok m') ↔ m.sp < 16)) ∧
    (∀ m : Main, op_fetch m.toChip8 = .ok 0x00EE →
      (fetch_decode_execute m = .error .stack_underflow ↔ m.sp ≤ 0) ∧
      ((∃ e, fetch_decode_execute m = .error e) ↔ m.sp ≤ 0) ∧
      ((∃ m', fetch_decode_execute m = .ok m') ↔ 0 < m.sp)) := by
  refine ⟨?_, ?_, ?_⟩
  · intro m hsp hcalls
    have hsucc : ∀ k : Nat, k ≤ 16 → ∃ mk, run k m = .ok mk ∧ mk.sp = k := by
      intro k
      induction k with
      | zero => intro _; exact ⟨m, rfl, by simpa using hsp⟩
      | succ k ih =>
        intro hk
        obtain ⟨mk, hrun, hspk⟩ := ih (by omega)
        obtain ⟨nnn, hnnn, hf⟩ := hcalls k (by omega) mk hrun
        have h1 := fde_call mk nnn hnnn hf
        rw [if_neg (by omega)] at h1
        have hrun1 := run_succ k m
        rw [hrun] at hrun1
        refine ⟨_, hrun1.trans h1, ?_⟩
        show mk.sp + 1 = ((k + 1 : Nat) : Int)
        push_cast
        omega
    refine ⟨hsucc, ?_⟩
    obtain ⟨mk, hrun, hspk⟩ := hsucc 16 (le_refl _)
    obtain ⟨nnn, hnnn, hf⟩ := hcalls 16 (le_refl _) mk hrun
    have h1 := fde_call mk nnn hnnn hf
    rw [if_pos (by rw [hspk]; decide)] at h1
    rw [run_succ, hrun]
    exact h1
  · intro m nnn hnnn hf
    have h1 := fde_call m nnn hnnn hf
    by_cases hsp : m.sp ≥ 16
    · rw [if_pos hsp] at h1
      rw [h1]
      refine ⟨by simp [hsp], by simp [hsp], ?_⟩
      constructor
      · rintro ⟨m', hm'⟩
        cases hm'
      · intro h
        omega
    · rw [if_neg hsp] at h1
      rw [h1]
      refine ⟨?_, ?_, ?_⟩
      · constructor
        · intro h
          cases h
        · intro h
          omega
      · constructor
        · rintro ⟨e, he⟩
          cases he
        · intro h
          omega
      · constructor
        · intro _
          omega
        · intro _
          exact ⟨_, rfl⟩
  · intro m hf
    have h1 := fde_ret m hf
    by_cases hsp : m.sp ≤ 0
    · rw [if_pos hsp] at h1
      rw [h1]
      refine ⟨by simp [hsp], by simp [hsp], ?_⟩
      constructor
      · rintro ⟨m', hm'⟩
        cases hm'
      · intro h
        omega
    · rw [if_neg hsp] at h1
      rw [h1]
      refine ⟨?_, ?_, ?_⟩
      · constructor
        · intro h
          cases h
        · intro h
          omega
      · constructor
        · rintro ⟨e, he⟩
          cases he
        · intro h
          omega
      · constructor
        · intro _
          omega
        · intro _
          exact ⟨_, rfl⟩

/-- C4, on the program whose subroutine at `0x200` calls itself: 16 cycles
succeed and leave `sp = 16`, the 17th overflows the stack; and a `RET` as
first instruction underflows it. -/
theorem stack_bounds_witness :
    ((∃ mk, run 16 (main_init call_self_memory) = .ok mk ∧ mk.sp = 16) ∧
      run 17 (main_init call_self_memory) = .error .stack_overflow) ∧
    fetch_decode_execute (main_init ret_memory) = .error .stack_underflow :=
  ⟨⟨by simpa using (stack_bounds.1 (main_init call_self_memory) rfl
        (fun k _ mk h => ⟨0x200, by decide, call_self_run k mk h⟩)).1 16 (le_refl _),
      (stack_bounds.1 (main_init call_self_memory) rfl
        (fun k _ mk h => ⟨0x200, by decide, call_self_run k mk h⟩)).2⟩,
    ((stack_bounds.2.2 (main_init ret_memory) (by rfl)).1).2 (by decide)⟩

/-- C5: a fetched `8xy4` with `x ≠ 0xF`, in a well-formed state, succeeds
and leaves `regs[x] = (regs[x] + regs[y]) mod 256`, `regs[0xF] = 1` if the sum
exceeds 255 and `0` otherwise, `pc` advanced by 2 and every other register
unchanged; `y` is any register, `x` and `0xF` included. -/
theorem add_r_r_carry (m : Main) (x y : Nat) (hwf : m.toChip8.WellFormed)
    (hx : x < 16) (hy : y < 16) (hxF : x ≠ 0xF)
    (h : op_fetch m.toChip8 = .ok (0x8004 + 256 * x + 16 * y)) :
    ∃ m', fetch_decode_execute m = .ok m' ∧
      m'.regs x = (m.regs x + m.regs y) % 256 ∧
      m'.regs 0xF = (if m.regs x + m.regs y > 255 then 1 else 0) ∧
      m'.pc = m.pc + 2 ∧
      ∀ i, i ≠ x → i ≠ 0xF → m'.regs i = m.regs i := by
  obtain ⟨hd, hopx, hopy⟩ := decode_add_r_r_fin ⟨x, hx⟩ ⟨y, hy⟩
  simp only at hd hopx hopy
  have hvx := hwf.regs_lt x
  have hvy := hwf.regs_lt y
  have hsum : (m.regs x + m.regs y) % 65536 = m.regs x + m.regs y := by omega
  rw [fde_of_decode m _ _ h hd]
  simp only [execute, hopx, hopy, pc_add2_of_fetch h, hsum]
  refine ⟨_, rfl, ?_, ?_, rfl, ?_⟩
  · dsimp only
    rw [Function.update_noteq hxF, Function.update_same]
  · dsimp only
    rw [Function.update_same]
  · intro i hix hiF
    dsimp only
    rw [Function.update_noteq hiF, Function.update_noteq hix]

/-- C5, at `regs[0] = 0xFF`, `regs[1] = 0x01` and the instruction `8014`:
`regs[0]` becomes `0x00` and the flag `1`. -/
theorem add_r_r_carry_witness :
    ∃ m', fetch_decode_execute (instr_state 0x80 0x14 (regs_v0_v1 0xFF 0x01) 0) = .ok m' ∧
      m'.regs 0 = 0x00 ∧ m'.regs 0xF = 1 ∧ m'.pc = 0x202 ∧
      ∀ i, i ≠ 0 → i ≠ 0xF → m'.regs i = regs_v0_v1 0xFF 0x01 i :=
  add_r_r_carry (instr_state 0x80 0x14 (regs_v0_v1 0xFF 0x01) 0) 0 1
    (instr_state_wellFormed _ _ _ _ (by decide) (by decide)
      (regs_v0_v1_lt _ _ (by decide) (by decide)) (by decide))
    (by decide) (by decide) (by decide) (by rfl)

/-- C6: a fetched `8xy5` (SUB) with `x ≠ 0xF` succeeds and leaves
`regs[x] = (regs[x] - regs[y]) mod 256` and `regs[0xF] = 1` if
`regs[x] ≥ regs[y]` held before, `0` otherwise; a fetched `8xy7` (SUBN) leaves
`regs[x] = (regs[y] - regs[x]) mod 256` and `regs[0xF] = 1` if
`regs[y] ≥ regs[x]` held before, `0` otherwise; both advance `pc` by 2. -/
theorem sub_subn_borrow :
    (∀ (m : Main) (x y : Nat), m.toChip8.WellFormed → x < 16 → y < 16 → x ≠ 0xF →
      op_fetch m.toChip8 = .ok (0x8005 + 256 * x + 16 * y) →
      ∃ m', fetch_decode_execute m = .ok m' ∧
        (m'.regs x : Int) = ((m.regs x : Int) - (m.regs y : Int)) % 256 ∧
        m'.regs 0xF = (if m.regs x ≥ m.regs y then 1 else 0) ∧
        m'.pc = m.pc + 2) ∧
    (∀ (m : Main) (x y : Nat), m.toChip8.WellFormed → x < 16 → y < 16 → x ≠ 0xF →
      op_fetch m.toChip8 = .ok (0x8007 + 256 * x + 16 * y) →
      ∃ m', fetch_decode_execute m = .ok m' ∧
        (m'.regs x : Int) = ((m.regs y : Int) - (m.regs x : Int)) % 256 ∧
        m'.regs 0xF = (if m.regs y ≥ m.regs x then 1 else 0) ∧
        m'.pc = m.pc + 2) := by
  constructor
  · intro m x y _ hx hy hxF h
    refine ⟨_, fde_sub m x y hx hy h, ?_, ?_, rfl⟩
    · dsimp only
      rw [Function.update_noteq hxF, Function.update_same]
      exact Int.toNat_of_nonneg (Int.emod_nonneg _ (by decide))
    · dsimp only
      rw [Function.update_same]
  · intro m x y _ hx hy hxF h
    refine ⟨_, fde_subn m x y hx hy h, ?_, ?_, rfl⟩
    · dsimp only
      rw [Function.update_noteq hxF, Function.update_same]
      exact Int.toNat_of_nonneg (Int.emod_nonneg _ (by decide))
    · dsimp only
      rw [Function.update_same]

/-- C6, at `regs[0] = 0x01`, `regs[1] = 0x02`: `8015` (SUB) leaves
`regs[0] = 0xFF` and the flag `0`; `8017` (SUBN) leaves `regs[0] = 0x01` and
the flag `1`. -/
theorem sub_subn_borrow_witness :
    (∃ m', fetch_decode_execute (instr_state 0x80 0x15 (regs_v0_v1 0x01 0x02) 0) = .ok m' ∧
      (m'.regs 0 : Int) = 0xFF ∧ m'.regs 0xF = 0 ∧ m'.pc = 0x202) ∧
    (∃ m', fetch_decode_execute (instr_state 0x80 0x17 (regs_v0_v1 0x01 0x02) 0) = .ok m' ∧
      (m'.regs 0 : Int) = 0x01 ∧ m'.regs 0xF = 1 ∧ m'.pc = 0x202) :=
  ⟨sub_subn_borrow.1 (instr_state 0x80 0x15 (regs_v0_v1 0x01 0x02) 0) 0 1
      (instr_state_wellFormed _ _ _ _ (by decide) (by decide)
        (regs_v0_v1_lt _ _ (by decide) (by decide)) (by decide))
      (by decide) (by decide) (by decide) (by rfl),
    sub_subn_borrow.2 (instr_state 0x80 0x17 (regs_v0_v1 0x01 0x02) 0) 0 1
      (instr_state_wellFormed _ _ _ _ (by decide) (by decide)
        (regs_v0_v1_lt _ _ (by decide) (by decide)) (by decide))
      (by decide) (by decide) (by decide) (by rfl)⟩

/-- C7: a fetched `8xy6` (SHR) with `x ≠ 0xF` succeeds and leaves
`regs[x] = regs[y] >> 1` and `regs[0xF]` = bit 0 of the old `regs[y]`; a
fetched `8xyE` (SHL) leaves `regs[x] = (regs[y] << 1) mod 256` and
`regs[0xF]` = bit 7 of the old `regs[y]`.  Registers other than `x` and `0xF`
(so `regs[y]` when `y` is neither) are unchanged.  When `y ≠ x` the old
`regs[x]` has no influence: the executor arm, run on the fetched word, gives
the same state whatever value `regs[x]` held, at every `pc`; and so does the
whole cycle, fetch included, when both bytes of the word lie inside `memory`
(`pc + 1 < MEMORY_SIZE`). -/
theorem shift_quirk :
    (∀ (m : Main) (x y : Nat), m.toChip8.WellFormed → x < 16 → y < 16 → x ≠ 0xF →
      op_fetch m.toChip8 = .ok (0x8006 + 256 * x + 16 * y) →
      ∃ m', fetch_decode_execute m = .ok m' ∧
        m'.regs x = m.regs y >>> 1 ∧
        m'.regs 0xF = m.regs y % 2 ∧
        m'.pc = m.pc + 2 ∧
        (∀ i, i ≠ x → i ≠ 0xF → m'.regs i = m.regs i) ∧
        (y ≠ x → ∀ v, execute OP_SHR (0x8006 + 256 * x + 16 * y)
          { m with op := 0x8006 + 256 * x + 16 * y, regs := Function.update m.regs x v }
          = .ok m') ∧
        (y ≠ x → m.pc + 1 < MEMORY_SIZE →
          ∀ v, fetch_decode_execute { m with regs := Function.update m.regs x v }
            = .ok m')) ∧
    (∀ (m : Main) (x y : Nat), m.toChip8.WellFormed → x < 16 → y < 16 → x ≠ 0xF →
      op_fetch m.toChip8 = .ok (0x800E + 256 * x + 16 * y) →
      ∃ m', fetch_decode_execute m = .ok m' ∧
        m'.regs x = (m.regs y <<< 1) % 256 ∧
        m'.regs 0xF = m.regs y / 128 % 2 ∧
        m'.pc = m.pc + 2 ∧
        (∀ i, i ≠ x → i ≠ 0xF → m'.regs i = m.regs i) ∧
        (y ≠ x → ∀ v, execute OP_SHL (0x800E + 256 * x + 16 * y)
          { m with op := 0x800E + 256 * x + 16 * y, regs := Function.update m.regs x v }
          = .ok m') ∧
        (y ≠ x → m.pc + 1 < MEMORY_SIZE →
          ∀ v, fetch_decode_execute { m with regs := Function.update m.regs x v }
            = .ok m')) := by
  constructor
  · intro m x y hwf hx hy hxF h
    have hvy := hwf.regs_lt y
    have hshift : (m.regs y >>> 1) % 256 = m.regs y >>> 1 := by
      rw [Nat.shiftRight_eq_div_pow]
      omega
    obtain ⟨-, hopx, hopy⟩ := decode_shr_fin ⟨x, hx⟩ ⟨y, hy⟩
    simp only at hopx hopy
    refine ⟨_, fde_shr m x y hx hy h, ?_, ?_, rfl, ?_, ?_, ?_⟩
    · dsimp only
      rw [Function.update_noteq hxF, Function.update_same, hshift]
    · dsimp only
      rw [Function.update_same, Nat.and_one_is_mod]
    · intro i hix hiF
      dsimp only
      rw [Function.update_noteq hiF, Function.update_noteq hix]
    · intro hyx v
      simp only [execute, hopx, pc_add2_of_fetch h]
      rw [hopy, Function.update_noteq hyx, Function.update_idem]
    · intro hyx hpc v
      rw [fde_shr _ x y hx hy (by rw [op_fetch_update_regs m x v hpc]; exact h)]
      dsimp only
      rw [Function.update_noteq hyx, Function.update_idem]
  · intro m x y hwf hx hy hxF h
    have hvy := hwf.regs_lt y
    have hbit : (m.regs y >>> 7) &&& 1 = m.regs y / 128 % 2 := by
      rw [Nat.and_one_is_mod, Nat.shiftRight_eq_div_pow]
    obtain ⟨-, hopx, hopy⟩ := decode_shl_fin ⟨x, hx⟩ ⟨y, hy⟩
    simp only at hopx hopy
    refine ⟨_, fde_shl m x y hx hy h, ?_, ?_, rfl, ?_, ?_, ?_⟩
    · dsimp only
      rw [Function.update_noteq hxF, Function.update_same]
    · dsimp only
      rw [Function.update_same, hbit]
    · intro i hix hiF
      dsimp only
      rw [Function.update_noteq hiF, Function.update_noteq hix]
    · intro hyx v
      simp only [execute, hopx, pc_add2_of_fetch h]
      rw [hopy, Function.update_noteq hyx, Function.update_idem]
    · intro hyx hpc v
      rw [fde_shl _ x y hx hy (by rw [op_fetch_update_regs m x v hpc]; exact h)]
      dsimp only
      rw [Function.update_noteq hyx, Function.update_idem]

/-- C7, at `regs[0] = 0x12`, `regs[1] = 0x81` and `pc = 0x200`: `8016`
(SHR V0, V1) leaves `regs[0] = 0x40` and the flag `1`; `801E` (SHL V0, V1)
leaves `regs[0] = 0x02` and the flag `1`; `regs[1]` stays `0x81`; and the
cycle ends in the same state when `regs[0]` holds any other value before. -/
theorem shift_quirk_witness :
    (∃ m', fetch_decode_execute (instr_state 0x80 0x16 (regs_v0_v1 0x12 0x81) 0) = .ok m' ∧
      m'.regs 0 = 0x40 ∧ m'.regs 0xF = 1 ∧ m'.regs 1 = 0x81 ∧
      ∀ v, fetch_decode_execute
        { instr_state 0x80 0x16 (regs_v0_v1 0x12 0x81) 0 with
          regs := Function.update (regs_v0_v1 0x12 0x81) 0 v } = .ok m') ∧
    (∃ m', fetch_decode_execute (instr_state 0x80 0x1E (regs_v0_v1 0x12 0x81) 0) = .ok m' ∧
      m'.regs 0 = 0x02 ∧ m'.regs 0xF = 1 ∧ m'.regs 1 = 0x81 ∧
      ∀ v, fetch_decode_execute
        { instr_state 0x80 0x1E (regs_v0_v1 0x12 0x81) 0 with
          regs := Function.update (regs_v0_v1 0x12 0x81) 0 v } = .ok m') := by
  obtain ⟨m1, h1, hx1, hf1, -, ho1, -, hi1⟩ :=
    shift_quirk.1 (instr_state 0x80 0x16 (regs_v0_v1 0x12 0x81) 0) 0 1
      (instr_state_wellFormed _ _ _ _ (by decide) (by decide)
        (regs_v0_v1_lt _ _ (by decide) (by decide)) (by decide))
      (by decide) (by decide) (by decide) (by rfl)
  obtain ⟨m2, h2, hx2, hf2, -, ho2, -, hi2⟩ :=
    shift_quirk.2 (instr_state 0x80 0x1E (regs_v0_v1 0x12 0x81) 0) 0 1
      (instr_state_wellFormed _ _ _ _ (by decide) (by decide)
        (regs_v0_v1_lt _ _ (by decide) (by decide)) (by decide))
      (by decide) (by decide) (by decide) (by rfl)
  exact ⟨⟨m1, h1, hx1, hf1, ho1 1 (by decide) (by decide), hi1 (by decide) (by decide)⟩,
    ⟨m2, h2, hx2, hf2, ho2 1 (by decide) (by decide), hi2 (by decide) (by decide)⟩⟩

/-- C8: a fetched `8xy1`, `8xy2` or `8xy3` with `x ≠ 0xF` succeeds and leaves
`regs[x]` equal to the old `regs[x]` OR / AND / XOR the old `regs[y]` (for any
`y`, `0xF` included: its old value is the one used), `regs[0xF] = 0`, `pc`
advanced by 2, and every other register, the memory, both timers, the
framebuffer, the index register, the stack and the keyboard latch unchanged. -/
theorem logic_ops_clear_flag :
    (∀ (m : Main) (x y : Nat), m.toChip8.WellFormed → x < 16 → y < 16 → x ≠ 0xF →
      op_fetch m.toChip8 = .ok (0x8001 + 256 * x + 16 * y) →
      ∃ m', fetch_decode_execute m = .ok m' ∧
        m'.regs x = m.regs x ||| m.regs y ∧ m'.regs 0xF = 0 ∧ m'.pc = m.pc + 2 ∧
        (∀ i, i ≠ x → i ≠ 0xF → m'.regs i = m.regs i) ∧
        m'.memory = m.memory ∧ m'.delay_timer = m.delay_timer ∧
        m'.sound_timer = m.sound_timer ∧ m'.frame_buffer = m.frame_buffer ∧
        m'.regi = m.regi ∧ m'.sp = m.sp ∧ m'.stack = m.stack ∧
        m'.keyboard = m.keyboard ∧ m'.waiting_for_key = m.waiting_for_key) ∧
    (∀ (m : Main) (x y : Nat), m.toChip8.WellFormed → x < 16 → y < 16 → x ≠ 0xF →
      op_fetch m.toChip8 = .ok (0x8002 + 256 * x + 16 * y) →
      ∃ m', fetch_decode_execute m = .ok m' ∧
        m'.regs x = m.regs x &&& m.regs y ∧ m'.regs 0xF = 0 ∧ m'.pc = m.pc + 2 ∧
        (∀ i, i ≠ x → i ≠ 0xF → m'.regs i = m.regs i) ∧
        m'.memory = m.memory ∧ m'.delay_timer = m.delay_timer ∧
        m'.sound_timer = m.sound_timer ∧ m'.frame_buffer = m.frame_buffer ∧
        m'.regi = m.regi ∧ m'.sp = m.sp ∧ m'.stack = m.stack ∧
        m'.keyboard = m.keyboard ∧ m'.waiting_for_key = m.waiting_for_key) ∧
    (∀ (m : Main) (x y : Nat), m.toChip8.WellFormed → x < 16 → y < 16 → x ≠ 0xF →
      op_fetch m.toChip8 = .ok (0x8003 + 256 * x + 16 * y) →
      ∃ m', fetch_decode_execute m = .ok m' ∧
        m'.regs x = m.regs x ^^^ m.regs y ∧ m'.regs 0xF = 0 ∧ m'.pc = m.pc + 2 ∧
        (∀ i, i ≠ x → i ≠ 0xF → m'.regs i = m.regs i) ∧
        m'.memory = m.memory ∧ m'.delay_timer = m.delay_timer ∧
        m'.sound_timer = m.sound_timer ∧ m'.frame_buffer = m.frame_buffer ∧
        m'.regi = m.regi ∧ m'.sp = m.sp ∧ m'.stack = m.stack ∧
        m'.keyboard = m.keyboard ∧ m'.waiting_for_key = m.waiting_for_key) := by
  refine ⟨?_, ?_, ?_⟩
  · intro m x y hwf hx hy hxF h
    exact ⟨_, fde_or m x y hx hy h, logic_op_effect m _ x _ hxF _ rfl
      (Nat.or_lt_two_pow (n := 8) (hwf.regs_lt x) (hwf.regs_lt y))⟩
  · intro m x y hwf hx hy hxF h
    exact ⟨_, fde_and m x y hx hy h, logic_op_effect m _ x _ hxF _ rfl
      (Nat.and_lt_two_pow (n := 8) _ (hwf.regs_lt y))⟩
  · intro m x y hwf hx hy hxF h
    exact ⟨_, fde_xor m x y hx hy h, logic_op_effect m _ x _ hxF _ rfl
      (Nat.xor_lt_two_pow (n := 8) (hwf.regs_lt x) (hwf.regs_lt y))⟩

/-- C8, with the flag register as second operand: at `regs[0] = 0x0C`,
`regs[0xF] = 0x0A`, the instructions `80F1`, `80F2`, `80F3` leave
`regs[0] = 0x0E`, `0x08`, `0x06` and the flag `0`. -/
theorem logic_ops_clear_flag_witness :
    (∃ m', fetch_decode_execute (instr_state 0x80 0xF1 (regs_v0_vf 0x0C 0x0A) 0) = .ok m' ∧
      m'.regs 0 = 0x0E ∧ m'.regs 0xF = 0 ∧ m'.pc = 0x202) ∧
    (∃ m', fetch_decode_execute (instr_state 0x80 0xF2 (regs_v0_vf 0x0C 0x0A) 0) = .ok m' ∧
      m'.regs 0 = 0x08 ∧ m'.regs 0xF = 0 ∧ m'.pc = 0x202) ∧
    (∃ m', fetch_decode_execute (instr_state 0x80 0xF3 (regs_v0_vf 0x0C 0x0A) 0) = .ok m' ∧
      m'.regs 0 = 0x06 ∧ m'.regs 0xF = 0 ∧ m'.pc = 0x202) := by
  obtain ⟨m1, h1, hx1, hf1, hp1, -⟩ :=
    logic_ops_clear_flag.1 (instr_state 0x80 0xF1 (regs_v0_vf 0x0C 0x0A) 0) 0 0xF
      (instr_state_wellFormed _ _ _ _ (by decide) (by decide)
        (regs_v0_vf_lt _ _ (by decide) (by decide)) (by decide))
      (by decide) (by decide) (by decide) (by rfl)
  obtain ⟨m2, h2, hx2, hf2, hp2, -⟩ :=
    logic_ops_clear_flag.2.1 (instr_state 0x80 0xF2 (regs_v0_vf 0x0C 0x0A) 0) 0 0xF
      (instr_state_wellFormed _ _ _ _ (by decide) (by decide)
        (regs_v0_vf_lt _ _ (by decide) (by decide)) (by decide))
      (by decide) (by decide) (by decide) (by rfl)
  obtain ⟨m3, h3, hx3, hf3, hp3, -⟩ :=
    logic_ops_clear_flag.2.2 (instr_state 0x80 0xF3 (regs_v0_vf 0x0C 0x0A) 0) 0 0xF
      (instr_state_wellFormed _ _ _ _ (by decide) (by decide)
        (regs_v0_vf_lt _ _ (by decide) (by decide)) (by decide))
      (by decide) (by decide) (by decide) (by rfl)
  exact ⟨⟨m1, h1, hx1, hf1, hp1⟩, ⟨m2, h2, hx2, hf2, hp2⟩, ⟨m3, h3, hx3, hf3, hp3⟩⟩

/-- C9: a fetched `Fx33` in a well-formed state with index register
`I ≤ 4092` succeeds and stores `v / 100`, `(v / 10) mod 10`, `v mod 10` at
`I`, `I + 1`, `I + 2`, where `v = regs[x]`; each is a decimal digit and
together they spell `v`; every other memory byte, every register and the
index register are unchanged and `pc` advances by 2. -/
theorem bcd_store (m : Main) (x : Nat) (hwf : m.toChip8.WellFormed) (hx : x < 16)
    (hI : m.regi ≤ 4092) (h : op_fetch m.toChip8 = .ok (0xF033 + 256 * x)) :
    ∃ m', fetch_decode_execute m = .ok m' ∧
      m'.memory m.regi = m.regs x / 100 ∧
      m'.memory (m.regi + 1) = (m.regs x / 10) % 10 ∧
      m'.memory (m.regi + 2) = m.regs x % 10 ∧
      m'.memory m.regi ≤ 9 ∧ m'.memory (m.regi + 1) ≤ 9 ∧ m'.memory (m.regi + 2) ≤ 9 ∧
      100 * m'.memory m.regi + 10 * m'.memory (m.regi + 1) + m'.memory (m.regi + 2)
        = m.regs x ∧
      (∀ a, a ≠ m.regi → a ≠ m.regi + 1 → a ≠ m.regi + 2 → m'.memory a = m.memory a) ∧
      m'.regs = m.regs ∧ m'.regi = m.regi ∧ m'.pc = m.pc + 2 := by
  have hv := hwf.regs_lt x
  have h1 := fde_ld_bcd_r m x hx h
  rw [if_neg (by omega)] at h1
  have e0 : (m.regs x / 100) % 256 = m.regs x / 100 := by omega
  have e1 : ((m.regs x / 10) % 10) % 256 = (m.regs x / 10) % 10 := by omega
  have e2 : ((m.regs x % 10) % 10) % 256 = m.regs x % 10 := by omega
  rw [e0, e1, e2] at h1
  have m0 : Function.update (Function.update (Function.update m.memory
      (m.regi + 0) (m.regs x / 100)) (m.regi + 1) ((m.regs x / 10) % 10))
      (m.regi + 2) (m.regs x % 10) m.regi = m.regs x / 100 := by
    rw [Function.update_noteq (by omega), Function.update_noteq (by omega)]
    exact Function.update_same _ _ _
  have m1 : Function.update (Function.update (Function.update m.memory
      (m.regi + 0) (m.regs x / 100)) (m.regi + 1) ((m.regs x / 10) % 10))
      (m.regi + 2) (m.regs x % 10) (m.regi + 1) = (m.regs x / 10) % 10 := by
    rw [Function.update_noteq (by omega), Function.update_same]
  have m2 : Function.update (Function.update (Function.update m.memory
      (m.regi + 0) (m.regs x / 100)) (m.regi + 1) ((m.regs x / 10) % 10))
      (m.regi + 2) (m.regs x % 10) (m.regi + 2) = m.regs x % 10 := by
    rw [Function.update_same]
  refine ⟨_, h1, m0, m1, m2, ?_, ?_, ?_, ?_, ?_, rfl, rfl, rfl⟩
  · dsimp only; rw [m0]; omega
  · dsimp only; rw [m1]; omega
  · dsimp only; rw [m2]; omega
  · dsimp only; rw [m0, m1, m2]; omega
  · intro a ha0 ha1 ha2
    dsimp only
    rw [Function.update_noteq ha2, Function.update_noteq ha1,
      Function.update_noteq (by simpa using ha0)]

/-- C9, at `regs[0] = 234`, `I = 0x300` and the instruction `F033`: the bytes
at `0x300`, `0x301`, `0x302` become `2`, `3`, `4`. -/
theorem bcd_store_witness :
    ∃ m', fetch_decode_execute (instr_state 0xF0 0x33 (regs_v0_v1 234 0) 0x300) = .ok m' ∧
      m'.memory 0x300 = 2 ∧ m'.memory 0x301 = 3 ∧ m'.memory 0x302 = 4 ∧
      m'.regi = 0x300 ∧ m'.pc = 0x202 := by
  obtain ⟨m', h, h0, h1, h2, -, -, -, -, -, -, hi, hp⟩ :=
    bcd_store (instr_state 0xF0 0x33 (regs_v0_v1 234 0) 0x300) 0
      (instr_state_wellFormed _ _ _ _ (by decide) (by decide)
        (regs_v0_v1_lt _ _ (by decide) (by decide)) (by decide))
      (by decide) (by decide) (by rfl)
  exact ⟨m', h, h0, h1, h2, hi, hp⟩

/-- C10 (fails in the code): the claim says `Fx33` fails exactly when one of
`I`, `I + 1`, `I + 2` is at least 4096.  With `I = 4093` the three addresses
are 4093, 4094, 4095, all inside the memory, and the guard
`start >= MEMORY_SIZE - 3` still stops the cycle with the out-of-bounds
error. -/
theorem ld_bcd_r_guard_off_by_one :
    (instr_state 0xF0 0x33 (regs_v0_v1 234 0) 4093).regi + 2 < MEMORY_SIZE ∧
    fetch_decode_execute (instr_state 0xF0 0x33 (regs_v0_v1 234 0) 4093)
      = .error .out_of_bounds := by
  refine ⟨by decide, ?_⟩
  rw [fde_ld_bcd_r _ 0 (by decide) (by rfl)]
  rfl

/-! ## The bulk transfers `Fx55` and `Fx65` -/

/-- The store loop succeeds when the `left` addresses from `regi` on are all
inside the memory, and then has copied the registers `i, i + 1, ...` there. -/
theorem ld_imem_r_loop_ok (left : Nat) : ∀ (i : Nat) (c : Chip8), c.regi + left ≤ 4096 →
    ld_imem_r_loop left i c = .ok { c with
      regi := c.regi + left
      memory := fun a =>
        if c.regi ≤ a ∧ a < c.regi + left then c.regs (i + (a - c.regi)) else c.memory a } := by
  induction left with
  | zero =>
    intro i c _
    have : (fun a => if c.regi ≤ a ∧ a < c.regi + 0 then c.regs (i + (a - c.regi))
        else c.memory a) = c.memory := by
      funext a
      rw [if_neg (by omega)]
    unfold ld_imem_r_loop
    rw [this]
    rfl
  | succ left ih =>
    intro i c h
    unfold ld_imem_r_loop
    simp only [MEMORY_SIZE]
    rw [if_neg (by omega), ih _ _ (by show (c.regi + 1) % 65536 + left ≤ 4096; omega)]
    have hmod : (c.regi + 1) % 65536 = c.regi + 1 := by omega
    simp only [hmod]
    congr 2
    · funext a
      by_cases ha : a = c.regi
      · subst ha
        rw [if_neg (by omega), if_pos (by omega), Function.update_same]
        simp
      · rw [Function.update_noteq ha]
        by_cases hin : c.regi + 1 ≤ a ∧ a < c.regi + 1 + left
        · rw [if_pos hin, if_pos (by omega)]
          congr 1
          omega
        · rw [if_neg hin, if_neg (by omega)]
    · omega

/-- The store loop stops with the out-of-bounds error when one of the `left`
addresses from `regi` on is outside the memory. -/
theorem ld_imem_r_loop_error (left : Nat) : ∀ (i : Nat) (c : Chip8), 0 < left →
    4096 < c.regi + left → ld_imem_r_loop left i c = .error .out_of_bounds := by
  induction left with
  | zero => intro i c h; omega
  | succ left ih =>
    intro i c _ h
    unfold ld_imem_r_loop
    simp only [MEMORY_SIZE]
    by_cases hr : c.regi ≥ 4096
    · rw [if_pos hr]
    · rw [if_neg hr]
      apply ih
      · omega
      · show 4096 < (c.regi + 1) % 65536 + left
        omega

/-- The load loop succeeds when the `left` addresses from `regi` on are all
inside the memory, and then has filled the registers `i, i + 1, ...` from
there. -/
theorem ld_r_imem_loop_ok (left : Nat) : ∀ (i : Nat) (c : Chip8), c.regi + left ≤ 4096 →
    ld_r_imem_loop left i c = .ok { c with
      regi := c.regi + left
      regs := fun j =>
        if i ≤ j ∧ j < i + left then c.memory (c.regi + (j - i)) else c.regs j } := by
  induction left with
  | zero =>
    intro i c _
    have : (fun j => if i ≤ j ∧ j < i + 0 then c.memory (c.regi + (j - i))
        else c.regs j) = c.regs := by
      funext j
      rw [if_neg (by omega)]
    unfold ld_r_imem_loop
    rw [this]
    rfl
  | succ left ih =>
    intro i c h
    unfold ld_r_imem_loop
    simp only [MEMORY_SIZE]
    rw [if_neg (by omega), ih _ _ (by show (c.regi + 1) % 65536 + left ≤ 4096; omega)]
    have hmod : (c.regi + 1) % 65536 = c.regi + 1 := by omega
    simp only [hmod]
    congr 2
    · funext j
      by_cases hj : j = i
      · subst hj
        rw [if_neg (by omega), if_pos (by omega), Function.update_same]
        simp
      · rw [Function.update_noteq hj]
        by_cases hin : i + 1 ≤ j ∧ j < i + 1 + left
        · rw [if_pos hin, if_pos (by omega)]
          congr 1
          omega
        · rw [if_neg hin, if_neg (by omega)]
    · omega

/-- The load loop stops with the out-of-bounds error when one of the `left`
addresses from `regi` on is outside the memory. -/
theorem ld_r_imem_loop_error (left : Nat) : ∀ (i : Nat) (c : Chip8), 0 < left →
    4096 < c.regi + left → ld_r_imem_loop left i c = .error .out_of_bounds := by
  induction left with
  | zero => intro i c h; omega
  | succ left ih =>
    intro i c _ h
    unfold ld_r_imem_loop
    simp only [MEMORY_SIZE]
    by_cases hr : c.regi ≥ 4096
    · rw [if_pos hr]
    · rw [if_neg hr]
      apply ih
      · omega
      · show 4096 < (c.regi + 1) % 65536 + left
        omega

theorem decode_ld_imem_r_fin : ∀ x : Fin 16,
    op_decode (0xF055 + 256 * x.val) = some OP_LD_IMEM_R ∧
    op_x (0xF055 + 256 * x.val) = x.val := by
  decide

theorem decode_ld_r_imem_fin : ∀ x : Fin 16,
    op_decode (0xF065 + 256 * x.val) = some OP_LD_R_IMEM ∧
    op_x (0xF065 + 256 * x.val) = x.val := by
  decide

/-- The cycle that fetches `Fx55`. -/
theorem fde_ld_imem_r (m : Main) (x : Nat) (hx : x < 16)
    (h : op_fetch m.toChip8 = .ok (0xF055 + 256 * x)) :
    fetch_decode_execute m =
      if m.regi + x ≥ 4096 then .error .out_of_bounds
      else .ok { m with
        op := 0xF055 + 256 * x
        regi := m.regi + (x + 1)
        memory := fun a =>
          if m.regi ≤ a ∧ a < m.regi + (x + 1) then m.regs (0 + (a - m.regi)) else m.memory a
        pc := m.pc + 2 } := by
  obtain ⟨hd, hopx⟩ := decode_ld_imem_r_fin ⟨x, hx⟩
  simp only at hd hopx
  rw [fde_of_decode m _ _ h hd]
  simp only [execute, hopx]
  by_cases hr : m.regi + x ≥ 4096
  · rw [if_pos hr, ld_imem_r_loop_error (x + 1) 0 _ (by omega) (by show 4096 < m.regi + (x + 1); omega)]
  · rw [if_neg hr, ld_imem_r_loop_ok (x + 1) 0 _ (by show m.regi + (x + 1) ≤ 4096; omega)]
    simp only [pc_add2_of_fetch h]

/-- The cycle that fetches `Fx65`. -/
theorem fde_ld_r_imem (m : Main) (x : Nat) (hx : x < 16)
    (h : op_fetch m.toChip8 = .ok (0xF065 + 256 * x)) :
    fetch_decode_execute m =
      if m.regi + x ≥ 4096 then .error .out_of_bounds
      else .ok { m with
        op := 0xF065 + 256 * x
        regi := m.regi + (x + 1)
        regs := fun j =>
          if 0 ≤ j ∧ j < 0 + (x + 1) then m.memory (m.regi + (j - 0)) else m.regs j
        pc := m.pc + 2 } := by
  obtain ⟨hd, hopx⟩ := decode_ld_r_imem_fin ⟨x, hx⟩
  simp only at hd hopx
  rw [fde_of_decode m _ _ h hd]
  simp only [execute, hopx]
  by_cases hr : m.regi + x ≥ 4096
  · rw [if_pos hr, ld_r_imem_loop_error (x + 1) 0 _ (by omega) (by show 4096 < m.regi + (x + 1); omega)]
  · rw [if_neg hr, ld_r_imem_loop_ok (x + 1) 0 _ (by show m.regi + (x + 1) ≤ 4096; omega)]
    simp only [pc_add2_of_fetch h]

/-- C11: a fetched `Fx55` or `Fx65` with index register `I` fails, with the
out-of-bounds error, exactly when `I + x ≥ 4096`.  Otherwise `Fx55` stores
`regs[i]` at `I + i` for every `i ≤ x` and changes no other memory byte and no
register; `Fx65` loads `regs[i]` from `I + i` for every `i ≤ x` and changes no
register above `x` and no memory byte; both leave the index register at
`I + x + 1` and advance `pc` by 2. -/
theorem bulk_transfer :
    (∀ (m : Main) (x : Nat), x < 16 → op_fetch m.toChip8 = .ok (0xF055 + 256 * x) →
      (fetch_decode_execute m = .error .out_of_bounds ↔ m.regi + x ≥ 4096) ∧
      ((∃ e, fetch_decode_execute m = .error e) ↔ m.regi + x ≥ 4096) ∧
      (m.regi + x < 4096 →
        ∃ m', fetch_decode_execute m = .ok m' ∧
          (∀ i, i ≤ x → m'.memory (m.regi + i) = m.regs i) ∧
          (∀ a, (a < m.regi ∨ m.regi + x < a) → m'.memory a = m.memory a) ∧
          m'.regs = m.regs ∧ m'.regi = m.regi + x + 1 ∧ m'.pc = m.pc + 2)) ∧
    (∀ (m : Main) (x : Nat), x < 16 → op_fetch m.toChip8 = .ok (0xF065 + 256 * x) →
      (fetch_decode_execute m = .error .out_of_bounds ↔ m.regi + x ≥ 4096) ∧
      ((∃ e, fetch_decode_execute m = .error e) ↔ m.regi + x ≥ 4096) ∧
      (m.regi + x < 4096 →
        ∃ m', fetch_decode_execute m = .ok m' ∧
          (∀ i, i ≤ x → m'.regs i = m.memory (m.regi + i)) ∧
          (∀ i, x < i → m'.regs i = m.regs i) ∧
          m'.memory = m.memory ∧ m'.regi = m.regi + x + 1 ∧ m'.pc = m.pc + 2)) := by
  constructor
  · intro m x hx h
    have h1 := fde_ld_imem_r m x hx h
    by_cases hr : m.regi + x ≥ 4096
    · rw [if_pos hr] at h1
      rw [h1]
      exact ⟨by simp [hr], by simp [hr], fun hlt => by omega⟩
    · rw [if_neg hr] at h1
      rw [h1]
      refine ⟨⟨fun e => (by cases e), fun e => (by omega)⟩,
        ⟨fun ⟨e, he⟩ => (by cases he), fun e => (by omega)⟩,
        fun _ => ⟨_, rfl, ?_, ?_, rfl, rfl, rfl⟩⟩
      · intro i hi
        dsimp only
        rw [if_pos (by omega)]
        congr 1
        omega
      · intro a ha
        dsimp only
        rw [if_neg (by omega)]
  · intro m x hx h
    have h1 := fde_ld_r_imem m x hx h
    by_cases hr : m.regi + x ≥ 4096
    · rw [if_pos hr] at h1
      rw [h1]
      exact ⟨by simp [hr], by simp [hr], fun hlt => by omega⟩
    · rw [if_neg hr] at h1
      rw [h1]
      refine ⟨⟨fun e => (by cases e), fun e => (by omega)⟩,
        ⟨fun ⟨e, he⟩ => (by cases he), fun e => (by omega)⟩,
        fun _ => ⟨_, rfl, ?_, ?_, rfl, rfl, rfl⟩⟩
      · intro i hi
        dsimp only
        rw [if_pos (by omega)]
        rfl
      · intro i hi
        dsimp only
        rw [if_neg (by omega)]

/-- C11, with `x = 1`, `regs[0] = 7`, `regs[1] = 9`: `F155` at `I = 0x300`
stores 7 and 9 at `0x300`, `0x301` and leaves `I = 0x302`; `F165` at
`I = 0x200` loads the two instruction bytes `F1`, `65` into `regs[0]`,
`regs[1]`; `F155` at `I = 4095` is out of bounds. -/
theorem bulk_transfer_witness :
    (∃ m', fetch_decode_execute (instr_state 0xF1 0x55 (regs_v0_v1 7 9) 0x300) = .ok m' ∧
      m'.memory 0x300 = 7 ∧ m'.memory 0x301 = 9 ∧ m'.regi = 0x302 ∧ m'.pc = 0x202) ∧
    (∃ m', fetch_decode_execute (instr_state 0xF1 0x65 (regs_v0_v1 7 9) 0x200) = .ok m' ∧
      m'.regs 0 = 0xF1 ∧ m'.regs 1 = 0x65 ∧ m'.regi = 0x202 ∧ m'.pc = 0x202) ∧
    fetch_decode_execute (instr_state 0xF1 0x55 (regs_v0_v1 7 9) 4095)
      = .error .out_of_bounds := by
  obtain ⟨m1, h1, hmem, -, -, hi1, hp1⟩ :=
    (bulk_transfer.1 (instr_state 0xF1 0x55 (regs_v0_v1 7 9) 0x300) 1 (by decide)
      (by rfl)).2.2 (by decide)
  obtain ⟨m2, h2, hregs, -, -, hi2, hp2⟩ :=
    (bulk_transfer.2 (instr_state 0xF1 0x65 (regs_v0_v1 7 9) 0x200) 1 (by decide)
      (by rfl)).2.2 (by decide)
  exact ⟨⟨m1, h1, hmem 0 (by decide), hmem 1 (by decide), hi1, hp1⟩,
    ⟨m2, h2, hregs 0 (by decide), hregs 1 (by decide), hi2, hp2⟩,
    ((bulk_transfer.1 (instr_state 0xF1 0x55 (regs_v0_v1 7 9) 4095) 1 (by decide)
      (by rfl)).1).2 (by decide)⟩

/-! ## The keyboard latch -/

theorem and_two_pow_ne_zero_iff (n q : Nat) : n &&& 2 ^ q ≠ 0 ↔ n.testBit q = true := by
  constructor
  · intro h
    by_contra hb
    apply h
    apply Nat.eq_of_testBit_eq
    intro i
    rw [Nat.testBit_and, Nat.testBit_two_pow, Nat.zero_testBit]
    by_cases hqi : q = i
    · subst hqi
      simp [hb]
    · simp [hqi]
  · intro h h0
    have : (n &&& 2 ^ q).testBit q = true := by
      rw [Nat.testBit_and, Nat.testBit_two_pow_self, h]
      rfl
    rw [h0, Nat.zero_testBit] at this
    cases this

/-- Every key has a single bit of the latch, and different keys have
different bits. -/
theorem keyboard_decode_table_bit : ∀ i : Fin 16, ∃ p : Fin 16,
    keyboard_decode_table i.val = 2 ^ p.val ∧
    ∀ j : Fin 16, keyboard_decode_table j.val = 2 ^ p.val → j = i := by
  decide

/-- Setting the bit of key `i` makes the test of key `i` succeed and leaves
the test of every other key as it was. -/
theorem keyboard_set_test (kb i k : Nat) (hi : i < 16) (hk : k < 16) :
    (kb ||| keyboard_decode_table i) &&& keyboard_decode_table k ≠ 0 ↔
      (k = i ∨ kb &&& keyboard_decode_table k ≠ 0) := by
  obtain ⟨p, hp, hpu⟩ := keyboard_decode_table_bit ⟨i, hi⟩
  obtain ⟨q, hq, -⟩ := keyboard_decode_table_bit ⟨k, hk⟩
  simp only at hp hq hpu
  rw [hq, and_two_pow_ne_zero_iff, and_two_pow_ne_zero_iff, hp, Nat.testBit_or,
    Nat.testBit_two_pow]
  by_cases hki : k = i
  · subst hki
    have : p.val = q.val := Nat.pow_right_injective (le_refl 2) (hp.symm.trans hq)
    simp [this]
  · have hpq : p.val ≠ q.val := by
      intro hpq
      have := hpu ⟨k, hk⟩ (by simp only; rw [hq, hpq])
      exact hki (by simpa using congrArg Fin.val this)
    simp [hpq, hki]

/-- Clearing the bit of key `i` makes the test of key `i` fail and leaves the
test of every other key as it was. -/
theorem keyboard_clear_test (kb i k : Nat) (hi : i < 16) (hk : k < 16) :
    (kb &&& (0xFFFF ^^^ keyboard_decode_table i)) &&& keyboard_decode_table k ≠ 0 ↔
      (k ≠ i ∧ kb &&& keyboard_decode_table k ≠ 0) := by
  obtain ⟨p, hp, hpu⟩ := keyboard_decode_table_bit ⟨i, hi⟩
  obtain ⟨q, hq, -⟩ := keyboard_decode_table_bit ⟨k, hk⟩
  simp only at hp hq hpu
  have hF : (0xFFFF : Nat).testBit q.val = true := by
    have := Nat.testBit_two_pow_sub_one 16 q.val
    simpa using this
  rw [hq, and_two_pow_ne_zero_iff, and_two_pow_ne_zero_iff, hp, Nat.testBit_and,
    Nat.testBit_xor, Nat.testBit_two_pow, hF]
  by_cases hki : k = i
  · subst hki
    have : p.val = q.val := Nat.pow_right_injective (le_refl 2) (hp.symm.trans hq)
    simp [this]
  · have hpq : p.val ≠ q.val := by
      intro hpq
      have := hpu ⟨k, hk⟩ (by simp only; rw [hq, hpq])
      exact hki (by simpa using congrArg Fin.val this)
    simp [hpq, hki]

/-- One iteration of the keyboard loop, when the host reports every key
either held or released: a held key gets its bit set; a released key whose
bit was set gets it cleared and, when a key is awaited, ends the wait. -/
theorem keyboard_iter_eq (down up : Nat → Bool) (i : Nat) (m : Main)
    (hi : i < 16) (hkb : m.keyboard < 65536) (hup : up i = !down i) :
    keyboard_iter down up i m =
      if down i = true then { m with keyboard := m.keyboard ||| keyboard_decode_table i }
      else if m.keyboard &&& keyboard_decode_table i ≠ 0 then
        if m.waiting_for_key = true then
          { m with
            keyboard := m.keyboard &&& (0xFFFF ^^^ keyboard_decode_table i)
            waiting_for_key := false
            regs := Function.update m.regs (op_x m.op) i }
        else { m with keyboard := m.keyboard &&& (0xFFFF ^^^ keyboard_decode_table i) }
      else m := by
  have htab : keyboard_decode_table i < 2 ^ 16 := by
    obtain ⟨p, hp, -⟩ := keyboard_decode_table_bit ⟨i, hi⟩
    simp only at hp
    rw [hp]
    exact Nat.pow_lt_pow_right (by decide) p.isLt
  have hor : (m.keyboard ||| keyboard_decode_table i) % 65536
      = m.keyboard ||| keyboard_decode_table i :=
    Nat.mod_eq_of_lt (Nat.or_lt_two_pow (n := 16) hkb htab)
  have himod : i % 256 = i := by omega
  unfold keyboard_iter
  by_cases hd : down i = true
  · have hu : up i = false := by rw [hup, hd]; rfl
    simp only [hd, if_true, hu, hor, Bool.false_eq_true, and_false, if_false]
  · have hd' : down i = false := by simpa using hd
    have hu : up i = true := by rw [hup, hd']; rfl
    simp only [hd', Bool.false_eq_true, if_false, hu, and_true, himod]

/-- What one iteration of the keyboard loop leaves in place. -/
theorem keyboard_iter_frame (down up : Nat → Bool) (i : Nat) (m : Main)
    (hi : i < 16) (hkb : m.keyboard < 65536) (hup : up i = !down i) :
    (keyboard_iter down up i m).keyboard < 65536 ∧
    (∀ k, k < 16 → ((keyboard_iter down up i m).keyboard &&& keyboard_decode_table k ≠ 0 ↔
      if k = i then down i = true else m.keyboard &&& keyboard_decode_table k ≠ 0)) ∧
    (keyboard_iter down up i m).op = m.op ∧
    (keyboard_iter down up i m).frame_buffer = m.frame_buffer ∧
    (keyboard_iter down up i m).sp = m.sp ∧
    (keyboard_iter down up i m).delay_timer = m.delay_timer ∧
    (keyboard_iter down up i m).sound_timer = m.sound_timer ∧
    (keyboard_iter down up i m).memory = m.memory ∧
    (keyboard_iter down up i m).stack = m.stack ∧
    (keyboard_iter down up i m).pc = m.pc ∧
    (keyboard_iter down up i m).regi = m.regi := by
  have htab : keyboard_decode_table i < 2 ^ 16 := by
    obtain ⟨p, hp, -⟩ := keyboard_decode_table_bit ⟨i, hi⟩
    simp only at hp
    rw [hp]
    exact Nat.pow_lt_pow_right (by decide) p.isLt
  have hset := fun k hk => keyboard_set_test m.keyboard i k hi hk
  have hclr := fun k hk => keyboard_clear_test m.keyboard i k hi hk
  have hclrlt : m.keyboard &&& (0xFFFF ^^^ keyboard_decode_table i) < 65536 :=
    lt_of_le_of_lt Nat.and_le_left hkb
  rw [keyboard_iter_eq down up i m hi hkb hup]
  by_cases hd : down i = true
  · rw [if_pos hd]
    refine ⟨Nat.or_lt_two_pow (n := 16) hkb htab, ?_, rfl, rfl, rfl, rfl, rfl, rfl, rfl, rfl, rfl⟩
    intro k hk
    dsimp only
    rw [hset k hk]
    by_cases hki : k = i
    · simp [hki, hd]
    · simp [hki]
  · rw [if_neg hd]
    by_cases hb : m.keyboard &&& keyboard_decode_table i ≠ 0
    · rw [if_pos hb]
      by_cases hw : m.waiting_for_key = true
      · rw [if_pos hw]
        refine ⟨hclrlt, ?_, rfl, rfl, rfl, rfl, rfl, rfl, rfl, rfl, rfl⟩
        intro k hk
        dsimp only
        rw [hclr k hk]
        by_cases hki : k = i
        · simp [hki, hd]
        · simp [hki]
      · rw [if_neg hw]
        refine ⟨hclrlt, ?_, rfl, rfl, rfl, rfl, rfl, rfl, rfl, rfl, rfl⟩
        intro k hk
        dsimp only
        rw [hclr k hk]
        by_cases hki : k = i
        · simp [hki, hd]
        · simp [hki]
    · rw [if_neg hb]
      refine ⟨hkb, ?_, rfl, rfl, rfl, rfl, rfl, rfl, rfl, rfl, rfl⟩
      intro k hk
      by_cases hki : k = i
      · subst hki
        simp only [if_true]
        constructor
        · intro h; exact absurd h hb
        · intro h; exact absurd h hd
      · simp [hki]

/-- What one iteration of the keyboard loop does to the awaited key: it ends
the wait, storing `i`, exactly when a key is awaited, the bit of key `i` is
set and the key is reported released. -/
theorem keyboard_iter_wait (down up : Nat → Bool) (i : Nat) (m : Main)
    (hi : i < 16) (hkb : m.keyboard < 65536) (hup : up i = !down i) :
    (m.waiting_for_key = true ∧ m.keyboard &&& keyboard_decode_table i ≠ 0 ∧ up i = true →
      (keyboard_iter down up i m).waiting_for_key = false ∧
      (keyboard_iter down up i m).regs = Function.update m.regs (op_x m.op) i) ∧
    (¬ (m.waiting_for_key = true ∧ m.keyboard &&& keyboard_decode_table i ≠ 0 ∧ up i = true) →
      (keyboard_iter down up i m).waiting_for_key = m.waiting_for_key ∧
      (keyboard_iter down up i m).regs = m.regs) := by
  rw [keyboard_iter_eq down up i m hi hkb hup]
  by_cases hd : down i = true
  · have hu : up i = false := by rw [hup, hd]; rfl
    rw [if_pos hd]
    constructor
    · rintro ⟨-, -, h⟩
      rw [hu] at h
      cases h
    · intro _
      exact ⟨rfl, rfl⟩
  · have hd' : down i = false := by simpa using hd
    have hu : up i = true := by rw [hup, hd']; rfl
    rw [if_neg hd]
    by_cases hb : m.keyboard &&& keyboard_decode_table i ≠ 0
    · rw [if_pos hb]
      by_cases hw : m.waiting_for_key = true
      · rw [if_pos hw]
        exact ⟨fun _ => ⟨rfl, rfl⟩, fun h => absurd ⟨hw, hb, hu⟩ h⟩
      · rw [if_neg hw]
        exact ⟨fun h => absurd h.1 hw, fun _ => ⟨rfl, rfl⟩⟩
    · rw [if_neg hb]
      exact ⟨fun h => absurd h.2.1 hb, fun _ => ⟨rfl, rfl⟩⟩

/-- What the keyboard loop leaves in place, and the latch after it: the bit
of every key visited tells whether the host reports the key held. -/
theorem keyboard_loop_frame (down up : Nat → Bool) (hup : ∀ k, k < 16 → up k = !down k)
    (left : Nat) : ∀ (i : Nat) (m : Main), i + left ≤ 16 → m.keyboard < 65536 →
    (keyboard_loop down up left i m).keyboard < 65536 ∧
    (∀ k, k < 16 →
      ((keyboard_loop down up left i m).keyboard &&& keyboard_decode_table k ≠ 0 ↔
        if i ≤ k ∧ k < i + left then down k = true
        else m.keyboard &&& keyboard_decode_table k ≠ 0)) ∧
    (keyboard_loop down up left i m).op = m.op ∧
    (keyboard_loop down up left i m).frame_buffer = m.frame_buffer ∧
    (keyboard_loop down up left i m).sp = m.sp ∧
    (keyboard_loop down up left i m).delay_timer = m.delay_timer ∧
    (keyboard_loop down up left i m).sound_timer = m.sound_timer ∧
    (keyboard_loop down up left i m).memory = m.memory ∧
    (keyboard_loop down up left i m).stack = m.stack ∧
    (keyboard_loop down up left i m).pc = m.pc ∧
    (keyboard_loop down up left i m).regi = m.regi := by
  induction left with
  | zero =>
    intro i m _ hkb
    refine ⟨hkb, ?_, rfl, rfl, rfl, rfl, rfl, rfl, rfl, rfl, rfl⟩
    intro k _
    rw [if_neg (by omega)]
    rfl
  | succ left ih =>
    intro i m hil hkb
    obtain ⟨h1, h2, h3, h4, h5, h6, h7, h8, h9, h10, h11⟩ :=
      keyboard_iter_frame down up i m (by omega) hkb (hup i (by omega))
    obtain ⟨g1, g2, g3, g4, g5, g6, g7, g8, g9, g10, g11⟩ :=
      ih (i + 1) (keyboard_iter down up i m) (by omega) h1
    unfold keyboard_loop
    refine ⟨g1, ?_, g3.trans h3, g4.trans h4, g5.trans h5, g6.trans h6, g7.trans h7,
      g8.trans h8, g9.trans h9, g10.trans h10, g11.trans h11⟩
    intro k hk
    rw [g2 k hk]
    by_cases hin : i + 1 ≤ k ∧ k < i + 1 + left
    · rw [if_pos hin, if_pos (by omega)]
    · rw [if_neg hin, h2 k hk]
      by_cases hki : k = i
      · rw [if_pos hki, if_pos (by omega), hki]
      · rw [if_neg hki, if_neg (by omega)]

/-- The keyboard loop and the awaited key.  With no key awaited the
registers stay as they are.  With a key awaited, the first visited key whose
bit is set and which is reported released ends the wait and is stored in the
register named by the last fetched word; without such a key the wait goes
on and the registers stay as they are. -/
theorem keyboard_loop_wait (down up : Nat → Bool) (hup : ∀ k, k < 16 → up k = !down k)
    (left : Nat) : ∀ (i : Nat) (m : Main), i + left ≤ 16 → m.keyboard < 65536 →
    (m.waiting_for_key = false →
      (keyboard_loop down up left i m).waiting_for_key = false ∧
      (keyboard_loop down up left i m).regs = m.regs) ∧
    (m.waiting_for_key = true →
      (∀ k, i ≤ k → k < i + left →
        ¬ (m.keyboard &&& keyboard_decode_table k ≠ 0 ∧ up k = true)) →
      (keyboard_loop down up left i m).waiting_for_key = true ∧
      (keyboard_loop down up left i m).regs = m.regs) ∧
    (m.waiting_for_key = true →
      ∀ k, i ≤ k → k < i + left →
        (m.keyboard &&& keyboard_decode_table k ≠ 0 ∧ up k = true) →
        (∀ j, i ≤ j → j < k →
          ¬ (m.keyboard &&& keyboard_decode_table j ≠ 0 ∧ up j = true)) →
        (keyboard_loop down up left i m).waiting_for_key = false ∧
        (keyboard_loop down up left i m).regs = Function.update m.regs (op_x m.op) k) := by
  induction left with
  | zero =>
    intro i m _ _
    refine ⟨fun h => ⟨h, rfl⟩, fun h _ => ⟨h, rfl⟩, ?_⟩
    intro _ k hik hk
    omega
  | succ left ih =>
    intro i m hil hkb
    obtain ⟨h1, h2, h3, -⟩ :=
      keyboard_iter_frame down up i m (by omega) hkb (hup i (by omega))
    obtain ⟨w1, w2⟩ := keyboard_iter_wait down up i m (by omega) hkb (hup i (by omega))
    obtain ⟨g1, g2, g3⟩ := ih (i + 1) (keyboard_iter down up i m) (by omega) h1
    have hsame : ∀ k, i + 1 ≤ k → k < 16 →
        (((keyboard_iter down up i m).keyboard &&& keyboard_decode_table k ≠ 0 ∧ up k = true)
          ↔ (m.keyboard &&& keyboard_decode_table k ≠ 0 ∧ up k = true)) := by
      intro k hik hk
      rw [h2 k hk, if_neg (by omega)]
    unfold keyboard_loop
    refine ⟨?_, ?_, ?_⟩
    · intro hw
      obtain ⟨a, b⟩ := w2 (fun h => by rw [hw] at h; cases h.1)
      obtain ⟨c, d⟩ := g1 (a.trans hw)
      exact ⟨c, d.trans b⟩
    · intro hw hnone
      obtain ⟨a, b⟩ := w2 (fun h => hnone i (le_refl _) (by omega) h.2)
      obtain ⟨c, d⟩ := g2 (a.trans hw) (fun k hik hk hR =>
        hnone k (by omega) (by omega) ((hsame k hik (by omega)).1 hR))
      exact ⟨c, d.trans b⟩
    · intro hw k hik hk hR hfirst
      by_cases hki : k = i
      · subst hki
        obtain ⟨a, b⟩ := w1 ⟨hw, hR⟩
        obtain ⟨c, d⟩ := g1 a
        exact ⟨c, d.trans b⟩
      · obtain ⟨a, b⟩ := w2 (fun h => hfirst i (le_refl _) (by omega) h.2)
        obtain ⟨c, d⟩ := g3 (a.trans hw) k (by omega) (by omega)
          ((hsame k (by omega) (by omega)).2 hR)
          (fun j hij hjk hRj => hfirst j (by omega) hjk ((hsame j hij (by omega)).1 hRj))
        refine ⟨c, ?_⟩
        rw [d, b, h3]

/-- The timer block touches the two timers only. -/
theorem timer_tick_frame (tick : Bool) (m : Main) :
    (timer_tick tick m).keyboard = m.keyboard ∧
    (timer_tick tick m).regs = m.regs ∧
    (timer_tick tick m).op = m.op ∧
    (timer_tick tick m).waiting_for_key = m.waiting_for_key ∧
    (timer_tick tick m).pc = m.pc ∧
    (timer_tick tick m).memory = m.memory ∧
    (timer_tick tick m).regi = m.regi ∧
    (timer_tick tick m).frame_buffer = m.frame_buffer ∧
    (timer_tick tick m).sp = m.sp ∧
    (timer_tick tick m).stack = m.stack := by
  by_cases h1 : m.delay_timer > 0 <;> by_cases h2 : m.sound_timer > 0 <;> cases tick <;>
    simp [timer_tick, h1, h2]

theorem decode_ld_r_k_fin : ∀ x : Fin 16,
    op_decode (0xF00A + 256 * x.val) = some OP_LD_R_K ∧
    op_x (0xF00A + 256 * x.val) = x.val := by
  decide

/-- The cycle that fetches `Fx0A`. -/
theorem fde_ld_r_k (m : Main) (x : Nat) (hx : x < 16)
    (h : op_fetch m.toChip8 = .ok (0xF00A + 256 * x)) :
    fetch_decode_execute m = .ok { m with
      op := 0xF00A + 256 * x
      waiting_for_key := true
      pc := m.pc + 2 } := by
  obtain ⟨hd, -⟩ := decode_ld_r_k_fin ⟨x, hx⟩
  simp only at hd
  rw [fde_of_decode m _ _ h hd]
  simp only [execute, pc_add2_of_fetch h]

/-- C17: a fetched `Fx0A` starts the wait and leaves `Fx0A` as the last
fetched word.  In a later cycle that starts with the wait on, let `R` be the
keys whose latch bit is set and which the host reports released (the host
reports each key either held or released).  If `k` is the least key of `R`,
then after the keyboard loop `regs[x] = k`, no other register has changed,
the wait is over and the latch bit of every key of `R` is clear.  If `R` is
empty, the wait is still on after the keyboard loop, no register has
changed, and the cycle ends there: `pc`, the last fetched word and the memory
are as before. -/
theorem wait_for_key_resolution (tick : Bool) (down up : Nat → Bool) (m : Main) (x : Nat)
    (hup : ∀ k, k < 16 → up k = !down k) (hkb : m.keyboard < 65536) (hx : x < 16)
    (hw : m.waiting_for_key = true) (hop : m.op = 0xF00A + 256 * x) :
    (∀ m0 : Main, op_fetch m0.toChip8 = .ok (0xF00A + 256 * x) →
      ∃ m1, fetch_decode_execute m0 = .ok m1 ∧ m1.waiting_for_key = true ∧
        m1.op = 0xF00A + 256 * x ∧ m1.regs = m0.regs ∧ m1.pc = m0.pc + 2) ∧
    (∀ k, k < 16 → (m.keyboard &&& keyboard_decode_table k ≠ 0 ∧ up k = true) →
      (∀ j, j < k → ¬ (m.keyboard &&& keyboard_decode_table j ≠ 0 ∧ up j = true)) →
      (keyboard_loop down up 16 0 (timer_tick tick m)).regs x = k ∧
      (∀ i, i ≠ x → (keyboard_loop down up 16 0 (timer_tick tick m)).regs i = m.regs i) ∧
      (keyboard_loop down up 16 0 (timer_tick tick m)).waiting_for_key = false ∧
      (∀ j, j < 16 → (m.keyboard &&& keyboard_decode_table j ≠ 0 ∧ up j = true) →
        (keyboard_loop down up 16 0 (timer_tick tick m)).keyboard
          &&& keyboard_decode_table j = 0)) ∧
    ((∀ k, k < 16 → ¬ (m.keyboard &&& keyboard_decode_table k ≠ 0 ∧ up k = true)) →
      (keyboard_loop down up 16 0 (timer_tick tick m)).waiting_for_key = true ∧
      (keyboard_loop down up 16 0 (timer_tick tick m)).regs = m.regs ∧
      cycle tick down up m = .ok (keyboard_loop down up 16 0 (timer_tick tick m)) ∧
      (keyboard_loop down up 16 0 (timer_tick tick m)).pc = m.pc ∧
      (keyboard_loop down up 16 0 (timer_tick tick m)).op = m.op ∧
      (keyboard_loop down up 16 0 (timer_tick tick m)).memory = m.memory) := by
  obtain ⟨tkb, tregs, top, tw, tpc, tmem, -⟩ := timer_tick_frame tick m
  have hkb' : (timer_tick tick m).keyboard < 65536 := by rw [tkb]; exact hkb
  obtain ⟨-, fbits, fop, -, -, -, -, fmem, -, fpc, -⟩ :=
    keyboard_loop_frame down up hup 16 0 (timer_tick tick m) (by omega) hkb'
  obtain ⟨-, wnone, wfirst⟩ :=
    keyboard_loop_wait down up hup 16 0 (timer_tick tick m) (by omega) hkb'
  have hopx : op_x (timer_tick tick m).op = x := by
    rw [top, hop]
    exact (decode_ld_r_k_fin ⟨x, hx⟩).2
  refine ⟨?_, ?_, ?_⟩
  · intro m0 h0
    exact ⟨_, fde_ld_r_k m0 x hx h0, rfl, rfl, rfl, rfl⟩
  · intro k hk hR hfirst
    obtain ⟨a, b⟩ := wfirst (tw.trans hw) k (Nat.zero_le _) (by omega)
      (by rw [tkb]; exact hR) (fun j _ hjk => by rw [tkb]; exact hfirst j hjk)
    rw [hopx, tregs] at b
    refine ⟨by rw [b, Function.update_same], ?_, a, ?_⟩
    · intro i hi
      rw [b, Function.update_noteq hi]
    · intro j hj hRj
      by_contra hne
      have := (fbits j hj).1 hne
      rw [if_pos (by omega)] at this
      have hupj := hup j hj
      rw [this, hRj.2] at hupj
      cases hupj
  · intro hnone
    obtain ⟨a, b⟩ := wnone (tw.trans hw) (fun k _ hk => by rw [tkb]; exact hnone k (by omega))
    refine ⟨a, b.trans tregs, ?_, fpc.trans tpc, fop.trans top, fmem.trans tmem⟩
    unfold cycle
    simp only [a, Bool.not_true, Bool.false_eq_true, if_false]

/-- C17, with `F20A` awaited: when keys 3 and 7 are latched and every key is
reported released, `regs[2]` becomes 3, the wait ends and both bits are
cleared; when no key is latched the cycle ends after the keyboard loop with
the wait still on. -/
theorem wait_for_key_resolution_witness :
    ((keyboard_loop (fun _ => false) (fun _ => true) 16 0
        (timer_tick true (waiting_state 2 0x2080))).regs 2 = 3 ∧
      (keyboard_loop (fun _ => false) (fun _ => true) 16 0
        (timer_tick true (waiting_state 2 0x2080))).waiting_for_key = false ∧
      (keyboard_loop (fun _ => false) (fun _ => true) 16 0
        (timer_tick true (waiting_state 2 0x2080))).keyboard &&& keyboard_decode_table 7 = 0) ∧
    ((keyboard_loop (fun _ => false) (fun _ => true) 16 0
        (timer_tick true (waiting_state 2 0))).waiting_for_key = true ∧
      cycle true (fun _ => false) (fun _ => true) (waiting_state 2 0)
        = .ok (keyboard_loop (fun _ => false) (fun _ => true) 16 0
          (timer_tick true (waiting_state 2 0))) ∧
      (keyboard_loop (fun _ => false) (fun _ => true) 16 0
        (timer_tick true (waiting_state 2 0))).pc = 0x202) := by
  obtain ⟨h1, -, h3, h4⟩ :=
    (wait_for_key_resolution true (fun _ => false) (fun _ => true) (waiting_state 2 0x2080) 2
      (fun _ _ => rfl) (by decide) (by decide) rfl rfl).2.1 3 (by decide)
      ⟨by decide, rfl⟩ (by decide)
  obtain ⟨g1, -, g3, g4, -⟩ :=
    (wait_for_key_resolution true (fun _ => false) (fun _ => true) (waiting_state 2 0) 2
      (fun _ _ => rfl) (by decide) (by decide) rfl rfl).2.2 (by decide)
  exact ⟨⟨h1, h3, h4 7 (by decide) ⟨by decide, rfl⟩⟩, ⟨g1, g3, g4⟩⟩


theorem decode_skp_fin : ∀ x : Fin 16,
    op_decode (0xE09E + 256 * x.val) = some OP_SKP ∧
    op_x (0xE09E + 256 * x.val) = x.val := by
  decide

theorem decode_sknp_fin : ∀ x : Fin 16,
    op_decode (0xE0A1 + 256 * x.val) = some OP_SKNP ∧
    op_x (0xE0A1 + 256 * x.val) = x.val := by
  decide

/-- The cycle that fetches `Ex9E`. -/
theorem fde_skp (m : Main) (x : Nat) (hx : x < 16)
    (h : op_fetch m.toChip8 = .ok (0xE09E + 256 * x)) :
    fetch_decode_execute m =
      if m.regs x > 0xF then .error .invalid_key
      else .ok { m with
        op := 0xE09E + 256 * x
        pc := if m.keyboard &&& keyboard_decode_table (m.regs x) ≠ 0 then m.pc + 4
          else m.pc + 2 } := by
  obtain ⟨hd, hopx⟩ := decode_skp_fin ⟨x, hx⟩
  simp only at hd hopx
  have hpc := op_fetch_ok_pc h
  rw [fde_of_decode m _ _ h hd]
  have e2 : (m.pc + 2) % 65536 = m.pc + 2 := by omega
  have e4 : (m.pc + 2 + 2) % 65536 = m.pc + 4 := by omega
  simp only [execute, hopx, pc_add2]
  by_cases hk : m.regs x > 0xF
  · rw [if_pos hk, if_pos hk]
  · rw [if_neg hk, if_neg hk]
    split_ifs <;> simp only [e2, e4]

/-- The cycle that fetches `ExA1`. -/
theorem fde_sknp (m : Main) (x : Nat) (hx : x < 16)
    (h : op_fetch m.toChip8 = .ok (0xE0A1 + 256 * x)) :
    fetch_decode_execute m =
      if m.regs x > 0xF then .error .invalid_key
      else .ok { m with
        op := 0xE0A1 + 256 * x
        pc := if m.keyboard &&& keyboard_decode_table (m.regs x) = 0 then m.pc + 4
          else m.pc + 2 } := by
  obtain ⟨hd, hopx⟩ := decode_sknp_fin ⟨x, hx⟩
  simp only at hd hopx
  have hpc := op_fetch_ok_pc h
  rw [fde_of_decode m _ _ h hd]
  have e2 : (m.pc + 2) % 65536 = m.pc + 2 := by omega
  have e4 : (m.pc + 2 + 2) % 65536 = m.pc + 4 := by omega
  simp only [execute, hopx, pc_add2]
  by_cases hk : m.regs x > 0xF
  · rw [if_pos hk, if_pos hk]
  · rw [if_neg hk, if_neg hk]
    split_ifs <;> simp only [e2, e4]

/-- C18: a fetched `Ex9E` or `ExA1` stops with the invalid-key error when
`regs[x] > 0xF`.  With `k = regs[x] ≤ 0xF`, `Ex9E` advances `pc` by 4 when the
latch bit of key `k` is set and by 2 otherwise, and `ExA1` by 4 when it is
clear and by 2 otherwise.  The bit tested is the one the keyboard loop sets
and clears for key `k`: the 16 keys have 16 different single bits, and after
an iteration of the loop for key `i` the test of key `k` tells whether key `i`
is held when `k = i`, and is as before when `k ≠ i`. -/
theorem key_skips :
    (∀ (m : Main) (x : Nat), x < 16 → op_fetch m.toChip8 = .ok (0xE09E + 256 * x) →
      (m.regs x > 0xF → fetch_decode_execute m = .error .invalid_key) ∧
      (m.regs x ≤ 0xF → ∃ m', fetch_decode_execute m = .ok m' ∧
        (m.keyboard &&& keyboard_decode_table (m.regs x) ≠ 0 → m'.pc = m.pc + 4) ∧
        (m.keyboard &&& keyboard_decode_table (m.regs x) = 0 → m'.pc = m.pc + 2))) ∧
    (∀ (m : Main) (x : Nat), x < 16 → op_fetch m.toChip8 = .ok (0xE0A1 + 256 * x) →
      (m.regs x > 0xF → fetch_decode_execute m = .error .invalid_key) ∧
      (m.regs x ≤ 0xF → ∃ m', fetch_decode_execute m = .ok m' ∧
        (m.keyboard &&& keyboard_decode_table (m.regs x) = 0 → m'.pc = m.pc + 4) ∧
        (m.keyboard &&& keyboard_decode_table (m.regs x) ≠ 0 → m'.pc = m.pc + 2))) ∧
    (∀ i, i < 16 → ∃ p, p < 16 ∧ keyboard_decode_table i = 2 ^ p) ∧
    (∀ i j, i < 16 → j < 16 → i ≠ j →
      keyboard_decode_table i ≠ keyboard_decode_table j ∧
      keyboard_decode_table i &&& keyboard_decode_table j = 0) ∧
    (∀ (down up : Nat → Bool) (m : Main) (i k : Nat), i < 16 → k < 16 →
      m.keyboard < 65536 → up i = !down i →
      ((keyboard_iter down up i m).keyboard &&& keyboard_decode_table k ≠ 0 ↔
        if k = i then down i = true else m.keyboard &&& keyboard_decode_table k ≠ 0)) := by
  refine ⟨?_, ?_, ?_, ?_, ?_⟩
  · intro m x hx h
    have h1 := fde_skp m x hx h
    constructor
    · intro hk
      rw [h1, if_pos hk]
    · intro hk
      rw [if_neg (by omega)] at h1
      refine ⟨_, h1, ?_, ?_⟩
      · intro hb
        dsimp only
        rw [if_pos hb]
      · intro hb
        dsimp only
        rw [if_neg (by simpa using hb)]
  · intro m x hx h
    have h1 := fde_sknp m x hx h
    constructor
    · intro hk
      rw [h1, if_pos hk]
    · intro hk
      rw [if_neg (by omega)] at h1
      refine ⟨_, h1, ?_, ?_⟩
      · intro hb
        dsimp only
        rw [if_pos hb]
      · intro hb
        dsimp only
        rw [if_neg hb]
  · intro i hi
    obtain ⟨p, hp, -⟩ := keyboard_decode_table_bit ⟨i, hi⟩
    exact ⟨p.val, p.isLt, hp⟩
  · intro i j hi hj hij
    have key : ∀ a b : Fin 16, a ≠ b →
        keyboard_decode_table a.val ≠ keyboard_decode_table b.val ∧
        keyboard_decode_table a.val &&& keyboard_decode_table b.val = 0 := by
      decide
    exact key ⟨i, hi⟩ ⟨j, hj⟩ (by simpa using hij)
  · intro down up m i k hi hk hkb hup
    exact (keyboard_iter_frame down up i m hi hkb hup).2.1 k hk

/-- C18, with `regs[0] = 3` and the instructions `E09E`, `E0A1`: when key 3
is latched (`keyboard = 0x2000`) `E09E` skips and `E0A1` does not; with
`regs[0] = 0x10` both stop with the invalid-key error. -/
theorem key_skips_witness :
    (∃ m', fetch_decode_execute
        { instr_state 0xE0 0x9E (regs_v0_v1 3 0) 0 with keyboard := 0x2000 } = .ok m' ∧
      m'.pc = 0x204) ∧
    (∃ m', fetch_decode_execute
        { instr_state 0xE0 0xA1 (regs_v0_v1 3 0) 0 with keyboard := 0x2000 } = .ok m' ∧
      m'.pc = 0x202) ∧
    fetch_decode_execute (instr_state 0xE0 0x9E (regs_v0_v1 0x10 0) 0) = .error .invalid_key ∧
    fetch_decode_execute (instr_state 0xE0 0xA1 (regs_v0_v1 0x10 0) 0)
      = .error .invalid_key := by
  obtain ⟨m1, h1, hp1, -⟩ :=
    (key_skips.1 { instr_state 0xE0 0x9E (regs_v0_v1 3 0) 0 with keyboard := 0x2000 } 0
      (by decide) (by rfl)).2 (by decide)
  obtain ⟨m2, h2, -, hp2⟩ :=
    (key_skips.2.1 { instr_state 0xE0 0xA1 (regs_v0_v1 3 0) 0 with keyboard := 0x2000 } 0
      (by decide) (by rfl)).2 (by decide)
  exact ⟨⟨m1, h1, hp1 (by decide)⟩, ⟨m2, h2, hp2 (by decide)⟩,
    (key_skips.1 (instr_state 0xE0 0x9E (regs_v0_v1 0x10 0) 0) 0 (by decide) (by rfl)).1
      (by decide),
    (key_skips.2.1 (instr_state 0xE0 0xA1 (regs_v0_v1 0x10 0) 0) 0 (by decide) (by rfl)).1
      (by decide)⟩


theorem read_rom_to_memory_too_big (c : Chip8) (bytes : List Nat)
    (h : rom_too_big bytes.length = true) : (read_rom_to_memory c (some bytes)).2 = false := by
  unfold read_rom_to_memory
  simp only [h, if_true]

theorem read_rom_to_memory_loads (c : Chip8) (bytes : List Nat)
    (h : rom_too_big bytes.length = false) (h0 : bytes.length ≠ 0) :
    (read_rom_to_memory c (some bytes)).2 = true := by
  unfold read_rom_to_memory
  simp only [h, Bool.false_eq_true, if_false, h0]

/-- C15 (fails in the code): the claim says an image is accepted exactly when
its size is at most 3584 bytes, so that an image of 3584 bytes loads.  Such an
image fills `memory[0x200 .. 0xFFF]` exactly, but the guard
`size >= MEMORY_SIZE - 0x200` refuses it: `read_rom_to_memory` returns
`false`.  The largest size that passes the guard is 3583. -/
theorem rom_size_check_rejects_3584 :
    0x200 + 3584 = MEMORY_SIZE ∧
    rom_too_big 3584 = true ∧
    (read_rom_to_memory (main_init (fun _ => 0)).toChip8
      (some (List.replicate 3584 0))).2 = false ∧
    rom_too_big 3583 = false ∧
    (read_rom_to_memory (main_init (fun _ => 0)).toChip8
      (some (List.replicate 3583 0))).2 = true := by
  refine ⟨by decide, by decide, ?_, by decide, ?_⟩
  · exact read_rom_to_memory_too_big _ _ (by rw [List.length_replicate]; decide)
  · exact read_rom_to_memory_loads _ _ (by rw [List.length_replicate]; decide)
      (by rw [List.length_replicate]; decide)

/-- C16 (fails in the code): the claim says `op_fetch` never reads an address
`≥ 4096`.  With `pc = 4095` the guard `addr > MEMORY_SIZE - 1` lets the fetch
through and the second byte is read at `addr + 1 = 4096`: two states that
agree on `memory[0 .. 4095]` and differ in the cell after it fetch different
words. -/
theorem op_fetch_reads_past_memory :
    (fetch_edge_state 0xAB).pc + 1 = MEMORY_SIZE ∧
    op_fetch (fetch_edge_state 0xAB).toChip8 = .ok 0x00AB ∧
    op_fetch (fetch_edge_state 0xCD).toChip8 = .ok 0x00CD ∧
    (∀ a, a < MEMORY_SIZE →
      (fetch_edge_state 0xAB).memory a = (fetch_edge_state 0xCD).memory a) := by
  refine ⟨by decide, by rfl, by rfl, ?_⟩
  intro a ha
  simp only [MEMORY_SIZE] at ha
  show (if a = 4096 then 0xAB else 0) = (if a = 4096 then 0xCD else 0)
  rw [if_neg (by omega), if_neg (by omega)]

theorem decode_rnd_fin : ∀ x a b : Fin 16,
    op_decode (0xC000 + 256 * x.val + (16 * a.val + b.val)) = some OP_RND := by
  decide

theorem decode_rnd (x kk : Nat) (hx : x < 16) (hkk : kk < 256) :
    op_decode (0xC000 + 256 * x + kk) = some OP_RND := by
  have := decode_rnd_fin ⟨x, hx⟩ ⟨kk / 16, by omega⟩ ⟨kk % 16, by omega⟩
  simp only at this
  rw [show 16 * (kk / 16) + kk % 16 = kk by omega] at this
  exact this

theorem decode_ld_st_r_fin : ∀ x : Fin 16,
    op_decode (0xF018 + 256 * x.val) = some OP_LD_ST_R := by
  decide

theorem decode_ld_font_r_fin : ∀ x : Fin 16,
    op_decode (0xF029 + 256 * x.val) = some OP_LD_FONT_R := by
  decide

/-- C20: when the fetched word decodes to `OP_SYS`, `OP_RND`, `OP_LD_ST_R` or
`OP_LD_FONT_R`, the fetch-decode-execute block stops at the `TODO` assertion
and yields no state, and so does the whole cycle that reaches it.  These are
the words `0nnn` other than `00E0` and `00EE`, `Cxkk`, `Fx18` and `Fx29`. -/
theorem unimplemented_ops_stop :
    (∀ (m : Main) (op : Nat) (type : Op_Type), op_fetch m.toChip8 = .ok op →
      op_decode op = some type →
      (type = OP_SYS ∨ type = OP_RND ∨ type = OP_LD_ST_R ∨ type = OP_LD_FONT_R) →
      fetch_decode_execute m = .error .todo ∧
      ∀ m', fetch_decode_execute m ≠ .ok m') ∧
    (∀ (tick : Bool) (down up : Nat → Bool) (m : Main) (op : Nat) (type : Op_Type),
      (keyboard_loop down up 16 0 (timer_tick tick m)).waiting_for_key = false →
      op_fetch (keyboard_loop down up 16 0 (timer_tick tick m)).toChip8 = .ok op →
      op_decode op = some type →
      (type = OP_SYS ∨ type = OP_RND ∨ type = OP_LD_ST_R ∨ type = OP_LD_FONT_R) →
      cycle tick down up m = .error .todo) ∧
    (∀ nnn, nnn < 0x1000 → nnn ≠ 0x00E0 → nnn ≠ 0x00EE → op_decode nnn = some OP_SYS) ∧
    (∀ x kk, x < 16 → kk < 256 → op_decode (0xC000 + 256 * x + kk) = some OP_RND) ∧
    (∀ x, x < 16 → op_decode (0xF018 + 256 * x) = some OP_LD_ST_R) ∧
    (∀ x, x < 16 → op_decode (0xF029 + 256 * x) = some OP_LD_FONT_R) := by
  have key : ∀ (m : Main) (op : Nat) (type : Op_Type), op_fetch m.toChip8 = .ok op →
      op_decode op = some type →
      (type = OP_SYS ∨ type = OP_RND ∨ type = OP_LD_ST_R ∨ type = OP_LD_FONT_R) →
      fetch_decode_execute m = .error .todo := by
    intro m op type hf hd ht
    rw [fde_of_decode m op type hf hd]
    rcases ht with h | h | h | h <;> subst h <;> rfl
  refine ⟨?_, ?_, op_decode_sys, ?_, ?_, ?_⟩
  · intro m op type hf hd ht
    refine ⟨key m op type hf hd ht, ?_⟩
    intro m' h
    rw [key m op type hf hd ht] at h
    cases h
  · intro tick down up m op type hw hf hd ht
    unfold cycle
    simp only [hw, Bool.not_false, if_true]
    exact key _ op type hf hd ht
  · intro x kk hx hkk
    exact decode_rnd x kk hx hkk
  · intro x hx
    exact decode_ld_st_r_fin ⟨x, hx⟩
  · intro x hx
    exact decode_ld_font_r_fin ⟨x, hx⟩

/-- C20, on the instructions `0123`, `C123`, `F118`, `F129` at `0x200`: each
stops at its `TODO` assertion, in the fetch-decode-execute block and in a
whole cycle. -/
theorem unimplemented_ops_stop_witness :
    fetch_decode_execute (instr_state 0x01 0x23 (fun _ => 0) 0) = .error .todo ∧
    fetch_decode_execute (instr_state 0xC1 0x23 (fun _ => 0) 0) = .error .todo ∧
    fetch_decode_execute (instr_state 0xF1 0x18 (fun _ => 0) 0) = .error .todo ∧
    fetch_decode_execute (instr_state 0xF1 0x29 (fun _ => 0) 0) = .error .todo ∧
    cycle true (fun _ => false) (fun _ => true) (instr_state 0xC1 0x23 (fun _ => 0) 0)
      = .error .todo :=
  ⟨(unimplemented_ops_stop.1 (instr_state 0x01 0x23 (fun _ => 0) 0) 0x0123 OP_SYS (by rfl)
      (by decide) (Or.inl rfl)).1,
    (unimplemented_ops_stop.1 (instr_state 0xC1 0x23 (fun _ => 0) 0) 0xC123 OP_RND (by rfl)
      (by decide) (Or.inr (Or.inl rfl))).1,
    (unimplemented_ops_stop.1 (instr_state 0xF1 0x18 (fun _ => 0) 0) 0xF118 OP_LD_ST_R (by rfl)
      (by decide) (Or.inr (Or.inr (Or.inl rfl)))).1,
    (unimplemented_ops_stop.1 (instr_state 0xF1 0x29 (fun _ => 0) 0) 0xF129 OP_LD_FONT_R
      (by rfl) (by decide) (Or.inr (Or.inr (Or.inr rfl)))).1,
    unimplemented_ops_stop.2.1 true (fun _ => false) (fun _ => true)
      (instr_state 0xC1 0x23 (fun _ => 0) 0) 0xC123 OP_RND (by rfl) (by rfl) (by decide)
      (Or.inr (Or.inl rfl))⟩


/-! ## Whole cycles -/

/-- The big-endian word that `op_fetch` builds from two bytes. -/
theorem word_of_bytes (hi lo : Nat) (hhi : hi < 256) (hlo : lo < 256) :
    (hi <<< 8 ||| lo) % 65536 = 256 * hi + lo := by
  rw [Nat.shiftLeft_eq, Nat.mul_comm hi, ← Nat.mul_add_lt_is_or (i := 8) hlo hi]
  omega

/-- With both timers at 0, an empty latch, no key awaited and no key held,
the cycle is the fetch-decode-execute block alone. -/
theorem cycle_idle (tick : Bool) (down up : Nat → Bool) (m : Main)
    (hdt : m.delay_timer = 0) (hst : m.sound_timer = 0) (hkb : m.keyboard = 0)
    (hw : m.waiting_for_key = false) (hdown : ∀ k, down k = false) :
    cycle tick down up m = fetch_decode_execute m := by
  have ht : timer_tick tick m = m := by
    unfold timer_tick
    cases tick <;> simp [hdt, hst]
  have hloop : ∀ (left i : Nat), keyboard_loop down up left i m = m := by
    intro left
    induction left with
    | zero => intro i; rfl
    | succ left ih =>
      intro i
      have hiter : keyboard_iter down up i m = m := by
        unfold keyboard_iter
        simp [hdown i, hkb]
      unfold keyboard_loop
      rw [hiter, ih]
  unfold cycle
  simp only [ht, hloop, hw, Bool.not_false, if_true]

theorem decode_ld_r_b_fin : ∀ (x : Fin 2) (a b : Fin 16),
    op_decode (0x6000 + 256 * x.val + (16 * a.val + b.val)) = some OP_LD_R_B ∧
    op_x (0x6000 + 256 * x.val + (16 * a.val + b.val)) = x.val ∧
    (0x6000 + 256 * x.val + (16 * a.val + b.val)) &&& 0x00FF = 16 * a.val + b.val := by
  decide

/-- The cycle that fetches `6xkk`, for the registers 0 and 1. -/
theorem fde_ld_r_b (m : Main) (x kk : Nat) (hx : x < 2) (hkk : kk < 256)
    (h : op_fetch m.toChip8 = .ok (0x6000 + 256 * x + kk)) :
    fetch_decode_execute m = .ok { m with
      op := 0x6000 + 256 * x + kk
      regs := Function.update m.regs x kk
      pc := m.pc + 2 } := by
  have hdec := decode_ld_r_b_fin ⟨x, hx⟩ ⟨kk / 16, by omega⟩ ⟨kk % 16, by omega⟩
  simp only at hdec
  rw [show 16 * (kk / 16) + kk % 16 = kk by omega] at hdec
  obtain ⟨hd, hopx, hand⟩ := hdec
  rw [fde_of_decode m _ _ h hd]
  simp only [execute, hopx, hand, pc_add2_of_fetch h, Nat.mod_eq_of_lt hkk]

/-- The cycle that fetches `8xy4`. -/
theorem fde_add_r_r (m : Main) (x y : Nat) (hx : x < 16) (hy : y < 16)
    (h : op_fetch m.toChip8 = .ok (0x8004 + 256 * x + 16 * y)) :
    fetch_decode_execute m = .ok { m with
      op := 0x8004 + 256 * x + 16 * y
      regs := Function.update (Function.update m.regs x
        ((m.regs x + m.regs y) % 65536 % 256)) 0xF
        (if (m.regs x + m.regs y) % 65536 > 255 then 1 else 0)
      pc := m.pc + 2 } := by
  obtain ⟨hd, hopx, hopy⟩ := decode_add_r_r_fin ⟨x, hx⟩ ⟨y, hy⟩
  simp only at hd hopx hopy
  rw [fde_of_decode m _ _ h hd]
  simp only [execute, hopx, hopy, pc_add2_of_fetch h]

/-- C19: from the state at entry to the main loop, with the bytes
`60 a 61 b 80 14` at `0x200 .. 0x205` and no key held, three cycles succeed
and leave `regs[0] = (a + b) mod 256`, `regs[1] = b`, `regs[0xF] = 1` if
`a + b > 255` and `0` otherwise, and `pc = 0x206`, whether or not the timer
block ticks. -/
theorem three_cycle_program (a b : Nat) (memory : Nat → Nat) (t1 t2 t3 : Bool)
    (down up : Nat → Bool) (ha : a < 256) (hb : b < 256)
    (hmem : memory 0x200 = 0x60 ∧ memory 0x201 = a ∧ memory 0x202 = 0x61 ∧
      memory 0x203 = b ∧ memory 0x204 = 0x80 ∧ memory 0x205 = 0x14)
    (hdown : ∀ k, down k = false) :
    ∃ m1 m2 m3, cycle t1 down up (main_init memory) = .ok m1 ∧
      cycle t2 down up m1 = .ok m2 ∧ cycle t3 down up m2 = .ok m3 ∧
      m3.regs 0 = (a + b) % 256 ∧ m3.regs 1 = b ∧
      m3.regs 0xF = (if a + b > 255 then 1 else 0) ∧ m3.pc = 0x206 := by
  obtain ⟨h0, h1, h2, h3, h4, h5⟩ := hmem
  have hsum : (a + b) % 65536 = a + b := by omega
  let s1 : Main := { main_init memory with
    op := 0x6000 + 256 * 0 + a
    regs := Function.update (fun _ => 0) 0 a
    pc := 0x202 }
  let s2 : Main := { s1 with
    op := 0x6000 + 256 * 1 + b
    regs := Function.update s1.regs 1 b
    pc := 0x204 }
  let s3 : Main := { s2 with
    op := 0x8004 + 256 * 0 + 16 * 1
    regs := Function.update (Function.update s2.regs 0
      ((s2.regs 0 + s2.regs 1) % 65536 % 256)) 0xF
      (if (s2.regs 0 + s2.regs 1) % 65536 > 255 then 1 else 0)
    pc := 0x206 }
  have f1 : op_fetch (main_init memory).toChip8 = .ok (0x6000 + 256 * 0 + a) := by
    rw [op_fetch_eq _ (by show (0x200 : Nat) ≤ 4095; decide)]
    show Except.ok ((memory 0x200 <<< 8 ||| memory (0x200 + 1)) % 65536) = _
    rw [h0, h1, word_of_bytes _ _ (by decide) ha]
  have e1 : fetch_decode_execute (main_init memory) = .ok s1 :=
    fde_ld_r_b _ 0 a (by decide) ha f1
  have c1 : cycle t1 down up (main_init memory) = .ok s1 :=
    (cycle_idle t1 down up (main_init memory) rfl rfl rfl rfl hdown).trans e1
  have f2 : op_fetch s1.toChip8 = .ok (0x6000 + 256 * 1 + b) := by
    rw [op_fetch_eq _ (by show (0x202 : Nat) ≤ 4095; decide)]
    show Except.ok ((memory 0x202 <<< 8 ||| memory (0x202 + 1)) % 65536) = _
    rw [h2, h3, word_of_bytes _ _ (by decide) hb]
  have e2 : fetch_decode_execute s1 = .ok s2 := fde_ld_r_b _ 1 b (by decide) hb f2
  have c2 : cycle t2 down up s1 = .ok s2 :=
    (cycle_idle t2 down up s1 rfl rfl rfl rfl hdown).trans e2
  have f3 : op_fetch s2.toChip8 = .ok (0x8004 + 256 * 0 + 16 * 1) := by
    rw [op_fetch_eq _ (by show (0x204 : Nat) ≤ 4095; decide)]
    show Except.ok ((memory 0x204 <<< 8 ||| memory (0x204 + 1)) % 65536) = _
    rw [h4, h5]
    rfl
  have e3 : fetch_decode_execute s2 = .ok s3 :=
    fde_add_r_r _ 0 1 (by decide) (by decide) f3
  have c3 : cycle t3 down up s2 = .ok s3 :=
    (cycle_idle t3 down up s2 rfl rfl rfl rfl hdown).trans e3
  refine ⟨s1, s2, s3, c1, c2, c3, ?_, ?_, ?_, rfl⟩
  · simp [s3, s2, s1, Function.update, hsum]
  · simp [s3, s2, s1, Function.update]
  · simp [s3, s2, s1, Function.update, hsum]

/-- C19, on the image `60 05 61 03 80 14` loaded by `read_rom_to_memory`:
three cycles leave `regs[0] = 8`, the flag `0` and `pc = 0x206`. -/
theorem three_cycle_program_witness :
    ∃ m1 m2 m3,
      cycle true (fun _ => false) (fun _ => true)
        (main_init (image_memory [0x60, 0x05, 0x61, 0x03, 0x80, 0x14])) = .ok m1 ∧
      cycle false (fun _ => false) (fun _ => true) m1 = .ok m2 ∧
      cycle true (fun _ => false) (fun _ => true) m2 = .ok m3 ∧
      m3.regs 0 = 8 ∧ m3.regs 1 = 3 ∧ m3.regs 0xF = 0 ∧ m3.pc = 0x206 :=
  three_cycle_program 5 3 (image_memory [0x60, 0x05, 0x61, 0x03, 0x80, 0x14]) true false true
    (fun _ => false) (fun _ => true) (by decide) (by decide)
    ⟨by rfl, by rfl, by rfl, by rfl, by rfl, by rfl⟩ (fun _ => rfl)


/-! ## The sprite draw `Dxyn` -/

/-- The value `(v >> i) & 1` is bit `i` of `v`. -/
theorem shiftRight_and_one (v i : Nat) : (v >>> i) &&& 1 = (v.testBit i).toNat := by
  rw [Nat.and_one_is_mod, Nat.shiftRight_eq_div_pow, Nat.toNat_testBit]

theorem testBit_of_lt_two_pow_64 {row : Nat} (hrow : row < 2 ^ 64) {j : Nat} (hj : 64 ≤ j) :
    row.testBit j = false :=
  Nat.testBit_lt_two_pow (lt_of_lt_of_le hrow (Nat.pow_le_pow_right (by decide) hj))

/-- The two statements that clear pixel `index` of a row and set it to
`sprite_bit ^ current_bit` amount to flipping the pixel when the sprite bit
is 1. -/
theorem drw_pixel_row (row index : Nat) (s : Bool) (hrow : row < 2 ^ 64) (hidx : index < 64) :
    (row &&& (0xFFFFFFFFFFFFFFFF ^^^ ((1 <<< index) % 2 ^ 64)))
        ||| ((s.toNat ^^^ ((row >>> index) &&& 1)) <<< index) % 2 ^ 64 < 2 ^ 64 ∧
    ∀ j, ((row &&& (0xFFFFFFFFFFFFFFFF ^^^ ((1 <<< index) % 2 ^ 64)))
        ||| ((s.toNat ^^^ ((row >>> index) &&& 1)) <<< index) % 2 ^ 64).testBit j
      = xor (row.testBit j) (decide (j = index) && s) := by
  have hM : (0xFFFFFFFFFFFFFFFF : Nat) = 2 ^ 64 - 1 := by decide
  constructor
  · apply Nat.or_lt_two_pow
    · exact lt_of_le_of_lt Nat.and_le_left hrow
    · exact Nat.mod_lt _ (by decide)
  · intro j
    rw [shiftRight_and_one, Nat.testBit_or, Nat.testBit_and, Nat.testBit_xor, hM,
      Nat.testBit_two_pow_sub_one, Nat.testBit_mod_two_pow, Nat.testBit_mod_two_pow,
      Nat.one_shiftLeft, Nat.testBit_two_pow, Nat.testBit_shiftLeft]
    by_cases hj : j = index
    · subst hj
      have h64 : decide (j < 64) = true := by simpa using hidx
      cases s <;> cases hb : row.testBit j <;> simp [h64]
    · have hne : decide (index = j) = false := by simpa using fun h => hj h.symm
      have hne' : decide (j = index) = false := by simpa using hj
      rw [hne, hne']
      by_cases h64 : j < 64
      · have hd : decide (j < 64) = true := by simpa using h64
        by_cases hge : j ≥ index
        · have hpos : j - index ≠ 0 := by omega
          have h1 : Nat.testBit 1 (j - index) = false := by
            rw [← Bool.not_eq_true, Nat.testBit_one_eq_true_iff_self_eq_zero]
            exact hpos
          have hz : (s.toNat ^^^ (row.testBit index).toNat).testBit (j - index) = false := by
            cases s <;> cases row.testBit index <;> simp [h1]
          simp [hd, hge, hz]
        · simp [hd, hge]
      · have hd : decide (j < 64) = false := by simpa using h64
        have hr : row.testBit j = false := testBit_of_lt_two_pow_64 hrow (by omega)
        simp [hd, hr]

/-- The flag update `regs[0xF] |= current_bit & sprite_bit` on a flag that is
0 or 1. -/
theorem drw_flag_or (v : Nat) (b s : Bool) (hv : v ≤ 1) :
    (v ||| (b.toNat &&& s.toNat)) ≤ 1 ∧
    ((v ||| (b.toNat &&& s.toNat)) = 1 ↔ (v = 1 ∨ (b = true ∧ s = true))) := by
  interval_cases v <;> cases b <;> cases s <;> decide

/-- The inner loop of the draw, entered at sprite bit `k` with `left` bits to
go: it rewrites row `y` and the flag only; pixel `j` of the row is flipped
exactly when it is one of the columns `x + k, ..., x + k + left - 1` below 64
and its sprite bit (bit `7 - (j - x)`) is 1; the flag, 0 or 1 before, becomes 1
exactly when it was 1 or one of these pixels was on under a sprite bit 1. -/
theorem drw_bits_spec (x y sprite : Nat) (hx : x < 64) (left : Nat) :
    ∀ (k : Nat) (c : Chip8), k + left ≤ 8 → c.frame_buffer y < 2 ^ 64 → c.regs 0xF ≤ 1 →
    ∃ row vf,
      drw_bits x y sprite left k c = { c with
        frame_buffer := Function.update c.frame_buffer y row
        regs := Function.update c.regs 0xF vf } ∧
      row < 2 ^ 64 ∧
      (∀ j, row.testBit j = xor ((c.frame_buffer y).testBit j)
        (decide (x + k ≤ j ∧ j < x + k + left ∧ j < 64) && sprite.testBit (7 - (j - x)))) ∧
      vf ≤ 1 ∧
      (vf = 1 ↔ (c.regs 0xF = 1 ∨ ∃ j, x + k ≤ j ∧ j < x + k + left ∧ j < 64 ∧
        (c.frame_buffer y).testBit j = true ∧ sprite.testBit (7 - (j - x)) = true)) := by
  induction left with
  | zero =>
    intro k c _ hrow hvf
    refine ⟨c.frame_buffer y, c.regs 0xF, ?_, hrow, ?_, hvf, ?_⟩
    · rw [Function.update_eq_self, Function.update_eq_self]
      rfl
    · intro j
      have : decide (x + k ≤ j ∧ j < x + k + 0 ∧ j < 64) = false := by
        simp only [decide_eq_false_iff_not]; omega
      rw [this]
      simp
    · constructor
      · intro h; exact Or.inl h
      · rintro (h | ⟨j, h1, h2, -⟩)
        · exact h
        · omega
  | succ left ih =>
    intro k c hk hrow hvf
    have hmod : (x + k) % 256 = x + k := by omega
    unfold drw_bits
    simp only [hmod, FRAME_W]
    by_cases hidx : x + k < 64
    · rw [if_pos hidx]
      rw [shiftRight_and_one sprite (7 - k), shiftRight_and_one (c.frame_buffer y) (x + k)]
      have hpix := drw_pixel_row (c.frame_buffer y) (x + k) (sprite.testBit (7 - k)) hrow hidx
      rw [shiftRight_and_one] at hpix
      obtain ⟨hlt, hbits⟩ := hpix
      have hflag := drw_flag_or (c.regs 0xF) ((c.frame_buffer y).testBit (x + k))
        (sprite.testBit (7 - k)) hvf
      obtain ⟨row2, vf2, heq, hrow2, hbits2, hvf2, hiff2⟩ := ih (k + 1)
        { c with
          frame_buffer := Function.update c.frame_buffer y
            ((c.frame_buffer y &&& (0xFFFFFFFFFFFFFFFF ^^^ ((1 <<< (x + k)) % 2 ^ 64)))
              ||| (((sprite.testBit (7 - k)).toNat
                ^^^ ((c.frame_buffer y).testBit (x + k)).toNat) <<< (x + k)) % 2 ^ 64)
          regs := Function.update c.regs 0xF
            (c.regs 0xF ||| (((c.frame_buffer y).testBit (x + k)).toNat
              &&& (sprite.testBit (7 - k)).toNat)) }
        (by omega)
        (by dsimp only; rw [Function.update_same]; exact hlt)
        (by dsimp only; rw [Function.update_same]; exact hflag.1)
      refine ⟨row2, vf2, ?_, hrow2, ?_, hvf2, ?_⟩
      · rw [heq]
        dsimp only
        rw [Function.update_idem, Function.update_idem]
      · intro j
        rw [hbits2 j]
        dsimp only
        rw [Function.update_same, hbits j]
        by_cases hj : j = x + k
        · subst hj
          have e1 : decide (x + (k + 1) ≤ x + k ∧ x + k < x + (k + 1) + left ∧ x + k < 64)
              = false := by
            simp only [decide_eq_false_iff_not]; omega
          have e2 : decide (x + k ≤ x + k ∧ x + k < x + k + (left + 1) ∧ x + k < 64)
              = true := by
            simp only [decide_eq_true_eq]; omega
          rw [e1, e2, show x + k - x = k by omega]
          simp
        · have e0 : decide (j = x + k) = false := by simpa using hj
          have e1 : decide (x + (k + 1) ≤ j ∧ j < x + (k + 1) + left ∧ j < 64)
              = decide (x + k ≤ j ∧ j < x + k + (left + 1) ∧ j < 64) := by
            apply decide_eq_decide.2
            omega
          rw [e0, e1]
          simp
      · rw [hiff2]
        dsimp only
        rw [Function.update_same, Function.update_same, hflag.2]
        constructor
        · rintro ((h | ⟨hb, hs⟩) | ⟨j, h1, h2, h3, h4, h5⟩)
          · exact Or.inl h
          · exact Or.inr ⟨x + k, le_refl _, by omega, hidx, hb,
              by rw [show x + k - x = k by omega]; exact hs⟩
          · refine Or.inr ⟨j, by omega, by omega, h3, ?_, h5⟩
            rw [hbits j] at h4
            have e0 : decide (j = x + k) = false := by
              simp only [decide_eq_false_iff_not]; omega
            rw [e0] at h4
            simpa using h4
        · rintro (h | ⟨j, h1, h2, h3, h4, h5⟩)
          · exact Or.inl (Or.inl h)
          · by_cases hj : j = x + k
            · subst hj
              rw [show x + k - x = k by omega] at h5
              exact Or.inl (Or.inr ⟨h4, h5⟩)
            · refine Or.inr ⟨j, by omega, by omega, h3, ?_, h5⟩
              rw [hbits j]
              have e0 : decide (j = x + k) = false := by simpa using hj
              rw [e0]
              simpa using h4
    · rw [if_neg hidx]
      refine ⟨c.frame_buffer y, c.regs 0xF, ?_, hrow, ?_, hvf, ?_⟩
      · rw [Function.update_eq_self, Function.update_eq_self]
      · intro j
        have : decide (x + k ≤ j ∧ j < x + k + (left + 1) ∧ j < 64) = false := by
          simp only [decide_eq_false_iff_not]; omega
        rw [this]
        simp
      · constructor
        · intro h; exact Or.inl h
        · rintro (h | ⟨j, h1, -, h3, -⟩)
          · exact h
          · omega

/-- The inner loop of the draw leaves the index register and the memory as
they are. -/
theorem drw_bits_regi_memory (x y sprite : Nat) (left : Nat) :
    ∀ (k : Nat) (c : Chip8),
      (drw_bits x y sprite left k c).regi = c.regi ∧
      (drw_bits x y sprite left k c).memory = c.memory := by
  induction left with
  | zero => intro k c; exact ⟨rfl, rfl⟩
  | succ left ih =>
    intro k c
    unfold drw_bits
    dsimp only
    split_ifs
    · exact ih _ _
    · exact ⟨rfl, rfl⟩

/-- The outer loop of the draw succeeds exactly when the sprite byte of every
row it reaches lies inside the memory, and it fails with the out-of-bounds
error only. -/
theorem drw_rows_ok_iff (x : Nat) (left : Nat) :
    ∀ (i y : Nat) (c : Chip8), y + left ≤ 256 →
    ((∃ res, drw_rows x left i y c = .ok res) ↔
      ∀ t, t < left → y + t < 32 → (c.regi + (i + t)) % 65536 < 4096) ∧
    (∀ e, drw_rows x left i y c = .error e → e = .out_of_bounds) := by
  induction left with
  | zero =>
    intro i y c _
    refine ⟨⟨fun _ t ht => (by omega), fun _ => ⟨c, rfl⟩⟩, ?_⟩
    intro e he
    cases he
  | succ left ih =>
    intro i y c hy
    unfold drw_rows
    simp only [FRAME_H, MEMORY_SIZE]
    by_cases hy32 : y < 32
    · rw [if_pos hy32]
      by_cases hmem : (c.regi + i) % 65536 ≥ 4096
      · rw [if_pos hmem]
        refine ⟨⟨fun ⟨res, h⟩ => (by cases h), fun h => ?_⟩, ?_⟩
        · have := h 0 (by omega) (by omega)
          simp only [Nat.add_zero] at this
          omega
        · intro e he
          cases he
          rfl
      · rw [if_neg hmem]
        have hmod : (y + 1) % 256 = y + 1 := by omega
        rw [hmod]
        obtain ⟨hiff, herr⟩ := ih (i + 1) (y + 1)
          (drw_bits x y (c.memory ((c.regi + i) % 65536)) 8 0 c) (by omega)
        rw [(drw_bits_regi_memory x y _ 8 0 c).1] at hiff
        refine ⟨hiff.trans ⟨fun h t ht hyt => ?_, fun h t ht hyt => ?_⟩, herr⟩
        · cases t with
          | zero => simp only [Nat.add_zero]; omega
          | succ t =>
            have := h t (by omega) (by omega)
            rw [show i + (t + 1) = i + 1 + t by omega]
            exact this
        · have := h (t + 1) (by omega) (by omega)
          rw [show i + (t + 1) = i + 1 + t by omega] at this
          exact this
    · rw [if_neg hy32]
      refine ⟨⟨fun _ t ht hyt => (by omega), fun _ => ⟨c, rfl⟩⟩, ?_⟩
      intro e he
      cases he

/-- The outer loop of the draw, entered at sprite row `i` and screen row `y`
with `left` rows to go, when it succeeds: it rewrites the framebuffer and the
flag only; pixel `(r, j)` is flipped exactly when `r` is one of the rows
`y, ..., y + left - 1` below 32, `j` one of the columns `x, ..., x + 7` below
64, and bit `7 - (j - x)` of the sprite byte `memory[regi + i + (r - y)]` is 1;
the flag, 0 or 1 before, becomes 1 exactly when it was 1 or one of these
pixels was on under a sprite bit 1. -/
theorem drw_rows_spec (x : Nat) (hx : x < 64) (left : Nat) :
    ∀ (i y : Nat) (c res : Chip8), y + left ≤ 256 → c.regi + i + left ≤ 65536 →
    (∀ r, c.frame_buffer r < 2 ^ 64) → c.regs 0xF ≤ 1 →
    drw_rows x left i y c = .ok res →
    ∃ fb vf,
      res = { c with frame_buffer := fb, regs := Function.update c.regs 0xF vf } ∧
      (∀ r, fb r < 2 ^ 64) ∧
      (∀ r j, (fb r).testBit j = xor ((c.frame_buffer r).testBit j)
        (decide (y ≤ r ∧ r < y + left ∧ r < 32 ∧ x ≤ j ∧ j < x + 8 ∧ j < 64) &&
          (c.memory (c.regi + i + (r - y))).testBit (7 - (j - x)))) ∧
      vf ≤ 1 ∧
      (vf = 1 ↔ (c.regs 0xF = 1 ∨
        ∃ r j, y ≤ r ∧ r < y + left ∧ r < 32 ∧ x ≤ j ∧ j < x + 8 ∧ j < 64 ∧
          (c.frame_buffer r).testBit j = true ∧
          (c.memory (c.regi + i + (r - y))).testBit (7 - (j - x)) = true)) := by
  induction left with
  | zero =>
    intro i y c res _ _ hfb hvf h
    simp only [drw_rows, Except.ok.injEq] at h
    subst h
    refine ⟨c.frame_buffer, c.regs 0xF, ?_, hfb, ?_, hvf, ?_⟩
    · rw [Function.update_eq_self]
    · intro r j
      have : decide (y ≤ r ∧ r < y + 0 ∧ r < 32 ∧ x ≤ j ∧ j < x + 8 ∧ j < 64) = false := by
        simp only [decide_eq_false_iff_not]; omega
      rw [this]
      simp
    · constructor
      · intro h; exact Or.inl h
      · rintro (h | ⟨r, j, h1, h2, -⟩)
        · exact h
        · omega
  | succ left ih =>
    intro i y c res hy hregi hfb hvf h
    unfold drw_rows at h
    simp only [FRAME_H, MEMORY_SIZE] at h
    by_cases hy32 : y < 32
    · rw [if_pos hy32] at h
      have hmod : (c.regi + i) % 65536 = c.regi + i := by omega
      rw [hmod] at h
      by_cases hmem : c.regi + i ≥ 4096
      · rw [if_pos hmem] at h
        cases h
      · rw [if_neg hmem] at h
        have hymod : (y + 1) % 256 = y + 1 := by omega
        rw [hymod] at h
        obtain ⟨row, vf1, hb_eq, hrow, hbits, hvf1, hiff1⟩ :=
          drw_bits_spec x y (c.memory (c.regi + i)) hx 8 0 c (by omega) (hfb y) hvf
        rw [hb_eq] at h
        obtain ⟨fb2, vf2, hres, hfb2, hbits2, hvf2, hiff2⟩ := ih (i + 1) (y + 1)
          { c with
            frame_buffer := Function.update c.frame_buffer y row
            regs := Function.update c.regs 0xF vf1 }
          res (by omega) (by show c.regi + (i + 1) + left ≤ 65536; omega)
          (by
            intro r
            dsimp only
            by_cases hr : r = y
            · rw [hr, Function.update_same]; exact hrow
            · rw [Function.update_noteq hr]; exact hfb r)
          (by dsimp only; rw [Function.update_same]; exact hvf1)
          h
        dsimp only at hres hbits2 hiff2
        rw [Function.update_idem] at hres
        rw [Function.update_same] at hiff2
        refine ⟨fb2, vf2, hres, hfb2, ?_, hvf2, ?_⟩
        · intro r j
          rw [hbits2 r j]
          by_cases hr : r = y
          · subst hr
            rw [Function.update_same, hbits j]
            have e1 : decide (r + 1 ≤ r ∧ r < r + 1 + left ∧ r < 32 ∧ x ≤ j ∧ j < x + 8 ∧ j < 64)
                = false := by
              simp only [decide_eq_false_iff_not]; omega
            have e2 : decide (x + 0 ≤ j ∧ j < x + 0 + 8 ∧ j < 64)
                = decide (r ≤ r ∧ r < r + (left + 1) ∧ r < 32 ∧ x ≤ j ∧ j < x + 8 ∧ j < 64) := by
              apply decide_eq_decide.2
              omega
            rw [e1, e2, Nat.sub_self, Nat.add_zero]
            simp
          · rw [Function.update_noteq hr]
            by_cases hin : y + 1 ≤ r ∧ r < y + 1 + left ∧ r < 32 ∧ x ≤ j ∧ j < x + 8 ∧ j < 64
            · have e1 : decide (y + 1 ≤ r ∧ r < y + 1 + left ∧ r < 32 ∧ x ≤ j ∧ j < x + 8 ∧ j < 64)
                  = true := by simpa using hin
              have e2 : decide (y ≤ r ∧ r < y + (left + 1) ∧ r < 32 ∧ x ≤ j ∧ j < x + 8 ∧ j < 64)
                  = true := by
                simp only [decide_eq_true_eq]; omega
              rw [e1, e2, show c.regi + (i + 1) + (r - (y + 1)) = c.regi + i + (r - y) by omega]
            · have e1 : decide (y + 1 ≤ r ∧ r < y + 1 + left ∧ r < 32 ∧ x ≤ j ∧ j < x + 8 ∧ j < 64)
                  = false := by simpa using hin
              have e2 : decide (y ≤ r ∧ r < y + (left + 1) ∧ r < 32 ∧ x ≤ j ∧ j < x + 8 ∧ j < 64)
                  = false := by
                simp only [decide_eq_false_iff_not]; omega
              rw [e1, e2]
              simp
        · rw [hiff2, hiff1]
          constructor
          · rintro ((h0 | ⟨j, h1, h2, h3, h4, h5⟩) | ⟨r, j, h1, h2, h3, h4, h5, h6, h7, h8⟩)
            · exact Or.inl h0
            · exact Or.inr ⟨y, j, le_refl _, by omega, hy32, by omega, by omega, h3,
                h4, by rw [Nat.sub_self, Nat.add_zero]; exact h5⟩
            · refine Or.inr ⟨r, j, by omega, by omega, h3, h4, h5, h6, ?_, ?_⟩
              · rw [Function.update_noteq (by omega)] at h7
                exact h7
              · rw [show c.regi + (i + 1) + (r - (y + 1)) = c.regi + i + (r - y) by omega] at h8
                exact h8
          · rintro (h0 | ⟨r, j, h1, h2, h3, h4, h5, h6, h7, h8⟩)
            · exact Or.inl (Or.inl h0)
            · by_cases hr : r = y
              · subst hr
                rw [Nat.sub_self, Nat.add_zero] at h8
                exact Or.inl (Or.inr ⟨j, by omega, by omega, h6, h7, h8⟩)
              · refine Or.inr ⟨r, j, by omega, by omega, h3, h4, h5, h6, ?_, ?_⟩
                · rw [Function.update_noteq hr]
                  exact h7
                · rw [show c.regi + (i + 1) + (r - (y + 1)) = c.regi + i + (r - y) by omega]
                  exact h8
    · rw [if_neg hy32] at h
      simp only [Except.ok.injEq] at h
      subst h
      refine ⟨c.frame_buffer, c.regs 0xF, ?_, hfb, ?_, hvf, ?_⟩
      · rw [Function.update_eq_self]
      · intro r j
        have : decide (y ≤ r ∧ r < y + (left + 1) ∧ r < 32 ∧ x ≤ j ∧ j < x + 8 ∧ j < 64)
            = false := by
          simp only [decide_eq_false_iff_not]; omega
        rw [this]
        simp
      · constructor
        · intro h; exact Or.inl h
        · rintro (h | ⟨r, j, h1, h2, h3, -⟩)
          · exact h
          · omega

set_option maxHeartbeats 1000000 in
theorem decode_drw_fin : ∀ x y n : Fin 16,
    op_decode (0xD000 + 256 * x.val + 16 * y.val + n.val) = some OP_DRW ∧
    op_x (0xD000 + 256 * x.val + 16 * y.val + n.val) = x.val ∧
    op_y (0xD000 + 256 * x.val + 16 * y.val + n.val) = y.val ∧
    (0xD000 + 256 * x.val + 16 * y.val + n.val) &&& 0x000F = n.val := by
  decide

/-- The cycle that fetches `Dxyn`, in terms of the outer loop of the draw. -/
theorem fde_drw_eq (m : Main) (x y n : Nat) (hx : x < 16) (hy : y < 16) (hn : n < 16)
    (h : op_fetch m.toChip8 = .ok (0xD000 + 256 * x + 16 * y + n)) :
    fetch_decode_execute m =
      match drw_rows (Function.update m.regs 0xF 0 x % 64) n 0
          (Function.update m.regs 0xF 0 y % 32)
          { m.toChip8 with regs := Function.update m.regs 0xF 0 } with
      | .error e => .error e
      | .ok chip8 => .ok { m with
          op := 0xD000 + 256 * x + 16 * y + n
          toChip8 := { chip8 with pc := pc_add2 chip8.pc } } := by
  obtain ⟨hd, hopx, hopy, hand⟩ := decode_drw_fin ⟨x, hx⟩ ⟨y, hy⟩ ⟨n, hn⟩
  simp only at hd hopx hopy hand
  have hnmod : n % 256 = n := by omega
  rw [fde_of_decode m _ _ h hd]
  simp only [execute, hand, hnmod, FRAME_W, FRAME_H]
  rw [hopx, hopy]

/-- The registers as the draw reads them, after it has cleared the flag. -/
theorem update_flag_zero_apply (regs : Nat → Nat) (x : Nat) :
    Function.update regs 0xF 0 x = if x = 0xF then 0 else regs x := by
  by_cases hx : x = 0xF
  · rw [if_pos hx, hx, Function.update_same]
  · rw [if_neg hx, Function.update_noteq hx]

/-- The cycle that fetches `Dxyn`, for a sprite drawn at column `x0`, row
`y0`.  It succeeds exactly when the sprite byte of every row it reaches lies
inside the memory, and fails with the out-of-bounds error only.  When it
succeeds it rewrites the framebuffer, the flag and `pc` only: pixel `(r, j)`
is flipped exactly when it lies in the clipped rectangle under a sprite bit 1,
and the flag becomes 1 exactly when one of these pixels was on. -/
theorem fde_drw (m : Main) (x y n x0 y0 : Nat) (hx : x < 16) (hy : y < 16) (hn : n < 16)
    (hregi : m.regi < 65536) (hfb : ∀ r, m.frame_buffer r < 2 ^ 64)
    (h : op_fetch m.toChip8 = .ok (0xD000 + 256 * x + 16 * y + n))
    (hx0 : x0 = (if x = 0xF then 0 else m.regs x) % 64)
    (hy0 : y0 = (if y = 0xF then 0 else m.regs y) % 32) :
    ((∃ m', fetch_decode_execute m = .ok m') ↔
      ∀ t, t < n → y0 + t < 32 → m.regi + t < 4096) ∧
    (∀ e, fetch_decode_execute m = .error e → e = .out_of_bounds) ∧
    ∀ m', fetch_decode_execute m = .ok m' →
      ∃ fb vf,
        m' = { m with
          op := 0xD000 + 256 * x + 16 * y + n
          frame_buffer := fb
          regs := Function.update m.regs 0xF vf
          pc := m.pc + 2 } ∧
        (∀ r, fb r < 2 ^ 64) ∧
        (∀ r j, (fb r).testBit j = xor ((m.frame_buffer r).testBit j)
          (decide (y0 ≤ r ∧ r < y0 + n ∧ r < 32 ∧ x0 ≤ j ∧ j < x0 + 8 ∧ j < 64) &&
            (m.memory (m.regi + (r - y0))).testBit (7 - (j - x0)))) ∧
        vf ≤ 1 ∧
        (vf = 1 ↔
          ∃ r j, y0 ≤ r ∧ r < y0 + n ∧ r < 32 ∧ x0 ≤ j ∧ j < x0 + 8 ∧ j < 64 ∧
            (m.frame_buffer r).testBit j = true ∧
            (m.memory (m.regi + (r - y0))).testBit (7 - (j - x0)) = true) := by
  have hx0' : Function.update m.regs 0xF 0 x % 64 = x0 := by
    rw [update_flag_zero_apply, hx0]
  have hy0' : Function.update m.regs 0xF 0 y % 32 = y0 := by
    rw [update_flag_zero_apply, hy0]
  have hx64 : x0 < 64 := by rw [hx0]; exact Nat.mod_lt _ (by decide)
  have hy32 : y0 < 32 := by rw [hy0]; exact Nat.mod_lt _ (by decide)
  have heq := fde_drw_eq m x y n hx hy hn h
  rw [hx0', hy0'] at heq
  obtain ⟨hiff, herr⟩ := drw_rows_ok_iff x0 n 0 y0
    { m.toChip8 with regs := Function.update m.regs 0xF 0 } (by omega)
  have hiff' : (∃ res, drw_rows x0 n 0 y0
        { m.toChip8 with regs := Function.update m.regs 0xF 0 } = .ok res) ↔
      ∀ t, t < n → y0 + t < 32 → m.regi + t < 4096 := by
    rw [hiff]
    constructor
    · intro hall t ht hyt
      have h0 := hall 0 (by omega) (by omega)
      have ht' := hall t ht hyt
      simp only [Nat.zero_add, Nat.add_zero] at h0 ht'
      have : m.regi < 4096 := by
        rw [Nat.mod_eq_of_lt hregi] at h0
        exact h0
      omega
    · intro hall t ht hyt
      have := hall t ht hyt
      simp only [Nat.zero_add]
      omega
  refine ⟨?_, ?_, ?_⟩
  · rw [← hiff', heq]
    constructor
    · rintro ⟨m', hm'⟩
      cases hr : drw_rows x0 n 0 y0 { m.toChip8 with regs := Function.update m.regs 0xF 0 } with
      | error e => rw [hr] at hm'; cases hm'
      | ok res => exact ⟨res, rfl⟩
    · rintro ⟨res, hres⟩
      rw [hres]
      exact ⟨_, rfl⟩
  · intro e he
    rw [heq] at he
    cases hr : drw_rows x0 n 0 y0 { m.toChip8 with regs := Function.update m.regs 0xF 0 } with
    | error e' =>
      rw [hr] at he
      simp only [Except.error.injEq] at he
      rw [← he]
      exact herr e' hr
    | ok res => rw [hr] at he; cases he
  · intro m' hm'
    rw [heq] at hm'
    cases hr : drw_rows x0 n 0 y0 { m.toChip8 with regs := Function.update m.regs 0xF 0 } with
    | error e => rw [hr] at hm'; cases hm'
    | ok res =>
      rw [hr] at hm'
      simp only [Except.ok.injEq] at hm'
      have hall := hiff'.1 ⟨res, hr⟩
      have hnowrap : m.regi + 0 + n ≤ 65536 := by
        rcases Nat.eq_zero_or_pos n with h0 | hpos
        · omega
        · have := hall 0 hpos (by omega)
          omega
      obtain ⟨fb, vf, hres, hfb', hbits, hvf, hvfiff⟩ := drw_rows_spec x0 hx64 n 0 y0
        { m.toChip8 with regs := Function.update m.regs 0xF 0 } res (by omega) hnowrap hfb
        (by dsimp only; rw [Function.update_same]; exact Nat.zero_le _) hr
      dsimp only at hres hbits hvfiff
      rw [Function.update_idem] at hres
      rw [Function.update_same] at hvfiff
      simp only [Nat.add_zero] at hbits hvfiff
      refine ⟨fb, vf, ?_, hfb', hbits, hvf, ?_⟩
      · rw [← hm', hres]
        simp only [pc_add2_of_fetch h]
      · rw [hvfiff]
        constructor
        · rintro (h0 | hex)
          · cases h0
          · exact hex
        · intro hex
          exact Or.inr hex


theorem draw_state_wellFormed (hi lo : Nat) (regs : Nat → Nat) (regi b0 b1 : Nat)
    (hhi : hi < 256) (hlo : lo < 256) (hregs : ∀ i, regs i < 256) (hregi : regi < 65536)
    (hb0 : b0 < 256) (hb1 : b1 < 256) :
    (draw_state hi lo regs regi b0 b1).toChip8.WellFormed := by
  constructor <;> simp [draw_state, main_init, hregs, hregi]
  intro i
  split_ifs <;> first | assumption | decide

/-- C12: when a fetched `Dxyn` succeeds in a well-formed state, with
`x0 = regs[x] mod 64` and `y0 = regs[y] mod 32` read after the flag has been
cleared (so `0` for operand register `0xF`): for every row `r < 32` and column
`c < 64`, if `y0 ≤ r < min (y0 + n) 32` and `x0 ≤ c < min (x0 + 8) 64` the new
bit `c` of row `r` is the old bit XOR bit `7 - (c - x0)` of
`memory[I + (r - y0)]`, and otherwise the bit is unchanged (nothing wraps to
the opposite edge).  The memory, the index register and the registers other
than `0xF` are unchanged and `pc` advances by 2. -/
theorem draw_sprite_pixels (m m' : Main) (x y n x0 y0 : Nat) (hwf : m.toChip8.WellFormed)
    (hx : x < 16) (hy : y < 16) (hn : n < 16)
    (h : op_fetch m.toChip8 = .ok (0xD000 + 256 * x + 16 * y + n))
    (hx0 : x0 = (if x = 0xF then 0 else m.regs x) % 64)
    (hy0 : y0 = (if y = 0xF then 0 else m.regs y) % 32)
    (hok : fetch_decode_execute m = .ok m') :
    (∀ r c, r < 32 → c < 64 →
      ((y0 ≤ r ∧ r < min (y0 + n) 32 ∧ x0 ≤ c ∧ c < min (x0 + 8) 64) →
        (m'.frame_buffer r).testBit c = xor ((m.frame_buffer r).testBit c)
          ((m.memory (m.regi + (r - y0))).testBit (7 - (c - x0)))) ∧
      (¬ (y0 ≤ r ∧ r < min (y0 + n) 32 ∧ x0 ≤ c ∧ c < min (x0 + 8) 64) →
        (m'.frame_buffer r).testBit c = (m.frame_buffer r).testBit c)) ∧
    m'.memory = m.memory ∧ m'.regi = m.regi ∧
    (∀ i, i ≠ 0xF → m'.regs i = m.regs i) ∧ m'.pc = m.pc + 2 := by
  obtain ⟨fb, vf, hm', -, hbits, -, -⟩ :=
    (fde_drw m x y n x0 y0 hx hy hn hwf.regi_lt hwf.frame_buffer_lt h hx0 hy0).2.2 m' hok
  subst hm'
  refine ⟨?_, rfl, rfl, ?_, rfl⟩
  · intro r c hr hc
    dsimp only
    rw [hbits r c]
    constructor
    · intro hin
      have : decide (y0 ≤ r ∧ r < y0 + n ∧ r < 32 ∧ x0 ≤ c ∧ c < x0 + 8 ∧ c < 64) = true := by
        simp only [decide_eq_true_eq]; omega
      rw [this, Bool.true_and]
    · intro hout
      have : decide (y0 ≤ r ∧ r < y0 + n ∧ r < 32 ∧ x0 ≤ c ∧ c < x0 + 8 ∧ c < 64) = false := by
        simp only [decide_eq_false_iff_not]; omega
      rw [this, Bool.false_and, Bool.xor_false]
  · intro i hi
    dsimp only
    rw [Function.update_noteq hi]

/-- C12, with `regs[0] = 62`, `regs[1] = 31`, `I = 0x300`, the sprite bytes
`C0`, `FF` and the instruction `D012` on a cleared screen: the draw succeeds,
pixels 62 and 63 of row 31 are set, the other six sprite columns and the whole
second sprite row are dropped (pixel 0 of row 31 and pixel 62 of row 0 stay
off). -/
theorem draw_sprite_pixels_witness :
    ∃ m', fetch_decode_execute (draw_state 0xD0 0x12 (regs_v0_v1 62 31) 0x300 0xC0 0xFF)
        = .ok m' ∧
      (m'.frame_buffer 31).testBit 62 = true ∧ (m'.frame_buffer 31).testBit 63 = true ∧
      (m'.frame_buffer 31).testBit 0 = false ∧ (m'.frame_buffer 0).testBit 62 = false ∧
      m'.regi = 0x300 ∧ m'.pc = 0x202 := by
  have hwf := draw_state_wellFormed 0xD0 0x12 (regs_v0_v1 62 31) 0x300 0xC0 0xFF (by decide)
    (by decide) (regs_v0_v1_lt _ _ (by decide) (by decide)) (by decide) (by decide) (by decide)
  obtain ⟨m', hm'⟩ :=
    (fde_drw (draw_state 0xD0 0x12 (regs_v0_v1 62 31) 0x300 0xC0 0xFF) 0 1 2 62 31
      (by decide) (by decide) (by decide) hwf.regi_lt hwf.frame_buffer_lt (by rfl)
      (by decide) (by decide)).1.2
      (by
        intro t ht _
        show 0x300 + t < 4096
        omega)
  obtain ⟨hpix, -, hregi, -, hpc⟩ :=
    draw_sprite_pixels (draw_state 0xD0 0x12 (regs_v0_v1 62 31) 0x300 0xC0 0xFF) m' 0 1 2 62 31
      hwf (by decide) (by decide) (by decide) (by rfl) (by decide) (by decide) hm'
  refine ⟨m', hm', ?_, ?_, ?_, ?_, hregi, hpc⟩
  · exact (hpix 31 62 (by decide) (by decide)).1 (by decide)
  · exact (hpix 31 63 (by decide) (by decide)).1 (by decide)
  · exact (hpix 31 0 (by decide) (by decide)).2 (by decide)
  · exact (hpix 0 62 (by decide) (by decide)).2 (by decide)

/-- The draw clears the flag before anything else, so the value the flag held
has no influence on the cycle. -/
theorem fde_drw_flag_irrelevant (m : Main) (x y n v : Nat) (hx : x < 16) (hy : y < 16)
    (hn : n < 16) (h : op_fetch m.toChip8 = .ok (0xD000 + 256 * x + 16 * y + n)) :
    fetch_decode_execute { m with regs := Function.update m.regs 0xF v }
      = fetch_decode_execute m := by
  rw [fde_drw_eq m x y n hx hy hn h,
    fde_drw_eq { m with regs := Function.update m.regs 0xF v } x y n hx hy hn h]
  dsimp only
  rw [Function.update_idem]

/-- C13: when a fetched `Dxyn` succeeds in a well-formed state, the flag is 1
afterwards if some pixel `(r, c)` of the clipped sprite rectangle was on before
the draw under a sprite bit 1, and 0 otherwise; the value the flag held before
has no influence on the result. -/
theorem draw_collision_flag (m m' : Main) (x y n x0 y0 : Nat) (hwf : m.toChip8.WellFormed)
    (hx : x < 16) (hy : y < 16) (hn : n < 16)
    (h : op_fetch m.toChip8 = .ok (0xD000 + 256 * x + 16 * y + n))
    (hx0 : x0 = (if x = 0xF then 0 else m.regs x) % 64)
    (hy0 : y0 = (if y = 0xF then 0 else m.regs y) % 32)
    (hok : fetch_decode_execute m = .ok m') :
    (m'.regs 0xF = 1 ↔
      ∃ r c, r < 32 ∧ c < 64 ∧ y0 ≤ r ∧ r < y0 + n ∧ x0 ≤ c ∧ c < x0 + 8 ∧
        (m.frame_buffer r).testBit c = true ∧
        (m.memory (m.regi + (r - y0))).testBit (7 - (c - x0)) = true) ∧
    (m'.regs 0xF = 0 ↔
      ¬ ∃ r c, r < 32 ∧ c < 64 ∧ y0 ≤ r ∧ r < y0 + n ∧ x0 ≤ c ∧ c < x0 + 8 ∧
        (m.frame_buffer r).testBit c = true ∧
        (m.memory (m.regi + (r - y0))).testBit (7 - (c - x0)) = true) ∧
    (∀ v, fetch_decode_execute { m with regs := Function.update m.regs 0xF v } = .ok m') := by
  obtain ⟨fb, vf, hm', -, -, hvf, hiff⟩ :=
    (fde_drw m x y n x0 y0 hx hy hn hwf.regi_lt hwf.frame_buffer_lt h hx0 hy0).2.2 m' hok
  have hflag : m'.regs 0xF = vf := by
    rw [hm']
    dsimp only
    rw [Function.update_same]
  have hiff' : vf = 1 ↔
      ∃ r c, r < 32 ∧ c < 64 ∧ y0 ≤ r ∧ r < y0 + n ∧ x0 ≤ c ∧ c < x0 + 8 ∧
        (m.frame_buffer r).testBit c = true ∧
        (m.memory (m.regi + (r - y0))).testBit (7 - (c - x0)) = true := by
    rw [hiff]
    constructor
    · rintro ⟨r, c, h1, h2, h3, h4, h5, h6, h7, h8⟩
      exact ⟨r, c, h3, h6, h1, h2, h4, h5, h7, h8⟩
    · rintro ⟨r, c, h3, h6, h1, h2, h4, h5, h7, h8⟩
      exact ⟨r, c, h1, h2, h3, h4, h5, h6, h7, h8⟩
  refine ⟨by rw [hflag]; exact hiff', ?_, ?_⟩
  · rw [hflag, ← hiff']
    omega
  · intro v
    rw [fde_drw_flag_irrelevant m x y n v hx hy hn h]
    exact hok

/-- C13, with the sprite byte `FF` drawn by `D001` at (0, 0): on a cleared
screen the flag ends at 0, also when it held 1 before; on a screen whose pixel
(0, 3) is on it ends at 1. -/
theorem draw_collision_flag_witness :
    (∃ m', fetch_decode_execute (draw_state 0xD0 0x01 (regs_v0_vf 0 1) 0x300 0xFF 0) = .ok m' ∧
      m'.regs 0xF = 0) ∧
    (∃ m', fetch_decode_execute
        { draw_state 0xD0 0x01 (regs_v0_vf 0 0) 0x300 0xFF 0 with
          frame_buffer := fun r => if r = 0 then 8 else 0 } = .ok m' ∧
      m'.regs 0xF = 1) := by
  have hwf1 := draw_state_wellFormed 0xD0 0x01 (regs_v0_vf 0 1) 0x300 0xFF 0 (by decide)
    (by decide) (regs_v0_vf_lt _ _ (by decide) (by decide)) (by decide) (by decide) (by decide)
  have hwf2 : ({ draw_state 0xD0 0x01 (regs_v0_vf 0 0) 0x300 0xFF 0 with
      frame_buffer := fun r => if r = 0 then 8 else 0 } : Main).toChip8.WellFormed := by
    have := draw_state_wellFormed 0xD0 0x01 (regs_v0_vf 0 0) 0x300 0xFF 0 (by decide)
      (by decide) (regs_v0_vf_lt _ _ (by decide) (by decide)) (by decide) (by decide)
      (by decide)
    exact { this with
      frame_buffer_lt := by
        intro r
        show (if r = 0 then 8 else 0) < 2 ^ 64
        split_ifs <;> decide }
  obtain ⟨m1, hm1⟩ :=
    (fde_drw (draw_state 0xD0 0x01 (regs_v0_vf 0 1) 0x300 0xFF 0) 0 0 1 0 0
      (by decide) (by decide) (by decide) hwf1.regi_lt hwf1.frame_buffer_lt (by rfl)
      (by decide) (by decide)).1.2
      (by intro t ht _; show 0x300 + t < 4096; omega)
  obtain ⟨m2, hm2⟩ :=
    (fde_drw { draw_state 0xD0 0x01 (regs_v0_vf 0 0) 0x300 0xFF 0 with
        frame_buffer := fun r => if r = 0 then 8 else 0 } 0 0 1 0 0
      (by decide) (by decide) (by decide) hwf2.regi_lt hwf2.frame_buffer_lt (by rfl)
      (by decide) (by decide)).1.2
      (by intro t ht _; show 0x300 + t < 4096; omega)
  refine ⟨⟨m1, hm1, ?_⟩, ⟨m2, hm2, ?_⟩⟩
  · apply (draw_collision_flag _ m1 0 0 1 0 0 hwf1 (by decide) (by decide) (by decide) (by rfl)
      (by decide) (by decide) hm1).2.1.2
    rintro ⟨r, c, -, -, -, -, -, -, hbit, -⟩
    have : (0 : Nat).testBit c = true := hbit
    rw [Nat.zero_testBit] at this
    cases this
  · apply (draw_collision_flag _ m2 0 0 1 0 0 hwf2 (by decide) (by decide) (by decide) (by rfl)
      (by decide) (by decide) hm2).1.2
    exact ⟨0, 3, by decide, by decide, by decide, by decide, by decide, by decide,
      by decide, by decide⟩

/-- C14: when a fetched `Dxyn` succeeds in a well-formed state and the same
`Dxyn` is fetched again in the next cycle (any operands, operand register
`0xF` included), the second draw succeeds too and leaves the framebuffer
exactly as it was before the first.  The first draw flips the pixels of the
clipped rectangle that lie under a sprite bit 1.  On a cleared framebuffer the
first draw leaves the flag at 0, and the second leaves it at 1 whenever a
sprite bit 1 lands on the screen (at 0 when none does). -/
theorem draw_twice_restores (m : Main) (x y n x0 y0 : Nat) (hwf : m.toChip8.WellFormed)
    (hx : x < 16) (hy : y < 16) (hn : n < 16)
    (h1 : op_fetch m.toChip8 = .ok (0xD000 + 256 * x + 16 * y + n))
    (h2 : op_fetch { m.toChip8 with pc := m.pc + 2 } = .ok (0xD000 + 256 * x + 16 * y + n))
    (hx0 : x0 = (if x = 0xF then 0 else m.regs x) % 64)
    (hy0 : y0 = (if y = 0xF then 0 else m.regs y) % 32)
    (hs : ∃ m1, fetch_decode_execute m = .ok m1) :
    ∃ m1 m2, fetch_decode_execute m = .ok m1 ∧ fetch_decode_execute m1 = .ok m2 ∧
      m1.memory = m.memory ∧ m1.regi = m.regi ∧
      m2.frame_buffer = m.frame_buffer ∧
      (∀ r c, (m1.frame_buffer r).testBit c = xor ((m.frame_buffer r).testBit c)
        (decide (y0 ≤ r ∧ r < y0 + n ∧ r < 32 ∧ x0 ≤ c ∧ c < x0 + 8 ∧ c < 64) &&
          (m.memory (m.regi + (r - y0))).testBit (7 - (c - x0)))) ∧
      ((∀ r, m.frame_buffer r = 0) →
        m1.regs 0xF = 0 ∧
        ((∃ r c, y0 ≤ r ∧ r < y0 + n ∧ r < 32 ∧ x0 ≤ c ∧ c < x0 + 8 ∧ c < 64 ∧
            (m.memory (m.regi + (r - y0))).testBit (7 - (c - x0)) = true) →
          m2.regs 0xF = 1) ∧
        ((¬ ∃ r c, y0 ≤ r ∧ r < y0 + n ∧ r < 32 ∧ x0 ≤ c ∧ c < x0 + 8 ∧ c < 64 ∧
            (m.memory (m.regi + (r - y0))).testBit (7 - (c - x0)) = true) →
          m2.regs 0xF = 0)) := by
  obtain ⟨m1, hm1⟩ := hs
  have hd1 := fde_drw m x y n x0 y0 hx hy hn hwf.regi_lt hwf.frame_buffer_lt h1 hx0 hy0
  obtain ⟨fb1, vf1, hm1eq, hfb1, hbits1, hvf1, hiff1⟩ := hd1.2.2 m1 hm1
  have hall := hd1.1.1 ⟨m1, hm1⟩
  subst hm1eq
  have hx0' : x0 = (if x = 0xF then 0 else Function.update m.regs 0xF vf1 x) % 64 := by
    rw [hx0]
    by_cases hxF : x = 0xF
    · rw [if_pos hxF, if_pos hxF]
    · rw [if_neg hxF, if_neg hxF, Function.update_noteq hxF]
  have hy0' : y0 = (if y = 0xF then 0 else Function.update m.regs 0xF vf1 y) % 32 := by
    rw [hy0]
    by_cases hyF : y = 0xF
    · rw [if_pos hyF, if_pos hyF]
    · rw [if_neg hyF, if_neg hyF, Function.update_noteq hyF]
  have hd2 := fde_drw
    { m with
      op := 0xD000 + 256 * x + 16 * y + n
      frame_buffer := fb1
      regs := Function.update m.regs 0xF vf1
      pc := m.pc + 2 } x y n x0 y0 hx hy hn hwf.regi_lt hfb1 h2 hx0' hy0'
  obtain ⟨m2, hm2⟩ := hd2.1.2 hall
  obtain ⟨fb2, vf2, hm2eq, hfb2, hbits2, hvf2, hiff2⟩ := hd2.2.2 m2 hm2
  dsimp only at hbits2 hiff2
  refine ⟨_, m2, hm1, hm2, rfl, rfl, ?_, hbits1, ?_⟩
  · rw [hm2eq]
    dsimp only
    funext r
    apply Nat.eq_of_testBit_eq
    intro c
    rw [hbits2 r c, hbits1 r c, Bool.xor_assoc, Bool.xor_self, Bool.xor_false]
  · intro hclear
    have hvf1z : vf1 = 0 := by
      have : ¬ vf1 = 1 := by
        rw [hiff1]
        rintro ⟨r, c, -, -, -, -, -, -, hbit, -⟩
        rw [hclear r, Nat.zero_testBit] at hbit
        cases hbit
      omega
    have hflag2 : m2.regs 0xF = vf2 := by
      rw [hm2eq]
      dsimp only
      rw [Function.update_idem, Function.update_same]
    have hiff2' : vf2 = 1 ↔
        ∃ r c, y0 ≤ r ∧ r < y0 + n ∧ r < 32 ∧ x0 ≤ c ∧ c < x0 + 8 ∧ c < 64 ∧
          (m.memory (m.regi + (r - y0))).testBit (7 - (c - x0)) = true := by
      rw [hiff2]
      constructor
      · rintro ⟨r, c, a1, a2, a3, a4, a5, a6, -, a8⟩
        exact ⟨r, c, a1, a2, a3, a4, a5, a6, a8⟩
      · rintro ⟨r, c, a1, a2, a3, a4, a5, a6, a8⟩
        refine ⟨r, c, a1, a2, a3, a4, a5, a6, ?_, a8⟩
        rw [hbits1 r c, hclear r, Nat.zero_testBit, a8]
        have : decide (y0 ≤ r ∧ r < y0 + n ∧ r < 32 ∧ x0 ≤ c ∧ c < x0 + 8 ∧ c < 64) = true := by
          simp only [decide_eq_true_eq]
          exact ⟨a1, a2, a3, a4, a5, a6⟩
        rw [this]
        rfl
    refine ⟨?_, ?_, ?_⟩
    · dsimp only
      rw [Function.update_same]
      exact hvf1z
    · intro hex
      rw [hflag2]
      exact hiff2'.2 hex
    · intro hnex
      rw [hflag2]
      have : ¬ vf2 = 1 := fun h => hnex (hiff2'.1 h)
      omega

/-- C14, with the sprite byte `FF` drawn by `D001` at (0, 0) on a cleared
screen: the first draw sets pixels 0 to 7 of row 0 and leaves the flag at 0;
the second clears them again and leaves the flag at 1. -/
theorem draw_twice_restores_witness :
    ∃ m1 m2,
      fetch_decode_execute (draw_state 0xD0 0x01 (fun _ => 0) 0x300 0xFF 0) = .ok m1 ∧
      fetch_decode_execute m1 = .ok m2 ∧
      (∀ c, c < 8 → (m1.frame_buffer 0).testBit c = true) ∧
      (∀ c, 8 ≤ c → (m1.frame_buffer 0).testBit c = false) ∧
      m1.regs 0xF = 0 ∧
      (∀ r, m2.frame_buffer r = 0) ∧ m2.regs 0xF = 1 := by
  have hwf := draw_state_wellFormed 0xD0 0x01 (fun _ => 0) 0x300 0xFF 0 (by decide)
    (by decide) (fun _ => Nat.zero_lt_succ _) (by decide) (by decide) (by decide)
  have hs : ∃ m1, fetch_decode_execute (draw_state 0xD0 0x01 (fun _ => 0) 0x300 0xFF 0)
      = .ok m1 :=
    (fde_drw (draw_state 0xD0 0x01 (fun _ => 0) 0x300 0xFF 0) 0 0 1 0 0
      (by decide) (by decide) (by decide) hwf.regi_lt hwf.frame_buffer_lt (by rfl)
      (by decide) (by decide)).1.2
      (by intro t ht _; show 0x300 + t < 4096; omega)
  obtain ⟨m1, m2, hm1, hm2, -, -, hfb2, hbits1, hflags⟩ :=
    draw_twice_restores (draw_state 0xD0 0x01 (fun _ => 0) 0x300 0xFF 0) 0 0 1 0 0 hwf
      (by decide) (by decide) (by decide) (by rfl) (by rfl) (by decide) (by decide) hs
  obtain ⟨hf1, hf2, -⟩ := hflags (fun _ => rfl)
  refine ⟨m1, m2, hm1, hm2, ?_, ?_, hf1, ?_, ?_⟩
  · intro c hc
    rw [hbits1 0 c]
    have hd : decide (0 ≤ 0 ∧ 0 < 0 + 1 ∧ 0 < 32 ∧ 0 ≤ c ∧ c < 0 + 8 ∧ c < 64) = true := by
      simp only [decide_eq_true_eq]; omega
    rw [hd]
    show xor ((0 : Nat).testBit c) (true && (0xFF : Nat).testBit (7 - (c - 0))) = true
    rw [Nat.zero_testBit]
    have : (0xFF : Nat).testBit (7 - (c - 0)) = true := by
      have := Nat.testBit_two_pow_sub_one 8 (7 - (c - 0))
      rw [this]
      simp only [decide_eq_true_eq]
      omega
    rw [this]
    rfl
  · intro c hc
    rw [hbits1 0 c]
    have hd : decide (0 ≤ 0 ∧ 0 < 0 + 1 ∧ 0 < 32 ∧ 0 ≤ c ∧ c < 0 + 8 ∧ c < 64) = false := by
      simp only [decide_eq_false_iff_not]; omega
    rw [hd]
    show xor ((0 : Nat).testBit c) (false && _) = false
    rw [Nat.zero_testBit]
    rfl
  · intro r
    rw [hfb2]
    rfl
  · exact hf2 ⟨0, 0, by decide, by decide, by decide, by decide, by decide, by decide,
      by decide⟩


/-! ## The pattern table: overlaps -/

theorem and_shiftRight (a b i : Nat) : (a &&& b) >>> i = (a >>> i) &&& (b >>> i) := by
  apply Nat.eq_of_testBit_eq
  intro j
  rw [Nat.testBit_shiftRight, Nat.testBit_and, Nat.testBit_and, Nat.testBit_shiftRight,
    Nat.testBit_shiftRight]

/-- Every mask of the table selects the whole top nibble. -/
theorem op_decode_table_mask_top (type : Op_Type) : (op_decode_table type).mask >>> 12 = 15 := by
  cases type <;> rfl

/-- A word that matches an entry has the top nibble of the entry's value. -/
theorem op_matches_top_nibble (w : Nat) (type : Op_Type) (hw : w < 65536)
    (h : (op_decode_table type).mask &&& w = (op_decode_table type).value) :
    (op_decode_table type).value >>> 12 = w >>> 12 := by
  have hlt : w >>> 12 < 2 ^ 4 := by
    rw [Nat.shiftRight_eq_div_pow]
    omega
  rw [← h, and_shiftRight, op_decode_table_mask_top, Nat.and_comm]
  exact Nat.and_pow_two_sub_one_of_lt_two_pow hlt

/-- The list `op_types` holds every value of the enumeration. -/
theorem op_types_complete (type : Op_Type) : type ∈ op_types := by
  cases type <;> decide

theorem op_decode_table_overlaps_list : ∀ t1 ∈ op_types, ∀ t2 ∈ op_types, t1 ≠ t2 →
    (op_decode_table t1).value >>> 12 = (op_decode_table t2).value >>> 12 →
    ((op_decode_table t1).mask = (op_decode_table t2).mask ∧
      (op_decode_table t1).value ≠ (op_decode_table t2).value) ∨
    ((op_decode_table t1).mask = 0xFFFF ∧
      ((op_decode_table t1).value = 0x00E0 ∨ (op_decode_table t1).value = 0x00EE)) ∨
    ((op_decode_table t2).mask = 0xFFFF ∧
      ((op_decode_table t2).value = 0x00E0 ∨ (op_decode_table t2).value = 0x00EE)) := by
  decide

/-- Two different entries whose values share the top nibble either have the
same mask and different values, or one of them is the exact pattern `00E0` or
`00EE`. -/
theorem op_decode_table_overlaps (t1 t2 : Op_Type) : t1 ≠ t2 →
    (op_decode_table t1).value >>> 12 = (op_decode_table t2).value >>> 12 →
    ((op_decode_table t1).mask = (op_decode_table t2).mask ∧
      (op_decode_table t1).value ≠ (op_decode_table t2).value) ∨
    ((op_decode_table t1).mask = 0xFFFF ∧
      ((op_decode_table t1).value = 0x00E0 ∨ (op_decode_table t1).value = 0x00EE)) ∨
    ((op_decode_table t2).mask = 0xFFFF ∧
      ((op_decode_table t2).value = 0x00E0 ∨ (op_decode_table t2).value = 0x00EE)) :=
  op_decode_table_overlaps_list t1 (op_types_complete t1) t2 (op_types_complete t2)

/-- At most one entry matches a 16-bit word other than `00E0` and `00EE`. -/
theorem op_matches_unique (w : Nat) (hw : w < 65536) (hcls : w ≠ 0x00E0) (hret : w ≠ 0x00EE)
    (t1 t2 : Op_Type)
    (h1 : (op_decode_table t1).mask &&& w = (op_decode_table t1).value)
    (h2 : (op_decode_table t2).mask &&& w = (op_decode_table t2).value) : t1 = t2 := by
  by_contra hne
  have hw' : w < 2 ^ 16 := hw
  have hexact : ∀ t : Op_Type, (op_decode_table t).mask = 0xFFFF →
      (op_decode_table t).mask &&& w = (op_decode_table t).value →
      ¬ ((op_decode_table t).value = 0x00E0 ∨ (op_decode_table t).value = 0x00EE) := by
    intro t hm h hv
    rw [hm, Nat.and_comm] at h
    have hww : w &&& 2 ^ 16 - 1 = w := Nat.and_pow_two_sub_one_of_lt_two_pow hw'
    have : w = (op_decode_table t).value := hww.symm.trans h
    rcases hv with hv | hv
    · exact hcls (this.trans hv)
    · exact hret (this.trans hv)
  have htop : (op_decode_table t1).value >>> 12 = (op_decode_table t2).value >>> 12 :=
    (op_matches_top_nibble w t1 hw h1).trans (op_matches_top_nibble w t2 hw h2).symm
  rcases op_decode_table_overlaps t1 t2 hne htop with ⟨hm, hv⟩ | ⟨hm, hv⟩ | ⟨hm, hv⟩
  · apply hv
    rw [← h1, ← h2, hm]
  · exact hexact t1 hm h1 hv
  · exact hexact t2 hm h2 hv

/-- What the scan returns is in the list and matches. -/
theorem op_decode_loop_some (op : Nat) (type : Op_Type) (l : List Op_Type)
    (h : op_decode_loop op l = some type) : type ∈ l ∧ op_matches op type = true := by
  induction l with
  | nil => cases h
  | cons a rest ih =>
    unfold op_decode_loop at h
    by_cases ha : op_matches op a = true
    · rw [if_pos ha] at h
      cases h
      exact ⟨List.mem_cons_self _ _, ha⟩
    · rw [if_neg ha] at h
      obtain ⟨hmem, hm⟩ := ih h
      exact ⟨List.mem_cons_of_mem _ hmem, hm⟩

/-- The scan runs off the end of the list exactly when nothing in it matches. -/
theorem op_decode_loop_none (op : Nat) (l : List Op_Type) :
    op_decode_loop op l = none ↔ ∀ type, type ∈ l → op_matches op type = false := by
  induction l with
  | nil => simp [op_decode_loop]
  | cons a rest ih =>
    unfold op_decode_loop
    by_cases ha : op_matches op a = true
    · rw [if_pos ha]
      constructor
      · intro h; cases h
      · intro h
        have := h a (List.mem_cons_self _ _)
        rw [ha] at this
        cases this
    · rw [if_neg ha, ih]
      constructor
      · intro h type hmem
        rcases List.mem_cons.1 hmem with rfl | hmem
        · simpa using ha
        · exact h type hmem
      · intro h type hmem
        exact h type (List.mem_cons_of_mem _ hmem)

theorem op_matches_iff (op : Nat) (type : Op_Type) :
    op_matches op type = true ↔
      (op_decode_table type).mask &&& op = (op_decode_table type).value := by
  simp [op_matches]

/-- C22: for a 16-bit word other than `00E0` and `00EE` at most one entry of
`op_decode_table` matches (so also for every word with top nibble 8), and
scanning the entries in any other order gives the result of `op_decode`;
`00E0` matches exactly `OP_CLS` and `OP_SYS`, `00EE` exactly `OP_RET` and
`OP_SYS`. -/
theorem pattern_table_unambiguous :
    (∀ w : Nat, w < 65536 → w ≠ 0x00E0 → w ≠ 0x00EE → ∀ t1 t2 : Op_Type,
      (op_decode_table t1).mask &&& w = (op_decode_table t1).value →
      (op_decode_table t2).mask &&& w = (op_decode_table t2).value → t1 = t2) ∧
    (∀ w : Nat, w < 65536 → w ≠ 0x00E0 → w ≠ 0x00EE → ∀ l : List Op_Type,
      l.Perm op_types → op_decode_loop w l = op_decode w) ∧
    (∀ type : Op_Type,
      (op_decode_table type).mask &&& 0x00E0 = (op_decode_table type).value ↔
        (type = OP_CLS ∨ type = OP_SYS)) ∧
    (∀ type : Op_Type,
      (op_decode_table type).mask &&& 0x00EE = (op_decode_table type).value ↔
        (type = OP_RET ∨ type = OP_SYS)) := by
  have hcls : ∀ type ∈ op_types,
      ((op_decode_table type).mask &&& 0x00E0 = (op_decode_table type).value ↔
        (type = OP_CLS ∨ type = OP_SYS)) := by decide
  have hret : ∀ type ∈ op_types,
      ((op_decode_table type).mask &&& 0x00EE = (op_decode_table type).value ↔
        (type = OP_RET ∨ type = OP_SYS)) := by decide
  refine ⟨op_matches_unique, ?_, fun type => hcls type (op_types_complete type),
    fun type => hret type (op_types_complete type)⟩
  intro w hw hcls hret l hperm
  unfold op_decode
  cases hd : op_decode_loop w op_types with
  | none =>
    rw [op_decode_loop_none] at hd ⊢
    intro type hmem
    exact hd type (hperm.mem_iff.1 hmem)
  | some type =>
    obtain ⟨hmem, hm⟩ := op_decode_loop_some w type op_types hd
    cases hl : op_decode_loop w l with
    | none =>
      rw [op_decode_loop_none] at hl
      have := hl type (hperm.mem_iff.2 hmem)
      rw [hm] at this
      cases this
    | some type' =>
      obtain ⟨-, hm'⟩ := op_decode_loop_some w type' l hl
      rw [op_matches_unique w hw hcls hret type' type ((op_matches_iff _ _).1 hm')
        ((op_matches_iff _ _).1 hm)]

/-- C22, at the word `8124` (top nibble 8): `OP_ADD_R_R` is its only match,
and scanning the table backwards decodes it the same way. -/
theorem pattern_table_unambiguous_witness :
    (∀ type : Op_Type,
      (op_decode_table type).mask &&& 0x8124 = (op_decode_table type).value →
      type = OP_ADD_R_R) ∧
    op_decode_loop 0x8124 op_types.reverse = op_decode 0x8124 :=
  ⟨fun type h => pattern_table_unambiguous.1 0x8124 (by decide) (by decide) (by decide)
      type OP_ADD_R_R h (by decide),
    pattern_table_unambiguous.2.1 0x8124 (by decide) (by decide) (by decide)
      op_types.reverse (List.reverse_perm _)⟩

/-! ## What the executor leaves in place -/

/-- The inner loop of the draw touches the framebuffer and the registers
only. -/
theorem drw_bits_frame (x y sprite : Nat) (left : Nat) :
    ∀ (k : Nat) (c : Chip8),
      (drw_bits x y sprite left k c).sp = c.sp ∧
      (drw_bits x y sprite left k c).stack = c.stack ∧
      (drw_bits x y sprite left k c).sound_timer = c.sound_timer ∧
      (drw_bits x y sprite left k c).delay_timer = c.delay_timer := by
  induction left with
  | zero => intro k c; exact ⟨rfl, rfl, rfl, rfl⟩
  | succ left ih =>
    intro k c
    unfold drw_bits
    dsimp only
    split_ifs
    · exact ih _ _
    · exact ⟨rfl, rfl, rfl, rfl⟩

/-- The outer loop of the draw touches the framebuffer and the registers
only. -/
theorem drw_rows_frame (x : Nat) (left : Nat) :
    ∀ (i y : Nat) (c res : Chip8), drw_rows x left i y c = .ok res →
      res.sp = c.sp ∧ res.stack = c.stack ∧ res.sound_timer = c.sound_timer ∧
      res.delay_timer = c.delay_timer := by
  induction left with
  | zero =>
    intro i y c res h
    cases h
    exact ⟨rfl, rfl, rfl, rfl⟩
  | succ left ih =>
    intro i y c res h
    unfold drw_rows at h
    dsimp only at h
    split_ifs at h
    · obtain ⟨a1, a2, a3, a4⟩ := ih _ _ _ _ h
      obtain ⟨b1, b2, b3, b4⟩ := drw_bits_frame x y (c.memory ((c.regi + i) % 65536)) 8 0 c
      exact ⟨a1.trans b1, a2.trans b2, a3.trans b3, a4.trans b4⟩
    · cases h
      exact ⟨rfl, rfl, rfl, rfl⟩

/-- The store loop touches the memory and the index register only. -/
theorem ld_imem_r_loop_frame (left : Nat) :
    ∀ (i : Nat) (c res : Chip8), ld_imem_r_loop left i c = .ok res →
      res.sp = c.sp ∧ res.stack = c.stack ∧ res.sound_timer = c.sound_timer ∧
      res.delay_timer = c.delay_timer := by
  induction left with
  | zero =>
    intro i c res h
    cases h
    exact ⟨rfl, rfl, rfl, rfl⟩
  | succ left ih =>
    intro i c res h
    unfold ld_imem_r_loop at h
    dsimp only at h
    split_ifs at h
    have := ih _ _ _ h
    exact this

/-- The load loop touches the registers and the index register only. -/
theorem ld_r_imem_loop_frame (left : Nat) :
    ∀ (i : Nat) (c res : Chip8), ld_r_imem_loop left i c = .ok res →
      res.sp = c.sp ∧ res.stack = c.stack ∧ res.sound_timer = c.sound_timer ∧
      res.delay_timer = c.delay_timer := by
  induction left with
  | zero =>
    intro i c res h
    cases h
    exact ⟨rfl, rfl, rfl, rfl⟩
  | succ left ih =>
    intro i c res h
    unfold ld_r_imem_loop at h
    dsimp only at h
    split_ifs at h
    have := ih _ _ _ h
    exact this

/-- No arm of the `switch` writes the sound timer. -/
theorem execute_sound_timer (type : Op_Type) (op : Nat) (m m' : Main)
    (h : execute type op m = .ok m') : m'.sound_timer = m.sound_timer := by
  cases type <;> simp only [execute] at h
  case OP_DRW =>
    split at h
    · cases h
    · next chip8 heq =>
      cases h
      exact (drw_rows_frame _ _ _ _ _ _ heq).2.2.1
  case OP_LD_IMEM_R =>
    split at h
    · cases h
    · next chip8 heq =>
      cases h
      exact (ld_imem_r_loop_frame _ _ _ _ heq).2.2.1
  case OP_LD_R_IMEM =>
    split at h
    · cases h
    · next chip8 heq =>
      cases h
      exact (ld_r_imem_loop_frame _ _ _ _ heq).2.2.1
  all_goals first
    | (cases h; done)
    | (cases h; rfl)
    | (split at h <;> first | (cases h; done) | (cases h; rfl))

/-- No arm of the `switch` changes the last fetched word. -/
theorem execute_op (type : Op_Type) (op : Nat) (m m' : Main)
    (h : execute type op m = .ok m') : m'.op = m.op := by
  cases type <;> simp only [execute] at h
  case OP_DRW =>
    split at h
    · cases h
    · cases h; rfl
  case OP_LD_IMEM_R =>
    split at h
    · cases h
    · cases h; rfl
  case OP_LD_R_IMEM =>
    split at h
    · cases h
    · cases h; rfl
  all_goals first
    | (cases h; done)
    | (cases h; rfl)
    | (split at h <;> first | (cases h; done) | (cases h; rfl))

/-- The arm `OP_CALL`, when it succeeds: `sp < 16`, the return address goes
to `stack[sp]` and `sp` grows by 1. -/
theorem execute_call (op : Nat) (m m' : Main) (h : execute OP_CALL op m = .ok m') :
    m.sp < 16 ∧ m'.sp = m.sp + 1 ∧
    m'.stack = Function.update m.stack m.sp ((m.pc + 2) % 65536) := by
  simp only [execute, STACK_SIZE, Nat.cast_ofNat] at h
  split at h
  · cases h
  · next hsp =>
    cases h
    exact ⟨by omega, rfl, rfl⟩

/-- The arm `OP_RET`, when it succeeds: `sp > 0`, `pc` comes from
`stack[sp - 1]` and `sp` shrinks by 1. -/
theorem execute_ret (op : Nat) (m m' : Main) (h : execute OP_RET op m = .ok m') :
    0 < m.sp ∧ m'.sp = m.sp - 1 ∧ m'.stack = m.stack ∧ m'.pc = m.stack (m.sp - 1) := by
  simp only [execute] at h
  split at h
  · cases h
  · next hsp =>
    cases h
    exact ⟨by omega, rfl, rfl, rfl⟩

/-- The other arms of the `switch` leave the stack and its pointer as they
are. -/
theorem execute_other (type : Op_Type) (op : Nat) (m m' : Main)
    (hcall : type ≠ OP_CALL) (hret : type ≠ OP_RET)
    (h : execute type op m = .ok m') : m'.sp = m.sp ∧ m'.stack = m.stack := by
  cases type <;> simp only [execute] at h
  case OP_CALL => exact absurd rfl hcall
  case OP_RET => exact absurd rfl hret
  case OP_DRW =>
    split at h
    · cases h
    · next chip8 heq =>
      cases h
      exact ⟨(drw_rows_frame _ _ _ _ _ _ heq).1, (drw_rows_frame _ _ _ _ _ _ heq).2.1⟩
  case OP_LD_IMEM_R =>
    split at h
    · cases h
    · next chip8 heq =>
      cases h
      exact ⟨(ld_imem_r_loop_frame _ _ _ _ heq).1, (ld_imem_r_loop_frame _ _ _ _ heq).2.1⟩
  case OP_LD_R_IMEM =>
    split at h
    · cases h
    · next chip8 heq =>
      cases h
      exact ⟨(ld_r_imem_loop_frame _ _ _ _ heq).1, (ld_r_imem_loop_frame _ _ _ _ heq).2.1⟩
  all_goals first
    | (cases h; done)
    | (cases h; exact ⟨rfl, rfl⟩)
    | (split at h <;> first | (cases h; done) | (cases h; exact ⟨rfl, rfl⟩))

/-- The keyboard loop touches the latch, the awaited-key flag and the
registers only. -/
theorem keyboard_loop_untouched (down up : Nat → Bool) (left : Nat) :
    ∀ (i : Nat) (m : Main),
      (keyboard_loop down up left i m).sp = m.sp ∧
      (keyboard_loop down up left i m).stack = m.stack ∧
      (keyboard_loop down up left i m).sound_timer = m.sound_timer ∧
      (keyboard_loop down up left i m).delay_timer = m.delay_timer := by
  induction left with
  | zero => intro i m; exact ⟨rfl, rfl, rfl, rfl⟩
  | succ left ih =>
    intro i m
    have hiter : (keyboard_iter down up i m).sp = m.sp ∧
        (keyboard_iter down up i m).stack = m.stack ∧
        (keyboard_iter down up i m).sound_timer = m.sound_timer ∧
        (keyboard_iter down up i m).delay_timer = m.delay_timer := by
      unfold keyboard_iter
      dsimp only
      split_ifs <;> exact ⟨rfl, rfl, rfl, rfl⟩
    obtain ⟨a1, a2, a3, a4⟩ := ih (i + 1) (keyboard_iter down up i m)
    obtain ⟨b1, b2, b3, b4⟩ := hiter
    unfold keyboard_loop
    exact ⟨a1.trans b1, a2.trans b2, a3.trans b3, a4.trans b4⟩

/-- The timer block never raises a timer, and leaves a timer at 0 there. -/
theorem timer_tick_sound_timer (tick : Bool) (m : Main) :
    (timer_tick tick m).sound_timer ≤ m.sound_timer ∧
    (timer_tick tick m).delay_timer ≤ m.delay_timer := by
  by_cases h1 : m.delay_timer > 0 <;> by_cases h2 : m.sound_timer > 0 <;> cases tick <;>
    simp [timer_tick, h1, h2]

/-- The part of a cycle before the fetch leaves the stack and its pointer as
they are and does not raise the sound timer. -/
theorem before_fetch_frame (tick : Bool) (down up : Nat → Bool) (m : Main) :
    (keyboard_loop down up 16 0 (timer_tick tick m)).sp = m.sp ∧
    (keyboard_loop down up 16 0 (timer_tick tick m)).stack = m.stack ∧
    (keyboard_loop down up 16 0 (timer_tick tick m)).sound_timer ≤ m.sound_timer := by
  obtain ⟨a1, a2, a3, -⟩ := keyboard_loop_untouched down up 16 0 (timer_tick tick m)
  obtain ⟨-, -, -, -, -, -, -, -, b1, b2⟩ := timer_tick_frame tick m
  exact ⟨a1.trans b1, a2.trans b2, by rw [a3]; exact (timer_tick_sound_timer tick m).1⟩

/-- A cycle that succeeds either fetched nothing (a key is awaited), or
fetched a word, decoded it and ran its arm of the `switch`. -/
theorem cycle_ok_cases (tick : Bool) (down up : Nat → Bool) (m m' : Main)
    (h : cycle tick down up m = .ok m') :
    m' = keyboard_loop down up 16 0 (timer_tick tick m) ∨
    ∃ op type, op_fetch (keyboard_loop down up 16 0 (timer_tick tick m)).toChip8 = .ok op ∧
      op_decode op = some type ∧
      execute type op { keyboard_loop down up 16 0 (timer_tick tick m) with op := op }
        = .ok m' := by
  unfold cycle at h
  dsimp only at h
  split_ifs at h with hw
  · right
    unfold fetch_decode_execute at h
    split at h
    · cases h
    · next op hf =>
      split at h
      · cases h
      · next type hd => exact ⟨op, type, hf, hd, h⟩
  · left
    cases h
    rfl

/-- A property that holds at the start and that every successful cycle
preserves holds after any run of cycles. -/
theorem run_cycles_preserves (P : Main → Prop)
    (hstep : ∀ (input : Frame_Input) (m m' : Main), P m →
      cycle input.tick input.is_key_down input.is_key_up m = .ok m' → P m')
    (inputs : List Frame_Input) : ∀ (m0 m : Main), P m0 →
    run_cycles inputs m0 = .ok m → P m := by
  induction inputs with
  | nil =>
    intro m0 m h0 h
    cases h
    exact h0
  | cons input rest ih =>
    intro m0 m h0 h
    unfold run_cycles at h
    split at h
    · cases h
    · next m1 h1 => exact ih m1 m (hstep input m0 m1 h0 h1) h

/-- What a successful cycle does to the stack: nothing, or the push of a
`CALL` (into `stack[sp]`, with `sp < 16`), or the pop of a `RET` (from
`stack[sp - 1]`, with `sp > 0`). -/
theorem cycle_stack_cases (tick : Bool) (down up : Nat → Bool) (m m' : Main)
    (h : cycle tick down up m = .ok m') :
    (m'.sp = m.sp ∧ m'.stack = m.stack) ∨
    (op_decode m'.op = some OP_CALL ∧ m'.sp = m.sp + 1 ∧ m.sp < 16 ∧
      ∃ v, m'.stack = Function.update m.stack m.sp v) ∨
    (op_decode m'.op = some OP_RET ∧ m'.sp = m.sp - 1 ∧ 0 < m.sp ∧
      m'.stack = m.stack ∧ m'.pc = m.stack (m.sp - 1)) := by
  obtain ⟨bsp, bstack, -⟩ := before_fetch_frame tick down up m
  rcases cycle_ok_cases tick down up m m' h with h | ⟨op, type, -, hd, hex⟩
  · left
    rw [h]
    exact ⟨bsp, bstack⟩
  · have hop : m'.op = op := execute_op type op _ m' hex
    by_cases hcall : type = OP_CALL
    · subst hcall
      obtain ⟨h1, h2, h3⟩ := execute_call op _ m' hex
      right; left
      dsimp only at h1 h2 h3
      rw [bsp] at h1 h2 h3
      rw [bstack] at h3
      exact ⟨by rw [hop]; exact hd, h2, h1, _, h3⟩
    · by_cases hret : type = OP_RET
      · subst hret
        obtain ⟨h1, h2, h3, h4⟩ := execute_ret op _ m' hex
        right; right
        dsimp only at h1 h2 h3 h4
        rw [bsp] at h1 h2 h4
        rw [bstack] at h3 h4
        exact ⟨by rw [hop]; exact hd, h2, h1, h3, h4⟩
      · obtain ⟨h1, h2⟩ := execute_other type op _ m' hcall hret hex
        left
        dsimp only at h1 h2
        exact ⟨h1.trans bsp, h2.trans bstack⟩

/-- C21: in every state reached from the entry state (`sp = 0`) by successful
cycles, with any program image and any host inputs, `0 ≤ sp ≤ 16`.  A
successful cycle leaves `sp` and the stack as they are, or executes a `CALL`
(`sp + 1`, one slot written, at index `sp`) or a `RET` (`sp - 1`, one slot
read, at index `sp - 1`); from a reached state the slot written by the `CALL`
and the slot read by the `RET` have an index in `0 .. 15`. -/
theorem stack_pointer_invariant :
    (∀ (memory : Nat → Nat) (inputs : List Frame_Input) (m : Main),
      run_cycles inputs (main_init memory) = .ok m → 0 ≤ m.sp ∧ m.sp ≤ 16) ∧
    (∀ (input : Frame_Input) (m m' : Main),
      cycle input.tick input.is_key_down input.is_key_up m = .ok m' →
      (m'.sp = m.sp ∧ m'.stack = m.stack) ∨
      (op_decode m'.op = some OP_CALL ∧ m'.sp = m.sp + 1 ∧
        ∃ v, m'.stack = Function.update m.stack m.sp v) ∨
      (op_decode m'.op = some OP_RET ∧ m'.sp = m.sp - 1 ∧
        m'.stack = m.stack ∧ m'.pc = m.stack (m.sp - 1))) ∧
    (∀ (memory : Nat → Nat) (inputs : List Frame_Input) (m : Main) (input : Frame_Input)
      (m' : Main), run_cycles inputs (main_init memory) = .ok m →
      cycle input.tick input.is_key_down input.is_key_up m = .ok m' →
      (m'.sp = m.sp ∧ m'.stack = m.stack) ∨
      (m'.sp = m.sp + 1 ∧ (∃ v, m'.stack = Function.update m.stack m.sp v) ∧
        0 ≤ m.sp ∧ m.sp ≤ 15) ∨
      (m'.sp = m.sp - 1 ∧ m'.stack = m.stack ∧ m'.pc = m.stack (m.sp - 1) ∧
        0 ≤ m.sp - 1 ∧ m.sp - 1 ≤ 15)) := by
  have hinv : ∀ (memory : Nat → Nat) (inputs : List Frame_Input) (m : Main),
      run_cycles inputs (main_init memory) = .ok m → 0 ≤ m.sp ∧ m.sp ≤ 16 := by
    intro memory inputs m h
    refine run_cycles_preserves (fun s => 0 ≤ s.sp ∧ s.sp ≤ 16) ?_ inputs
      (main_init memory) m
      ⟨le_refl _, by show (0 : Int) ≤ 16; decide⟩ h
    intro input s s' hs hc
    rcases cycle_stack_cases _ _ _ s s' hc with ⟨h1, -⟩ | ⟨-, h1, h2, -⟩ | ⟨-, h1, h2, -⟩
    · rw [h1]; exact hs
    · rw [h1]; constructor <;> omega
    · rw [h1]; constructor <;> omega
  refine ⟨hinv, ?_, ?_⟩
  · intro input m m' hc
    rcases cycle_stack_cases _ _ _ m m' hc with h | ⟨h0, h1, -, h3⟩ | ⟨h0, h1, -, h3, h4⟩
    · exact Or.inl h
    · exact Or.inr (Or.inl ⟨h0, h1, h3⟩)
    · exact Or.inr (Or.inr ⟨h0, h1, h3, h4⟩)
  · intro memory inputs m input m' hrun hc
    obtain ⟨hlo, hhi⟩ := hinv memory inputs m hrun
    rcases cycle_stack_cases _ _ _ m m' hc with h | ⟨-, h1, h2, h3⟩ | ⟨-, h1, h2, h3, h4⟩
    · exact Or.inl h
    · exact Or.inr (Or.inl ⟨h1, h3, hlo, by omega⟩)
    · exact Or.inr (Or.inr ⟨h1, h3, h4, by omega, by omega⟩)

/-- C24: in every state reached from the entry state by cycles (timer block,
keyboard loop, executed instruction), with any program image and any host
inputs, `sound_timer = 0`: no cycle raises the sound timer, the timer block
leaves a timer at 0 there, and a fetched `Fx18` stops at its `TODO`
assertion. -/
theorem sound_timer_stays_zero :
    (∀ (memory : Nat → Nat) (inputs : List Frame_Input) (m : Main),
      run_cycles inputs (main_init memory) = .ok m → m.sound_timer = 0) ∧
    (∀ (input : Frame_Input) (m m' : Main),
      cycle input.tick input.is_key_down input.is_key_up m = .ok m' →
      m'.sound_timer ≤ m.sound_timer) ∧
    (∀ (tick : Bool) (m : Main), m.sound_timer = 0 → (timer_tick tick m).sound_timer = 0) ∧
    (∀ (m : Main) (x : Nat), x < 16 → op_fetch m.toChip8 = .ok (0xF018 + 256 * x) →
      fetch_decode_execute m = .error .todo) := by
  have hle : ∀ (input : Frame_Input) (m m' : Main),
      cycle input.tick input.is_key_down input.is_key_up m = .ok m' →
      m'.sound_timer ≤ m.sound_timer := by
    intro input m m' hc
    obtain ⟨-, -, bst⟩ := before_fetch_frame input.tick input.is_key_down input.is_key_up m
    rcases cycle_ok_cases _ _ _ m m' hc with h | ⟨op, type, -, -, hex⟩
    · rw [h]; exact bst
    · have := execute_sound_timer type op _ m' hex
      dsimp only at this
      rw [this]
      exact bst
  refine ⟨?_, hle, ?_, ?_⟩
  · intro memory inputs m h
    refine run_cycles_preserves (fun s => s.sound_timer = 0) ?_ inputs
      (main_init memory) m rfl h
    intro input s s' hs hc
    have := hle input s s' hc
    show s'.sound_timer = 0
    have hs0 : s.sound_timer = 0 := hs
    omega
  · intro tick m h0
    have := (timer_tick_sound_timer tick m).1
    omega
  · intro m x hx hf
    rw [fde_of_decode m _ OP_LD_ST_R hf (decode_ld_st_r_fin ⟨x, hx⟩)]
    rfl

/-- C21, on the self-calling program: after two cycles `sp = 2`, within
`0 .. 16`; the third cycle is a `CALL` that writes slot 2 and leaves
`sp = 3`. -/
theorem stack_pointer_invariant_witness :
    ∃ m m', run_cycles [idle_input, idle_input] (main_init call_self_memory) = .ok m ∧
      cycle idle_input.tick idle_input.is_key_down idle_input.is_key_up m = .ok m' ∧
      (0 ≤ m.sp ∧ m.sp ≤ 16) ∧ m.sp = 2 ∧ m'.sp = 3 ∧
      ((m'.sp = m.sp ∧ m'.stack = m.stack) ∨
        (m'.sp = m.sp + 1 ∧ (∃ v, m'.stack = Function.update m.stack m.sp v) ∧
          0 ≤ m.sp ∧ m.sp ≤ 15) ∨
        (m'.sp = m.sp - 1 ∧ m'.stack = m.stack ∧ m'.pc = m.stack (m.sp - 1) ∧
          0 ≤ m.sp - 1 ∧ m.sp - 1 ≤ 15)) :=
  ⟨_, _, rfl, rfl,
    stack_pointer_invariant.1 call_self_memory [idle_input, idle_input] _ rfl, rfl, rfl,
    stack_pointer_invariant.2.2 call_self_memory [idle_input, idle_input] _ idle_input _
      rfl rfl⟩

/-- C24, on the self-calling program and on `F118`: after two cycles the
sound timer is 0, and a cycle that fetches `F118` stops at the `TODO`
assertion. -/
theorem sound_timer_stays_zero_witness :
    (∃ m, run_cycles [idle_input, idle_input] (main_init call_self_memory) = .ok m ∧
      m.sound_timer = 0) ∧
    fetch_decode_execute (instr_state 0xF1 0x18 (regs_v0_v1 7 9) 0) = .error .todo :=
  ⟨⟨_, rfl, sound_timer_stays_zero.1 call_self_memory [idle_input, idle_input] _ rfl⟩,
    sound_timer_stays_zero.2.2.2 (instr_state 0xF1 0x18 (regs_v0_v1 7 9) 0) 1 (by decide)
      (by rfl)⟩

/-- C23: with destination `x = 0xF`, `8Fy4`, `8Fy5`, `8Fy7`, `8Fy6` and `8FyE`
leave in `regs[0xF]` the flag computed from the old operands (carry of
`regs[0xF] + regs[y]`; no borrow in `regs[0xF] - regs[y]`, resp.
`regs[y] - regs[0xF]`; bit 0, resp. bit 7, of `regs[y]`), which is 0 or 1; the
sum, difference or shifted value is stored nowhere: every other register is
unchanged. -/
theorem flag_write_wins :
    (∀ (m : Main) (y : Nat), m.toChip8.WellFormed → y < 16 →
      op_fetch m.toChip8 = .ok (0x8004 + 256 * 0xF + 16 * y) →
      ∃ m', fetch_decode_execute m = .ok m' ∧
        m'.regs 0xF = (if m.regs 0xF + m.regs y > 255 then 1 else 0) ∧
        (∀ i, i ≠ 0xF → m'.regs i = m.regs i) ∧ m'.pc = m.pc + 2) ∧
    (∀ (m : Main) (y : Nat), m.toChip8.WellFormed → y < 16 →
      op_fetch m.toChip8 = .ok (0x8005 + 256 * 0xF + 16 * y) →
      ∃ m', fetch_decode_execute m = .ok m' ∧
        m'.regs 0xF = (if m.regs 0xF ≥ m.regs y then 1 else 0) ∧
        (∀ i, i ≠ 0xF → m'.regs i = m.regs i) ∧ m'.pc = m.pc + 2) ∧
    (∀ (m : Main) (y : Nat), m.toChip8.WellFormed → y < 16 →
      op_fetch m.toChip8 = .ok (0x8007 + 256 * 0xF + 16 * y) →
      ∃ m', fetch_decode_execute m = .ok m' ∧
        m'.regs 0xF = (if m.regs y ≥ m.regs 0xF then 1 else 0) ∧
        (∀ i, i ≠ 0xF → m'.regs i = m.regs i) ∧ m'.pc = m.pc + 2) ∧
    (∀ (m : Main) (y : Nat), m.toChip8.WellFormed → y < 16 →
      op_fetch m.toChip8 = .ok (0x8006 + 256 * 0xF + 16 * y) →
      ∃ m', fetch_decode_execute m = .ok m' ∧
        m'.regs 0xF = m.regs y % 2 ∧
        (∀ i, i ≠ 0xF → m'.regs i = m.regs i) ∧ m'.pc = m.pc + 2) ∧
    (∀ (m : Main) (y : Nat), m.toChip8.WellFormed → y < 16 →
      op_fetch m.toChip8 = .ok (0x800E + 256 * 0xF + 16 * y) →
      ∃ m', fetch_decode_execute m = .ok m' ∧
        m'.regs 0xF = m.regs y / 128 % 2 ∧
        (∀ i, i ≠ 0xF → m'.regs i = m.regs i) ∧ m'.pc = m.pc + 2) := by
  refine ⟨?_, ?_, ?_, ?_, ?_⟩
  · intro m y hwf hy h
    have hvx := hwf.regs_lt 0xF
    have hvy := hwf.regs_lt y
    have hsum : (m.regs 0xF + m.regs y) % 65536 = m.regs 0xF + m.regs y := by omega
    refine ⟨_, fde_add_r_r m 0xF y (by decide) hy h, ?_, ?_, rfl⟩
    · dsimp only
      rw [Function.update_same, hsum]
    · intro i hi
      dsimp only
      rw [Function.update_noteq hi, Function.update_noteq hi]
  · intro m y _ hy h
    refine ⟨_, fde_sub m 0xF y (by decide) hy h, ?_, ?_, rfl⟩
    · dsimp only
      rw [Function.update_same]
    · intro i hi
      dsimp only
      rw [Function.update_noteq hi, Function.update_noteq hi]
  · intro m y _ hy h
    refine ⟨_, fde_subn m 0xF y (by decide) hy h, ?_, ?_, rfl⟩
    · dsimp only
      rw [Function.update_same]
    · intro i hi
      dsimp only
      rw [Function.update_noteq hi, Function.update_noteq hi]
  · intro m y _ hy h
    refine ⟨_, fde_shr m 0xF y (by decide) hy h, ?_, ?_, rfl⟩
    · dsimp only
      rw [Function.update_same, Nat.and_one_is_mod]
    · intro i hi
      dsimp only
      rw [Function.update_noteq hi, Function.update_noteq hi]
  · intro m y _ hy h
    refine ⟨_, fde_shl m 0xF y (by decide) hy h, ?_, ?_, rfl⟩
    · dsimp only
      rw [Function.update_same, Nat.and_one_is_mod, Nat.shiftRight_eq_div_pow]
    · intro i hi
      dsimp only
      rw [Function.update_noteq hi, Function.update_noteq hi]

/-- C23, at `regs[0] = 0x20`, `regs[0xF] = 0xF0` with `y = 0`: `8F04` leaves
the flag 1 (the sum `0x110` carries; its low byte `0x10` is lost), `8F05` leaves
1 (`0xF0 ≥ 0x20`), `8F07` leaves 0, `8F06` leaves 0 and `8F0E` leaves 0 (bits 0
and 7 of `0x20`); `regs[0]` stays `0x20`. -/
theorem flag_write_wins_witness :
    (∃ m', fetch_decode_execute (instr_state 0x8F 0x04 (regs_v0_vf 0x20 0xF0) 0) = .ok m' ∧
      m'.regs 0xF = 1 ∧ m'.regs 0 = 0x20) ∧
    (∃ m', fetch_decode_execute (instr_state 0x8F 0x05 (regs_v0_vf 0x20 0xF0) 0) = .ok m' ∧
      m'.regs 0xF = 1 ∧ m'.regs 0 = 0x20) ∧
    (∃ m', fetch_decode_execute (instr_state 0x8F 0x07 (regs_v0_vf 0x20 0xF0) 0) = .ok m' ∧
      m'.regs 0xF = 0 ∧ m'.regs 0 = 0x20) ∧
    (∃ m', fetch_decode_execute (instr_state 0x8F 0x06 (regs_v0_vf 0x20 0xF0) 0) = .ok m' ∧
      m'.regs 0xF = 0 ∧ m'.regs 0 = 0x20) ∧
    (∃ m', fetch_decode_execute (instr_state 0x8F 0x0E (regs_v0_vf 0x20 0xF0) 0) = .ok m' ∧
      m'.regs 0xF = 0 ∧ m'.regs 0 = 0x20) := by
  have hwf : ∀ lo, lo < 256 →
      (instr_state 0x8F lo (regs_v0_vf 0x20 0xF0) 0).toChip8.WellFormed := fun lo hlo =>
    instr_state_wellFormed _ _ _ _ (by decide) hlo
      (regs_v0_vf_lt _ _ (by decide) (by decide)) (by decide)
  obtain ⟨m1, h1, f1, o1, -⟩ := flag_write_wins.1 _ 0 (hwf 0x04 (by decide)) (by decide) (by rfl)
  obtain ⟨m2, h2, f2, o2, -⟩ :=
    flag_write_wins.2.1 _ 0 (hwf 0x05 (by decide)) (by decide) (by rfl)
  obtain ⟨m3, h3, f3, o3, -⟩ :=
    flag_write_wins.2.2.1 _ 0 (hwf 0x07 (by decide)) (by decide) (by rfl)
  obtain ⟨m4, h4, f4, o4, -⟩ :=
    flag_write_wins.2.2.2.1 _ 0 (hwf 0x06 (by decide)) (by decide) (by rfl)
  obtain ⟨m5, h5, f5, o5, -⟩ :=
    flag_write_wins.2.2.2.2 _ 0 (hwf 0x0E (by decide)) (by decide) (by rfl)
  exact ⟨⟨m1, h1, f1, o1 0 (by decide)⟩, ⟨m2, h2, f2, o2 0 (by decide)⟩,
    ⟨m3, h3, f3, o3 0 (by decide)⟩, ⟨m4, h4, f4, o4 0 (by decide)⟩,
    ⟨m5, h5, f5, o5 0 (by decide)⟩⟩

end Chip8Emu
